import Mathlib

set_option maxHeartbeats 1000000
set_option linter.unusedVariables false
set_option linter.unusedTactic false

/-
Verification development for the cminus compiler's parser front end.

The parser (Parser::parse_* in the repository) is embedded as a family of
fuel-indexed total functions over an explicit parser state.  The fuel only
bounds recursion depth: every function returns failure at fuel zero, and all
theorems about success are fuel-generic, while concrete runs instantiate the
fuel large enough.  Each recursive call is made at the predecessor fuel.

The semantic-action surface (Sema), the Parser lookahead machinery
(parser.hpp) and the scanner implementation are not part of the provided
sources; they are modelled from the specification and marked as such.
-/

namespace CMinus

/-- Category of a classified word.  The 27 source-word categories are from the
scanner header's `enum class Category`; the `Eof` sentinel is the end-of-input
category that `Parser::parse_program` compares `peek_word.category` against. -/
inductive Category where
  | Identifier
  | Number
  | Else
  | If
  | Int
  | Return
  | Void
  | While
  | Plus
  | Minus
  | Multiply
  | Divide
  | Less
  | LessEqual
  | Greater
  | GreaterEqual
  | Equal
  | NotEqual
  | Assign
  | Semicolon
  | Comma
  | OpenParen
  | CloseParen
  | OpenBracket
  | CloseBracket
  | OpenCurly
  | CloseCurly
  | Eof
deriving DecidableEq, Repr

/-- The 27 source-word categories exactly as listed in the scanner header's
`enum class Category` (every category a scanner-produced word can carry). -/
def sourceCategories : List Category :=
  [.Identifier, .Number,
   .Else, .If, .Int, .Return, .Void, .While,
   .Plus, .Minus, .Multiply, .Divide,
   .Less, .LessEqual, .Greater, .GreaterEqual, .Equal, .NotEqual,
   .Assign, .Semicolon, .Comma,
   .OpenParen, .CloseParen, .OpenBracket, .CloseBracket,
   .OpenCurly, .CloseCurly]

/-- Classified word: category plus lexeme, from the scanner header. -/
structure Word where
  category : Category
  lexeme : String
deriving DecidableEq, Repr

/-- Diagnostic enumeration, from the diagnostics header. -/
inductive Diag where
  | lexer_bad_number
  | lexer_bad_char
  | lexer_unclosed_comment
  | parser_expected_token
  | parser_expected_type
  | parser_expected_expression
  | parser_expected_statement
  | parser_number_too_big
  | sema_redefinition
  | sema_undeclared_identifier
  | sema_fun_is_not_a_fun
  | sema_var_is_not_a_var
  | sema_var_cannot_be_void
deriving DecidableEq, Repr

/-- Parameter for diagnostic printing (`DiagParam`): a category or a symbol
name. -/
inductive DiagParam where
  | cat (c : Category)
  | sym (s : String)
deriving DecidableEq, Repr

/-- One emitted diagnostic: its kind and its arguments. -/
structure DiagRecord where
  code : Diag
  args : List DiagParam
deriving DecidableEq, Repr

/-- Expression types of the language (`ExprType`), from the specification's
data model. -/
inductive ExprType where
  | int
  | void
  | intArray
deriving DecidableEq, Repr, Inhabited

mutual

/-- AST expression nodes: Number, VarRef (plain or indexed), FunCall and
BinaryExpr.  The binary operator is carried as the word category of the
operator word, and assignment nodes carry `Category.Assign`. -/
inductive Expr where
  | num (value : Nat)
  | varPlain (name : String)
  | varIndexed (name : String) (index : Expr)
  | call (name : String) (args : ExprList)
  | binary (op : Category) (lhs : Expr) (rhs : Expr)

/-- Argument lists of FunCall nodes. -/
inductive ExprList where
  | nil
  | cons (head : Expr) (tail : ExprList)

end

/-- Appends one expression at the end of an argument list (push_back). -/
def ExprList.push : ExprList → Expr → ExprList
  | .nil, e => .cons e .nil
  | .cons h t, e => .cons h (t.push e)

/-- Embedding of `ASTExpr::as_var_expr`: yields the node itself exactly when
it is a VarRef. -/
def Expr.as_var_expr : Expr → Option Expr
  | .varPlain n => some (.varPlain n)
  | .varIndexed n i => some (.varIndexed n i)
  | _ => none

/-- AST variable declaration (`ASTVarDecl`): type, name and optional array
size. -/
structure VarDecl where
  type : ExprType
  name : String
  array_size : Option Nat
deriving Repr

/-- AST parameter declaration (`ASTParmVarDecl`). -/
structure ParmVarDecl where
  type : ExprType
  name : String
  is_array : Bool
deriving Repr

mutual

/-- AST statement nodes. -/
inductive Stmt where
  | nullStmt
  | exprStmt (e : Expr)
  | compound (c : CompoundStmt)
  | selection (cond : Expr) (thenStmt : Stmt)
  | selectionElse (cond : Expr) (thenStmt : Stmt) (elseStmt : Stmt)
  | iteration (cond : Expr) (body : Stmt)
  | returnVoid
  | returnExpr (e : Expr)

/-- Statement lists of compound statements. -/
inductive StmtList where
  | nil
  | cons (head : Stmt) (tail : StmtList)

/-- Compound statement: local declarations followed by statements. -/
inductive CompoundStmt where
  | mk (decls : List VarDecl) (stmts : StmtList)

end

/-- Appends one statement at the end of a statement list (push_back). -/
def StmtList.push : StmtList → Stmt → StmtList
  | .nil, st => .cons st .nil
  | .cons h t, st => .cons h (t.push st)

/-- AST function declaration (`ASTFunDecl`): return type, name, parameters
and optional body. -/
structure ASTFunDecl where
  retn : ExprType
  name : String
  params : List ParmVarDecl
  body : Option CompoundStmt

instance : Inhabited ASTFunDecl := ⟨⟨.int, "", [], none⟩⟩

/-- Top-level declaration: a variable or a function. -/
inductive Decl where
  | varD (v : VarDecl)
  | funD (f : ASTFunDecl)

/-- AST program node: the ordered top-level declarations. -/
structure Program where
  decls : List Decl

/-- Scope-frame entry: what a name resolves to.  Functions are referenced by
their index into the function heap (the shared-ownership store of `ASTFunDecl`
objects), modelling the non-owning back edges of the C++ AST. -/
inductive DeclEntry where
  | varE (type : ExprType)
  | funE (idx : Nat)
deriving DecidableEq, Repr

/-- Scope-frame flags (`ScopeFlags`), a small bitmask in the C++ parser. -/
structure ScopeFlags where
  isCompoundStmt : Bool
  isFunParamsScope : Bool
  isFunScope : Bool
deriving DecidableEq, Repr

/-- The `ScopeFlags::FunParamsScope` flag alone. -/
def ScopeFlags.funParams : ScopeFlags := ⟨false, true, false⟩

/-- The `ScopeFlags::CompoundStmt | ScopeFlags::FunScope` combination used for
function bodies. -/
def ScopeFlags.compoundFun : ScopeFlags := ⟨true, false, true⟩

/-- The `ScopeFlags::CompoundStmt` flag alone, used for nested compound
statements. -/
def ScopeFlags.compoundOnly : ScopeFlags := ⟨true, false, false⟩

/-- No flags: the global scope frame. -/
def ScopeFlags.globalScope : ScopeFlags := ⟨false, false, false⟩

/-- One lexical scope frame: its flags and its name-to-declaration mapping
(most recent insertion first). -/
structure Frame where
  flags : ScopeFlags
  names : List (String × DeclEntry)
deriving DecidableEq, Repr

/-- Looks a name up in a single frame. -/
def Frame.lookup (fr : Frame) (n : String) : Option DeclEntry :=
  List.lookup n fr.names

/-- A frame with no flags and no names, used as a lookup default. -/
def emptyFrame : Frame := ⟨.globalScope, []⟩

/-- The parser-plus-sema state: the remaining word stream, the scope stack
(innermost frame first), the function heap (shared-ownership store of
`ASTFunDecl` objects referenced from scopes), and the emitted diagnostics in
emission order. -/
structure PState where
  tokens : List Word
  scopes : List Frame
  funHeap : List ASTFunDecl
  diags : List DiagRecord

/-- Modelled from the spec: the `Eof` sentinel word the lookahead window holds
at end of input (the parser's word-window machinery is in parser.hpp, which is
not among the provided sources). -/
def eofWord : Word := ⟨Category.Eof, ""⟩

/-- Modelled from the spec: `peek_word`, the current lookahead word, `Eof` at
end of input. -/
def PState.peek_word (s : PState) : Word :=
  s.tokens.headD eofWord

/-- Modelled from the spec: `lookahead(n)`, the n-th word of the three-word
window (`lookahead 0` is `peek_word`), `Eof` past the end of input. -/
def PState.lookahead (s : PState) (n : Nat) : Word :=
  s.tokens.getD n eofWord

/-- Modelled from the spec: `consume()`, advancing the word window by one. -/
def PState.consume (s : PState) : PState :=
  { s with tokens := s.tokens.tail }

/-- Modelled from the spec: `diagman.report(...)`, appending one diagnostic
record at the end of the emission-ordered list. -/
def PState.report (s : PState) (code : Diag) (args : List DiagParam) : PState :=
  { s with diags := s.diags ++ [⟨code, args⟩] }

/-- Modelled from the spec: `try_consume(cats...)` consumes and returns the
current word when its category is among the given ones, and otherwise leaves
the state unchanged. -/
def try_consume (cats : List Category) (s : PState) : Option Word × PState :=
  if s.peek_word.category ∈ cats then (some s.peek_word, s.consume) else (none, s)

/-- Modelled from the spec: `expect_and_consume(category)` is `try_consume`
that reports `parser_expected_token` with the expected category as argument on
a miss. -/
def expect_and_consume (c : Category) (s : PState) : Option Word × PState :=
  match try_consume [c] s with
  | (some w, s) => (some w, s)
  | (none, s) => (none, s.report .parser_expected_token [.cat c])

/-- Embedding of `Parser::expect_and_consume_type`: `try_consume(Void, Int)`,
reporting `parser_expected_type` on a miss. -/
def expect_and_consume_type (s : PState) : Option Word × PState :=
  match try_consume [.Void, .Int] s with
  | (some w, s) => (some w, s)
  | (none, s) => (none, s.report .parser_expected_type [])

/-- Modelled from the spec: `ParseScope` construction pushes a new empty frame
with the given flags. -/
def pushScope (flags : ScopeFlags) (s : PState) : PState :=
  { s with scopes := ⟨flags, []⟩ :: s.scopes }

/-- Modelled from the spec: `ParseScope` destruction pops the innermost
frame. -/
def popScope (s : PState) : PState :=
  { s with scopes := s.scopes.tail }

/-- Modelled from the spec: installing a name into the current (innermost)
scope frame. -/
def installTop (n : String) (e : DeclEntry) (s : PState) : PState :=
  { s with scopes :=
      match s.scopes with
      | [] => []
      | fr :: rest => { fr with names := (n, e) :: fr.names } :: rest }

/-- Modelled from the spec: scope lookup, searching frames inner-to-outer. -/
def lookupScopes (n : String) : List Frame → Option DeclEntry
  | [] => none
  | fr :: rest =>
    match fr.lookup n with
    | some e => some e
    | none => lookupScopes n rest

/-- Looks a name up in the current (innermost) frame only. -/
def lookupTop (s : PState) (n : String) : Option DeclEntry :=
  match s.scopes with
  | [] => none
  | fr :: _ => fr.lookup n

/-- Maps a type-specifier word to the declared type. -/
def typeOf (w : Word) : ExprType :=
  if w.category = .Void then .void else .int

/-- The numeric value of a Number node (zero on any other node). -/
def numValue : Expr → Nat
  | .num n => n
  | _ => 0

/-- Modelled from the spec: `act_on_var_decl` rejects void variables
(`sema_var_cannot_be_void`) and redefinitions in the current frame
(`sema_redefinition`, insertion fails), installs the name otherwise, and
returns the node so parsing continues. -/
def act_on_var_decl (type : Word) (id : Word) (num : Option Expr) (s : PState) :
    Option VarDecl × PState :=
  let t := typeOf type
  let node : VarDecl := ⟨t, id.lexeme, num.map numValue⟩
  let s := if t = .void then s.report .sema_var_cannot_be_void [] else s
  match lookupTop s id.lexeme with
  | some _ => (some node, s.report .sema_redefinition [.sym id.lexeme])
  | none => (some node, installTop id.lexeme (.varE t) s)

/-- Modelled from the spec: `act_on_param_decl`, like `act_on_var_decl` but
inside the parameter scope and building a `ParmVarDecl`. -/
def act_on_param_decl (type : Word) (id : Word) (is_arr : Bool) (s : PState) :
    Option ParmVarDecl × PState :=
  let t := typeOf type
  let node : ParmVarDecl := ⟨t, id.lexeme, is_arr⟩
  let s := if t = .void then s.report .sema_var_cannot_be_void [] else s
  match lookupTop s id.lexeme with
  | some _ => (some node, s.report .sema_redefinition [.sym id.lexeme])
  | none => (some node, installTop id.lexeme (.varE t) s)

/-- Modelled from the spec: `act_on_fun_decl_start` creates a `FunDecl` shell
on the function heap and installs it in the enclosing (current) scope
immediately, before parameters or body are parsed; it returns the shell's heap
index so the parser can attach params and body. -/
def act_on_fun_decl_start (retn : Word) (id : Word) (s : PState) : Nat × PState :=
  let idx := s.funHeap.length
  let shell : ASTFunDecl := ⟨typeOf retn, id.lexeme, [], none⟩
  let s := { s with funHeap := s.funHeap ++ [shell] }
  (idx, installTop id.lexeme (.funE idx) s)

/-- Updates one function-heap entry in place (shared mutable `ASTFunDecl`). -/
def heapModify (idx : Nat) (g : ASTFunDecl → ASTFunDecl) (s : PState) : PState :=
  { s with funHeap := s.funHeap.set idx (g (s.funHeap.getD idx default)) }

/-- Embedding of `ASTFunDecl::add_param`: appends one parameter to the shared
function object. -/
def add_param (idx : Nat) (p : ParmVarDecl) (s : PState) : PState :=
  heapModify idx (fun fd => { fd with params := fd.params ++ [p] }) s

/-- Embedding of `ASTFunDecl::set_body`: attaches the compound-statement body
to the shared function object. -/
def set_body (idx : Nat) (c : CompoundStmt) (s : PState) : PState :=
  heapModify idx (fun fd => { fd with body := some c }) s

/-- Modelled from the spec: `act_on_fun_decl_end` closes the function and
returns the completed node. -/
def act_on_fun_decl_end (idx : Nat) (s : PState) : ASTFunDecl × PState :=
  (s.funHeap.getD idx default, s)

/-- Decimal value of a digit string, most significant digit first. -/
def decimalDigits : List Char → Nat → Nat
  | [], acc => acc
  | c :: cs, acc => decimalDigits cs (acc * 10 + (c.toNat - 48))

/-- Decimal value of a number lexeme. -/
def decimalValue (str : String) : Nat :=
  decimalDigits str.data 0

/-- Modelled from the spec: `act_on_number` parses the decimal integer and
reports `parser_number_too_big` with a clamped value past the signed 32-bit
range. -/
def act_on_number (w : Word) (s : PState) : Expr × PState :=
  let n := decimalValue w.lexeme
  if n > 2147483647 then (.num 2147483647, s.report .parser_number_too_big [])
  else (.num n, s)

/-- Modelled from the spec: `act_on_var` resolves the identifier
(`sema_undeclared_identifier` if absent, `sema_var_is_not_a_var` if it names a
function), attaches the index expression, and returns the VarRef node in every
case so parsing continues. -/
def act_on_var (id : Word) (index : Option Expr) (s : PState) : Expr × PState :=
  let node : Expr :=
    match index with
    | none => .varPlain id.lexeme
    | some e => .varIndexed id.lexeme e
  match lookupScopes id.lexeme s.scopes with
  | none => (node, s.report .sema_undeclared_identifier [.sym id.lexeme])
  | some (.funE _) => (node, s.report .sema_var_is_not_a_var [])
  | some (.varE _) => (node, s)

/-- Modelled from the spec: `act_on_call` resolves the identifier
(`sema_undeclared_identifier` if absent, `sema_fun_is_not_a_fun` if it names a
variable) and returns the FunCall node in every case. -/
def act_on_call (id : Word) (args : ExprList) (s : PState) : Expr × PState :=
  let node : Expr := .call id.lexeme args
  match lookupScopes id.lexeme s.scopes with
  | none => (node, s.report .sema_undeclared_identifier [.sym id.lexeme])
  | some (.varE _) => (node, s.report .sema_fun_is_not_a_fun [])
  | some (.funE _) => (node, s)

/-- Modelled from the spec: `act_on_assign` builds a BinaryExpr with
`op = Assign`; the left-hand side is the VarRef guaranteed by the parser. -/
def act_on_assign (lvalue : Expr) (rhs : Expr) (_op : Word) : Expr :=
  .binary .Assign lvalue rhs

/-- Modelled from the spec: `act_on_binary_expr` builds the BinaryExpr node
carrying the operator word's category. -/
def act_on_binary_expr (lhs : Expr) (rhs : Expr) (op : Word) : Expr :=
  .binary op.category lhs rhs

/-- Modelled from the spec: `act_on_null_stmt`. -/
def act_on_null_stmt : Stmt := .nullStmt

/-- Modelled from the spec: `act_on_expr_stmt`. -/
def act_on_expr_stmt (e : Expr) : Stmt := .exprStmt e

/-- Modelled from the spec: `act_on_compound_stmt` packages declarations and
statements. -/
def act_on_compound_stmt (decls : List VarDecl) (stmts : StmtList) : CompoundStmt :=
  .mk decls stmts

/-- Modelled from the spec: `act_on_selection_stmt`. -/
def act_on_selection_stmt (cond : Expr) (s1 : Stmt) (s2 : Option Stmt) : Stmt :=
  match s2 with
  | none => .selection cond s1
  | some e => .selectionElse cond s1 e

/-- Modelled from the spec: `act_on_iteration_stmt`. -/
def act_on_iteration_stmt (cond : Expr) (body : Stmt) : Stmt :=
  .iteration cond body

/-- Modelled from the spec: `act_on_return_stmt`. -/
def act_on_return_stmt (e : Option Expr) (_return_word : Word) : Stmt :=
  match e with
  | none => .returnVoid
  | some x => .returnExpr x

/-- Modelled from the spec: `act_on_program_start` opens the global scope
frame and yields the empty declaration list. -/
def act_on_program_start (s : PState) : List Decl × PState :=
  ([], pushScope .globalScope s)

/-- Modelled from the spec: `act_on_top_level_decl` appends to the program's
declarations. -/
def act_on_top_level_decl (prog : List Decl) (d : Decl) : List Decl :=
  prog ++ [d]

/-- Modelled from the spec: `act_on_program_end` closes the global scope frame
and returns the program node. -/
def act_on_program_end (prog : List Decl) (s : PState) : Program × PState :=
  (⟨prog⟩, popScope s)

/-- Embedding of `Parser::parse_number`: NUM. -/
def parse_number (s : PState) : Option Expr × PState :=
  match expect_and_consume .Number s with
  | (some w, s) =>
    let (node, s) := act_on_number w s
    (some node, s)
  | (none, s) => (none, s)

mutual

/-- Embedding of `Parser::parse_expression`:
expression is var = expression or simple-expression.  The parser first parses
a simple-expression; when its result is a VarRef and the next word is `=`, it
consumes the `=` and recurses for the right-hand side. -/
def parse_expression : Nat → PState → Option Expr × PState
  | 0, s => (none, s)
  | f+1, s =>
    match parse_simple_expression f s with
    | (none, s) => (none, s)
    | (some expr1, s) =>
      match expr1.as_var_expr with
      | some lvalue =>
        (match try_consume [.Assign] s with
         | (some op_word, s) =>
           (match parse_expression f s with
            | (some expr2, s) => (some (act_on_assign lvalue expr2 op_word), s)
            | (none, s) => (none, s))
         | (none, s) => (some expr1, s))
      | none => (some expr1, s)

/-- Embedding of `Parser::parse_simple_expression`:
additive-expression, optionally followed by one relop and another
additive-expression. -/
def parse_simple_expression : Nat → PState → Option Expr × PState
  | 0, s => (none, s)
  | f+1, s =>
    match parse_additive_expression f s with
    | (none, s) => (none, s)
    | (some expr1, s) =>
      match try_consume [.LessEqual, .Less, .Greater, .GreaterEqual, .Equal, .NotEqual] s with
      | (some op_word, s) =>
        (match parse_additive_expression f s with
         | (some expr2, s) => (some (act_on_binary_expr expr1 expr2 op_word), s)
         | (none, s) => (none, s))
      | (none, s) => (some expr1, s)

/-- Embedding of `Parser::parse_additive_expression`: a term followed by the
iterative addop loop. -/
def parse_additive_expression : Nat → PState → Option Expr × PState
  | 0, s => (none, s)
  | f+1, s =>
    match parse_term f s with
    | (none, s) => (none, s)
    | (some expr1, s) => parse_additive_loop f expr1 s

/-- The while-loop inside `parse_additive_expression`: as long as a `+` or `-`
follows, parse another term and left-associate. -/
def parse_additive_loop : Nat → Expr → PState → Option Expr × PState
  | 0, _, s => (none, s)
  | f+1, expr1, s =>
    match try_consume [.Plus, .Minus] s with
    | (some op_word, s) =>
      (match parse_term f s with
       | (some expr2, s) => parse_additive_loop f (act_on_binary_expr expr1 expr2 op_word) s
       | (none, s) => (none, s))
    | (none, s) => (some expr1, s)

/-- Embedding of `Parser::parse_term`: a factor followed by the iterative
mulop loop. -/
def parse_term : Nat → PState → Option Expr × PState
  | 0, s => (none, s)
  | f+1, s =>
    match parse_factor f s with
    | (none, s) => (none, s)
    | (some expr1, s) => parse_term_loop f expr1 s

/-- The while-loop inside `parse_term`: as long as a `*` or `/` follows, parse
another factor and left-associate. -/
def parse_term_loop : Nat → Expr → PState → Option Expr × PState
  | 0, _, s => (none, s)
  | f+1, expr1, s =>
    match try_consume [.Multiply, .Divide] s with
    | (some op_word, s) =>
      (match parse_factor f s with
       | (some expr2, s) => parse_term_loop f (act_on_binary_expr expr1 expr2 op_word) s
       | (none, s) => (none, s))
    | (none, s) => (some expr1, s)

/-- Embedding of `Parser::parse_factor`: NUM, parenthesized expression
(returned unchanged), var or call (predicted by `lookahead(1)`), and the
`parser_expected_expression` diagnostic otherwise. -/
def parse_factor : Nat → PState → Option Expr × PState
  | 0, s => (none, s)
  | f+1, s =>
    match s.peek_word.category with
    | .Number => parse_number s
    | .OpenParen =>
      let s := s.consume
      (match parse_expression f s with
       | (none, s) => (none, s)
       | (some expr1, s) =>
         match expect_and_consume .CloseParen s with
         | (none, s) => (none, s)
         | (some _, s) => (some expr1, s))
    | .Identifier =>
      if (s.lookahead 1).category = .OpenParen then parse_call f s else parse_var f s
    | _ => (none, s.report .parser_expected_expression [])

/-- Embedding of `Parser::parse_var`: ID, optionally followed by a bracketed
index expression. -/
def parse_var : Nat → PState → Option Expr × PState
  | 0, s => (none, s)
  | f+1, s =>
    match expect_and_consume .Identifier s with
    | (none, s) => (none, s)
    | (some id, s) =>
      if s.peek_word.category = .OpenBracket then
        let s := s.consume
        (match parse_expression f s with
         | (none, s) => (none, s)
         | (some index, s) =>
           match expect_and_consume .CloseBracket s with
           | (none, s) => (none, s)
           | (some _, s) =>
             let (node, s) := act_on_var id (some index) s
             (some node, s))
      else
        let (node, s) := act_on_var id none s
        (some node, s)

/-- Embedding of `Parser::parse_call`: ID ( args ), the first argument parsed
before the comma loop. -/
def parse_call : Nat → PState → Option Expr × PState
  | 0, s => (none, s)
  | f+1, s =>
    match expect_and_consume .Identifier s with
    | (none, s) => (none, s)
    | (some id, s) =>
      match expect_and_consume .OpenParen s with
      | (none, s) => (none, s)
      | (some _, s) =>
        if s.peek_word.category ≠ .CloseParen then
          match parse_expression f s with
          | (none, s) => (none, s)
          | (some e, s) => parse_args_loop f id (.cons e .nil) s
        else parse_args_loop f id .nil s

/-- The while-loop inside `parse_call`: until the closing paren, expect a
comma and another argument; then consume the paren and build the call. -/
def parse_args_loop : Nat → Word → ExprList → PState → Option Expr × PState
  | 0, _, _, s => (none, s)
  | f+1, id, args, s =>
    if s.peek_word.category ≠ .CloseParen then
      match expect_and_consume .Comma s with
      | (none, s) => (none, s)
      | (some _, s) =>
        (match parse_expression f s with
         | (none, s) => (none, s)
         | (some e, s) => parse_args_loop f id (args.push e) s)
    else
      match expect_and_consume .CloseParen s with
      | (none, s) => (none, s)
      | (some _, s) =>
        let (node, s) := act_on_call id args s
        (some node, s)

end

/-- Embedding of `Parser::parse_var_declaration`: type ID ; or
type ID [ NUM ] ;. -/
def parse_var_declaration (s : PState) : Option VarDecl × PState :=
  match expect_and_consume_type s with
  | (none, s) => (none, s)
  | (some type, s) =>
    match expect_and_consume .Identifier s with
    | (none, s) => (none, s)
    | (some id, s) =>
      if s.peek_word.category = .OpenBracket then
        let s := s.consume
        match parse_number s with
        | (none, s) => (none, s)
        | (some num, s) =>
          match expect_and_consume .CloseBracket s with
          | (none, s) => (none, s)
          | (some _, s) =>
            match expect_and_consume .Semicolon s with
            | (none, s) => (none, s)
            | (some _, s) => act_on_var_decl type id (some num) s
      else
        match expect_and_consume .Semicolon s with
        | (none, s) => (none, s)
        | (some _, s) => act_on_var_decl type id none s

/-- Embedding of `Parser::parse_param`: type ID, optionally with `[ ]`. -/
def parse_param (s : PState) : Option ParmVarDecl × PState :=
  match expect_and_consume_type s with
  | (none, s) => (none, s)
  | (some type, s) =>
    match expect_and_consume .Identifier s with
    | (none, s) => (none, s)
    | (some id, s) =>
      match try_consume [.OpenBracket] s with
      | (some _, s) =>
        (match expect_and_consume .CloseBracket s with
         | (none, s) => (none, s)
         | (some _, s) => act_on_param_decl type id true s)
      | (none, s) => act_on_param_decl type id false s

/-- The while-loop of the param-list inside `parse_fun_declaration`: until the
closing paren, expect a comma and another param, attaching each via
`add_param`. -/
def parse_params_loop : Nat → Nat → PState → Option Unit × PState
  | 0, _, s => (none, s)
  | f+1, fun_idx, s =>
    if s.peek_word.category ≠ .CloseParen then
      match expect_and_consume .Comma s with
      | (none, s) => (none, s)
      | (some _, s) =>
        match parse_param s with
        | (none, s) => (none, s)
        | (some param, s) => parse_params_loop f fun_idx (add_param fun_idx param s)
    else (some (), s)

/-- The params alternative inside `parse_fun_declaration`: a lone `void` when
`lookahead(0) == Void && lookahead(1) == CloseParen`, otherwise a
comma-separated param list. -/
def parse_params_section (f : Nat) (fun_idx : Nat) (s : PState) : Option Unit × PState :=
  if (s.lookahead 0).category = .Void ∧ (s.lookahead 1).category = .CloseParen then
    (some (), s.consume)
  else
    match parse_param s with
    | (none, s) => (none, s)
    | (some param, s) => parse_params_loop f fun_idx (add_param fun_idx param s)

mutual

/-- Embedding of `Parser::parse_program`: open the program, then the
declaration do-while loop. -/
def parse_program : Nat → PState → Option Program × PState
  | 0, s => (none, s)
  | f+1, s =>
    let (program, s) := act_on_program_start s
    parse_program_loop f program s

/-- The do-while loop inside `parse_program`: parse one declaration, append
it, and continue while `peek_word.category != Category::Eof`; any declaration
failure returns null. -/
def parse_program_loop : Nat → List Decl → PState → Option Program × PState
  | 0, _, s => (none, s)
  | f+1, program, s =>
    match parse_declaration f s with
    | (none, s) => (none, s)
    | (some decl, s) =>
      let program := act_on_top_level_decl program decl
      if s.peek_word.category ≠ .Eof then parse_program_loop f program s
      else
        let (p, s) := act_on_program_end program s
        (some p, s)

/-- Embedding of `Parser::parse_declaration`: a fun-declaration exactly when
`lookahead(2)` is an open paren, a var-declaration otherwise. -/
def parse_declaration : Nat → PState → Option Decl × PState
  | 0, s => (none, s)
  | f+1, s =>
    if (s.lookahead 2).category = .OpenParen then
      match parse_fun_declaration f s with
      | (none, s) => (none, s)
      | (some fd, s) => (some (.funD fd), s)
    else
      match parse_var_declaration s with
      | (none, s) => (none, s)
      | (some vd, s) => (some (.varD vd), s)

/-- Embedding of `Parser::parse_fun_declaration`: type ID ( then
`act_on_fun_decl_start`, then the `FunParamsScope` ParseScope block (params,
close paren, compound body) whose frame is popped on every exit path, then
`act_on_fun_decl_end`. -/
def parse_fun_declaration : Nat → PState → Option ASTFunDecl × PState
  | 0, s => (none, s)
  | f+1, s =>
    match expect_and_consume_type s with
    | (none, s) => (none, s)
    | (some retn, s) =>
      match expect_and_consume .Identifier s with
      | (none, s) => (none, s)
      | (some id, s) =>
        match expect_and_consume .OpenParen s with
        | (none, s) => (none, s)
        | (some _, s) =>
          let (fun_idx, s) := act_on_fun_decl_start retn id s
          let s := pushScope .funParams s
          match parse_fun_body f fun_idx s with
          | (none, s) => (none, popScope s)
          | (some _, s) =>
            let s := popScope s
            let (fd, s) := act_on_fun_decl_end fun_idx s
            (some fd, s)

/-- The contents of the ParseScope block inside `parse_fun_declaration`: the
params section, the closing paren, and the compound body parsed with
`CompoundStmt | FunScope` flags while the params frame is still active. -/
def parse_fun_body : Nat → Nat → PState → Option Unit × PState
  | 0, _, s => (none, s)
  | f+1, fun_idx, s =>
    match parse_params_section f fun_idx s with
    | (none, s) => (none, s)
    | (some _, s) =>
      match expect_and_consume .CloseParen s with
      | (none, s) => (none, s)
      | (some _, s) =>
        match parse_compound_stmt f .compoundFun s with
        | (none, s) => (none, s)
        | (some comp, s) => (some (), set_body fun_idx comp s)

/-- Embedding of `Parser::parse_statement`: dispatch on the FIRST sets, with
the `parser_expected_statement` diagnostic otherwise. -/
def parse_statement : Nat → PState → Option Stmt × PState
  | 0, s => (none, s)
  | f+1, s =>
    match s.peek_word.category with
    | .Identifier => parse_expr_stmt f s
    | .Number => parse_expr_stmt f s
    | .OpenParen => parse_expr_stmt f s
    | .Semicolon => parse_expr_stmt f s
    | .OpenCurly =>
      (match parse_compound_stmt f .compoundOnly s with
       | (none, s) => (none, s)
       | (some comp, s) => (some (.compound comp), s))
    | .If => parse_selection_stmt f s
    | .While => parse_iteration_stmt f s
    | .Return => parse_return_stmt f s
    | _ => (none, s.report .parser_expected_statement [])

/-- Embedding of `Parser::parse_expr_stmt`: a lone semicolon is a null
statement, otherwise an expression followed by a semicolon. -/
def parse_expr_stmt : Nat → PState → Option Stmt × PState
  | 0, s => (none, s)
  | f+1, s =>
    match try_consume [.Semicolon] s with
    | (some _, s) => (some act_on_null_stmt, s)
    | (none, s) =>
      match parse_expression f s with
      | (none, s) => (none, s)
      | (some expr, s) =>
        match expect_and_consume .Semicolon s with
        | (none, s) => (none, s)
        | (some _, s) => (some (act_on_expr_stmt expr), s)

/-- Embedding of `Parser::parse_compound_stmt`: open curly, a ParseScope with
the given flags held across local declarations and statements (popped on every
exit path), and the closing curly. -/
def parse_compound_stmt : Nat → ScopeFlags → PState → Option CompoundStmt × PState
  | 0, _, s => (none, s)
  | f+1, scope_flags, s =>
    match expect_and_consume .OpenCurly s with
    | (none, s) => (none, s)
    | (some _, s) =>
      let s := pushScope scope_flags s
      match parse_local_decls f [] s with
      | (none, s) => (none, popScope s)
      | (some decls, s) =>
        match parse_stmt_list f .nil s with
        | (none, s) => (none, popScope s)
        | (some stms, s) =>
          let s := s.consume
          (some (act_on_compound_stmt decls stms), popScope s)

/-- The local-declarations loop inside `parse_compound_stmt`: parse
var-declarations as long as the first symbol is a type-specifier. -/
def parse_local_decls : Nat → List VarDecl → PState → Option (List VarDecl) × PState
  | 0, _, s => (none, s)
  | f+1, decls, s =>
    if s.peek_word.category = .Void ∨ s.peek_word.category = .Int then
      match parse_var_declaration s with
      | (none, s) => (none, s)
      | (some d, s) => parse_local_decls f (decls ++ [d]) s
    else (some decls, s)

/-- The statement-list loop inside `parse_compound_stmt`: parse statements
until the closing curly. -/
def parse_stmt_list : Nat → StmtList → PState → Option StmtList × PState
  | 0, _, s => (none, s)
  | f+1, stms, s =>
    if s.peek_word.category ≠ .CloseCurly then
      match parse_statement f s with
      | (none, s) => (none, s)
      | (some st, s) => parse_stmt_list f (stms.push st) s
    else (some stms, s)

/-- Embedding of `Parser::parse_selection_stmt`: if ( expression ) statement,
with an optional else statement. -/
def parse_selection_stmt : Nat → PState → Option Stmt × PState
  | 0, s => (none, s)
  | f+1, s =>
    match expect_and_consume .If s with
    | (none, s) => (none, s)
    | (some _, s) =>
      match expect_and_consume .OpenParen s with
      | (none, s) => (none, s)
      | (some _, s) =>
        match parse_expression f s with
        | (none, s) => (none, s)
        | (some expr, s) =>
          match expect_and_consume .CloseParen s with
          | (none, s) => (none, s)
          | (some _, s) =>
            match parse_statement f s with
            | (none, s) => (none, s)
            | (some stmt1, s) =>
              match try_consume [.Else] s with
              | (none, s) => (some (act_on_selection_stmt expr stmt1 none), s)
              | (some _, s) =>
                match parse_statement f s with
                | (none, s) => (none, s)
                | (some stmt2, s) => (some (act_on_selection_stmt expr stmt1 (some stmt2)), s)

/-- Embedding of `Parser::parse_iteration_stmt`: while ( expression )
statement. -/
def parse_iteration_stmt : Nat → PState → Option Stmt × PState
  | 0, s => (none, s)
  | f+1, s =>
    match expect_and_consume .While s with
    | (none, s) => (none, s)
    | (some _, s) =>
      match expect_and_consume .OpenParen s with
      | (none, s) => (none, s)
      | (some _, s) =>
        match parse_expression f s with
        | (none, s) => (none, s)
        | (some expr, s) =>
          match expect_and_consume .CloseParen s with
          | (none, s) => (none, s)
          | (some _, s) =>
            match parse_statement f s with
            | (none, s) => (none, s)
            | (some stmt, s) => (some (act_on_iteration_stmt expr stmt), s)

/-- Embedding of `Parser::parse_return_stmt`: return ; or
return expression ;. -/
def parse_return_stmt : Nat → PState → Option Stmt × PState
  | 0, s => (none, s)
  | f+1, s =>
    match expect_and_consume .Return s with
    | (none, s) => (none, s)
    | (some return_word, s) =>
      match try_consume [.Semicolon] s with
      | (some _, s) => (some (act_on_return_stmt none return_word), s)
      | (none, s) =>
        match parse_expression f s with
        | (none, s) => (none, s)
        | (some expr, s) =>
          match expect_and_consume .Semicolon s with
          | (none, s) => (none, s)
          | (some _, s) => (some (act_on_return_stmt (some expr) return_word), s)

end

/-! Scanner, modelled from the spec (the scanner implementation is not among
the provided sources; recognition rules follow the specification's Scanner
contract: whitespace and comments skipped, identifiers with keyword lookup,
numbers with the bad-number rule, one- and two-character operators, and
`lexer_bad_char` otherwise). -/

/-- Letter recognition of the scanner: ASCII letters only. -/
def charIsLetter (c : Char) : Bool :=
  (65 ≤ c.toNat && c.toNat ≤ 90) || (97 ≤ c.toNat && c.toNat ≤ 122)

/-- Digit recognition of the scanner. -/
def charIsDigit (c : Char) : Bool :=
  48 ≤ c.toNat && c.toNat ≤ 57

/-- Whitespace recognition of the scanner: space, tab, newline, carriage
return. -/
def charIsSpace (c : Char) : Bool :=
  c.toNat = 32 || c.toNat = 9 || c.toNat = 10 || c.toNat = 13

/-- The open-curly character. -/
def curlyOpenChar : Char := Char.ofNat 123

/-- The close-curly character. -/
def curlyCloseChar : Char := Char.ofNat 125

/-- Modelled from the spec: keywords are recognized by post-match table lookup
among else, if, int, return, void, while. -/
def keywordLookup (s : String) : Category :=
  if s = "else" then .Else
  else if s = "if" then .If
  else if s = "int" then .Int
  else if s = "return" then .Return
  else if s = "void" then .Void
  else if s = "while" then .While
  else .Identifier

/-- Splits off the maximal letter prefix. -/
def takeLetters : List Char → List Char × List Char
  | [] => ([], [])
  | c :: cs =>
    if charIsLetter c then
      let (a, b) := takeLetters cs
      (c :: a, b)
    else ([], c :: cs)

/-- Splits off the maximal digit prefix. -/
def takeDigits : List Char → List Char × List Char
  | [] => ([], [])
  | c :: cs =>
    if charIsDigit c then
      let (a, b) := takeDigits cs
      (c :: a, b)
    else ([], c :: cs)

/-- Drops the maximal letter-or-digit prefix (the consumed run of a bad
number). -/
def dropAlnum : List Char → List Char
  | [] => []
  | c :: cs =>
    if charIsLetter c || charIsDigit c then dropAlnum cs
    else c :: cs

/-- Skips to just past the closing star-slash of a comment, or fails at end of
input. -/
def skipComment : List Char → Option (List Char)
  | [] => none
  | c :: cs =>
    if c = '*' then
      match cs with
      | d :: ds => if d = '/' then some ds else skipComment (d :: ds)
      | [] => none
    else skipComment cs

/-- Maps a single character to its operator or punctuation category, when it
has one (the characters of two-character operators are handled separately). -/
def singleCharCategory (c : Char) : Option Category :=
  if c = '+' then some .Plus
  else if c = '-' then some .Minus
  else if c = '*' then some .Multiply
  else if c = ';' then some .Semicolon
  else if c = ',' then some .Comma
  else if c = '(' then some .OpenParen
  else if c = ')' then some .CloseParen
  else if c = '[' then some .OpenBracket
  else if c = ']' then some .CloseBracket
  else if c = curlyOpenChar then some .OpenCurly
  else if c = curlyCloseChar then some .CloseCurly
  else none

/-- Modelled from the spec: the scanner loop, producing the word stream and
the lexical diagnostics left to right.  The fuel is at least the number of
characters plus one, and every step consumes at least one character. -/
def scanChars : Nat → List Char → List Word × List DiagRecord
  | 0, _ => ([], [])
  | _+1, [] => ([], [])
  | f+1, c :: cs =>
    if charIsSpace c then scanChars f cs
    else if charIsLetter c then
      let (run, rest) := takeLetters (c :: cs)
      let lex := String.mk run
      let (ws, ds) := scanChars f rest
      (⟨keywordLookup lex, lex⟩ :: ws, ds)
    else if charIsDigit c then
      let (run, rest) := takeDigits (c :: cs)
      match rest with
      | d :: ds0 =>
        if charIsLetter d then
          let (ws, ds) := scanChars f (dropAlnum (d :: ds0))
          (ws, ⟨.lexer_bad_number, []⟩ :: ds)
        else
          let (ws, ds) := scanChars f rest
          (⟨.Number, String.mk run⟩ :: ws, ds)
      | [] => ([⟨.Number, String.mk run⟩], [])
    else if c = '/' then
      match cs with
      | d :: ds0 =>
        if d = '*' then
          match skipComment ds0 with
          | some rest => scanChars f rest
          | none => ([], [⟨.lexer_unclosed_comment, []⟩])
        else
          let (ws, ds) := scanChars f (d :: ds0)
          (⟨.Divide, "/"⟩ :: ws, ds)
      | [] => ([⟨.Divide, "/"⟩], [])
    else if c = '<' then
      match cs with
      | d :: ds0 =>
        if d = '=' then
          let (ws, ds) := scanChars f ds0
          (⟨.LessEqual, "<="⟩ :: ws, ds)
        else
          let (ws, ds) := scanChars f (d :: ds0)
          (⟨.Less, "<"⟩ :: ws, ds)
      | [] => ([⟨.Less, "<"⟩], [])
    else if c = '>' then
      match cs with
      | d :: ds0 =>
        if d = '=' then
          let (ws, ds) := scanChars f ds0
          (⟨.GreaterEqual, ">="⟩ :: ws, ds)
        else
          let (ws, ds) := scanChars f (d :: ds0)
          (⟨.Greater, ">"⟩ :: ws, ds)
      | [] => ([⟨.Greater, ">"⟩], [])
    else if c = '=' then
      match cs with
      | d :: ds0 =>
        if d = '=' then
          let (ws, ds) := scanChars f ds0
          (⟨.Equal, "=="⟩ :: ws, ds)
        else
          let (ws, ds) := scanChars f (d :: ds0)
          (⟨.Assign, "="⟩ :: ws, ds)
      | [] => ([⟨.Assign, "="⟩], [])
    else if c = '!' then
      match cs with
      | d :: ds0 =>
        if d = '=' then
          let (ws, ds) := scanChars f ds0
          (⟨.NotEqual, "!="⟩ :: ws, ds)
        else
          let (ws, ds) := scanChars f (d :: ds0)
          (ws, ⟨.lexer_bad_char, []⟩ :: ds)
      | [] => ([], [⟨.lexer_bad_char, []⟩])
    else
      match singleCharCategory c with
      | some cat =>
        let (ws, ds) := scanChars f cs
        (⟨cat, String.mk [c]⟩ :: ws, ds)
      | none =>
        let (ws, ds) := scanChars f cs
        (ws, ⟨.lexer_bad_char, []⟩ :: ds)

/-- Modelled from the spec: the full scan of a source text. -/
def tokenize (src : String) : List Word × List DiagRecord :=
  scanChars (src.data.length + 1) src.data

/-- Modelled from the spec: the driver exits 0 on success and non-zero when
any diagnostic of error severity was emitted. -/
def driver_exit_code (diags : List DiagRecord) : Nat :=
  if diags.isEmpty then 0 else 1

/-- The initial parser state over a word stream (the scanner's lexical
diagnostics precede the parser's in emission order). -/
def initState (ws : List Word) (ds : List DiagRecord) : PState :=
  ⟨ws, [], [], ds⟩

/-! Operator classification and the canonical pretty-printer, by grammar
level. -/

/-- The relational-operator categories. -/
def isRelop : Category → Bool
  | .LessEqual | .Less | .Greater | .GreaterEqual | .Equal | .NotEqual => true
  | _ => false

/-- The additive-operator categories. -/
def isAddop : Category → Bool
  | .Plus | .Minus => true
  | _ => false

/-- The multiplicative-operator categories. -/
def isMulop : Category → Bool
  | .Multiply | .Divide => true
  | _ => false

/-- Canonical lexeme of an operator category. -/
def opLexeme : Category → String
  | .Plus => "+"
  | .Minus => "-"
  | .Multiply => "*"
  | .Divide => "/"
  | .Less => "<"
  | .LessEqual => "<="
  | .Greater => ">"
  | .GreaterEqual => ">="
  | .Equal => "=="
  | .NotEqual => "!="
  | .Assign => "="
  | _ => ""

/-- Canonical operator word. -/
def opWord (c : Category) : Word := ⟨c, opLexeme c⟩

/-- Canonical identifier word. -/
def idWord (n : String) : Word := ⟨.Identifier, n⟩

/-- Canonical number word. -/
def numWord (n : Nat) : Word := ⟨.Number, Nat.repr n⟩

/-- Canonical type-specifier word. -/
def typeWord : ExprType → Word
  | .void => ⟨.Void, "void"⟩
  | _ => ⟨.Int, "int"⟩

/-- Canonical semicolon word. -/
def semiW : Word := ⟨.Semicolon, ";"⟩

/-- Canonical comma word. -/
def commaW : Word := ⟨.Comma, ","⟩

/-- Canonical open-paren word. -/
def lparW : Word := ⟨.OpenParen, "("⟩

/-- Canonical close-paren word. -/
def rparW : Word := ⟨.CloseParen, ")"⟩

/-- Canonical open-bracket word. -/
def lbkW : Word := ⟨.OpenBracket, "["⟩

/-- Canonical close-bracket word. -/
def rbkW : Word := ⟨.CloseBracket, "]"⟩

/-- Canonical open-curly word. -/
def lcurW : Word := ⟨.OpenCurly, "\x7b"⟩

/-- Canonical close-curly word. -/
def rcurW : Word := ⟨.CloseCurly, "\x7d"⟩

/-- Canonical if keyword word. -/
def ifW : Word := ⟨.If, "if"⟩

/-- Canonical else keyword word. -/
def elseW : Word := ⟨.Else, "else"⟩

/-- Canonical while keyword word. -/
def whileW : Word := ⟨.While, "while"⟩

/-- Canonical return keyword word. -/
def returnW : Word := ⟨.Return, "return"⟩

/-- Canonical void keyword word. -/
def voidW : Word := ⟨.Void, "void"⟩

mutual

/-- Canonical print of an expression at the `expression` grammar level. -/
def ppExpr : Expr → List Word
  | .binary op l r => ppBinary op l r
  | e => ppAtomic e
termination_by e => (sizeOf e, 6)
decreasing_by all_goals (simp_wf; omega)

/-- Canonical print of a binary node at its natural grammar level: assignment
as var = expression, relationals over additive operands, additive over an
additive left and term right, multiplicative over a term left and factor
right. -/
def ppBinary : Category → Expr → Expr → List Word
  | op, l, r =>
    if op = .Assign then ppVarLhs l ++ (opWord .Assign :: ppExpr r)
    else if isRelop op then ppAdd l ++ (opWord op :: ppAdd r)
    else if isAddop op then ppAdd l ++ (opWord op :: ppTerm r)
    else ppTerm l ++ (opWord op :: ppFactor r)
termination_by _ l r => (sizeOf l + sizeOf r, 7)
decreasing_by all_goals omega

/-- Canonical print of an assignment left-hand side as a `var`. -/
def ppVarLhs : Expr → List Word
  | .varPlain x => [idWord x]
  | .varIndexed x i => idWord x :: lbkW :: (ppExpr i ++ [rbkW])
  | e => ppFactor e
termination_by e => (sizeOf e, 5)
decreasing_by all_goals (simp_wf; omega)

/-- Canonical print at the `additive-expression` level: additive and
multiplicative nodes fit unparenthesized, others are parenthesized. -/
def ppAdd : Expr → List Word
  | .binary op l r =>
    if isAddop op || isMulop op then ppBinary op l r
    else lparW :: (ppBinary op l r ++ [rparW])
  | e => ppAtomic e
termination_by e => (sizeOf e, 4)
decreasing_by all_goals (simp_wf; omega)

/-- Canonical print at the `term` level: only multiplicative nodes fit
unparenthesized. -/
def ppTerm : Expr → List Word
  | .binary op l r =>
    if isMulop op then ppBinary op l r
    else lparW :: (ppBinary op l r ++ [rparW])
  | e => ppAtomic e
termination_by e => (sizeOf e, 3)
decreasing_by all_goals (simp_wf; omega)

/-- Canonical print at the `factor` level: every binary node is
parenthesized. -/
def ppFactor : Expr → List Word
  | .binary op l r => lparW :: (ppBinary op l r ++ [rparW])
  | e => ppAtomic e
termination_by e => (sizeOf e, 2)
decreasing_by all_goals (simp_wf; omega)

/-- Canonical print of the atomic factors: numbers, var references and
calls. -/
def ppAtomic : Expr → List Word
  | .num n => [numWord n]
  | .varPlain x => [idWord x]
  | .varIndexed x i => idWord x :: lbkW :: (ppExpr i ++ [rbkW])
  | .call x a => idWord x :: lparW :: (ppArgs a ++ [rparW])
  | .binary op l r => lparW :: (ppBinary op l r ++ [rparW])
termination_by e => (sizeOf e, 1)
decreasing_by all_goals (simp_wf; omega)

/-- Canonical print of a call argument list, comma separated. -/
def ppArgs : ExprList → List Word
  | .nil => []
  | .cons e t => ppExpr e ++ ppArgsRest t
termination_by a => (sizeOf a, 1)
decreasing_by all_goals (simp_wf; omega)

/-- Comma-led print of the remaining call arguments. -/
def ppArgsRest : ExprList → List Word
  | .nil => []
  | .cons e t => commaW :: (ppExpr e ++ ppArgsRest t)
termination_by a => (sizeOf a, 0)
decreasing_by all_goals (simp_wf; omega)

end

/-- Canonical print of a variable declaration. -/
def ppVarDecl (v : VarDecl) : List Word :=
  typeWord v.type :: idWord v.name ::
    (match v.array_size with
     | none => [semiW]
     | some n => [lbkW, numWord n, rbkW, semiW])

/-- Canonical print of a local-declaration list. -/
def ppVarDeclList : List VarDecl → List Word
  | [] => []
  | v :: vs => ppVarDecl v ++ ppVarDeclList vs

mutual

/-- Canonical print of a statement. -/
def ppStmt : Stmt → List Word
  | .nullStmt => [semiW]
  | .exprStmt e => ppExpr e ++ [semiW]
  | .compound c => ppCompound c
  | .selection cond t => ifW :: lparW :: (ppExpr cond ++ (rparW :: ppStmt t))
  | .selectionElse cond t e =>
    ifW :: lparW :: (ppExpr cond ++ (rparW :: (ppStmt t ++ (elseW :: ppStmt e))))
  | .iteration cond b => whileW :: lparW :: (ppExpr cond ++ (rparW :: ppStmt b))
  | .returnVoid => [returnW, semiW]
  | .returnExpr e => returnW :: (ppExpr e ++ [semiW])

/-- Canonical print of a statement list. -/
def ppStmtList : StmtList → List Word
  | .nil => []
  | .cons st t => ppStmt st ++ ppStmtList t

/-- Canonical print of a compound statement. -/
def ppCompound : CompoundStmt → List Word
  | .mk decls stmts => lcurW :: (ppVarDeclList decls ++ ppStmtList stmts ++ [rcurW])

end

/-- Canonical print of one parameter. -/
def ppParam (p : ParmVarDecl) : List Word :=
  typeWord p.type :: idWord p.name :: (if p.is_array then [lbkW, rbkW] else [])

/-- Canonical print of a nonempty parameter list, comma separated. -/
def ppParamList : List ParmVarDecl → List Word
  | [] => []
  | [p] => ppParam p
  | p :: ps => ppParam p ++ (commaW :: ppParamList ps)

/-- Comma-led print of the remaining parameters. -/
def ppParamsRest : List ParmVarDecl → List Word
  | [] => []
  | p :: ps => commaW :: (ppParam p ++ ppParamsRest ps)

/-- Canonical print of the params: `void` when there are none. -/
def ppParams : List ParmVarDecl → List Word
  | [] => [voidW]
  | ps => ppParamList ps

/-- Canonical print of a function declaration. -/
def ppFunDecl (fd : ASTFunDecl) : List Word :=
  typeWord fd.retn :: idWord fd.name :: lparW ::
    (ppParams fd.params ++
      (rparW :: (match fd.body with
                 | some c => ppCompound c
                 | none => [])))

/-- Canonical print of a top-level declaration. -/
def ppDecl : Decl → List Word
  | .varD v => ppVarDecl v
  | .funD fd => ppFunDecl fd

/-- Canonical print of a declaration list. -/
def ppDeclList : List Decl → List Word
  | [] => []
  | d :: ds => ppDecl d ++ ppDeclList ds

/-- Canonical print of a program. -/
def ppProgram (p : Program) : List Word :=
  ppDeclList p.decls

/-! Well-formedness of parser-produced AST nodes: binary operators are drawn
from the grammar's operator sets, assignment left-hand sides are VarRefs,
declared types are int or void, every function has a body, and a program has
at least one declaration. -/

mutual

/-- Well-formedness of expressions. -/
def goodExpr : Expr → Bool
  | .num _ => true
  | .varPlain _ => true
  | .varIndexed _ i => goodExpr i
  | .call _ a => goodExprList a
  | .binary op l r =>
    (isRelop op || isAddop op || isMulop op ||
      (op == .Assign && l.as_var_expr.isSome)) &&
    goodExpr l && goodExpr r

/-- Well-formedness of expression lists. -/
def goodExprList : ExprList → Bool
  | .nil => true
  | .cons e t => goodExpr e && goodExprList t

end

/-- Well-formedness of a variable declaration: its type is a type-specifier
word's type. -/
def goodVarDecl (v : VarDecl) : Bool :=
  v.type == .int || v.type == .void

/-- Well-formedness of a local-declaration list. -/
def goodVarDeclList : List VarDecl → Bool
  | [] => true
  | v :: vs => goodVarDecl v && goodVarDeclList vs

/-- Well-formedness of one parameter. -/
def goodParam (p : ParmVarDecl) : Bool :=
  p.type == .int || p.type == .void

/-- Well-formedness of a parameter list. -/
def goodParamList : List ParmVarDecl → Bool
  | [] => true
  | p :: ps => goodParam p && goodParamList ps

mutual

/-- Well-formedness of statements. -/
def goodStmt : Stmt → Bool
  | .nullStmt => true
  | .exprStmt e => goodExpr e
  | .compound c => goodCompound c
  | .selection cond t => goodExpr cond && goodStmt t
  | .selectionElse cond t e => goodExpr cond && goodStmt t && goodStmt e
  | .iteration cond b => goodExpr cond && goodStmt b
  | .returnVoid => true
  | .returnExpr e => goodExpr e

/-- Well-formedness of statement lists. -/
def goodStmtList : StmtList → Bool
  | .nil => true
  | .cons st t => goodStmt st && goodStmtList t

/-- Well-formedness of compound statements. -/
def goodCompound : CompoundStmt → Bool
  | .mk decls stmts => goodVarDeclList decls && goodStmtList stmts

end

/-- Well-formedness of a function declaration: type-specifier return type,
well-formed params, and a present well-formed body. -/
def goodFunDecl (fd : ASTFunDecl) : Bool :=
  (fd.retn == .int || fd.retn == .void) && goodParamList fd.params &&
    (match fd.body with
     | some c => goodCompound c
     | none => false)

/-- Well-formedness of a top-level declaration. -/
def goodDecl : Decl → Bool
  | .varD v => goodVarDecl v
  | .funD fd => goodFunDecl fd

/-- Well-formedness of a declaration list. -/
def goodDeclList : List Decl → Bool
  | [] => true
  | d :: ds => goodDecl d && goodDeclList ds

/-- Well-formedness of a program: at least one declaration, all
well-formed. -/
def goodProgram (p : Program) : Bool :=
  (match p.decls with
   | [] => false
   | _ => true) && goodDeclList p.decls

/-! The published C-minus grammar, as a derivation relation over word
streams.  Terminals are matched by word category (ID and NUM match any word of
the Identifier and Number categories).  The productions follow the grammar at
the bottom of the parser source file. -/

/-- The grammar's nonterminals. -/
inductive NT where
  | program
  | declList
  | decl
  | varDecl
  | funDecl
  | params
  | paramList
  | param
  | compoundStmt
  | localDecls
  | stmtList
  | stmt
  | exprStmt
  | selectionStmt
  | iterationStmt
  | returnStmt
  | expr
  | var
  | simpleExpr
  | addExpr
  | term
  | factor
  | call
  | args
  | argList
deriving DecidableEq, Repr

/-- Whether a word is a type-specifier terminal. -/
def isTypeSpec (w : Word) : Prop :=
  w.category = .Int ∨ w.category = .Void

/-- Derivation of a word stream from a nonterminal under the published
grammar. -/
inductive Derives : NT → List Word → Prop where
  | program (w) :
      Derives .declList w → Derives .program w
  | declListOne (w) :
      Derives .decl w → Derives .declList w
  | declListCons (w1 w2) :
      Derives .declList w1 → Derives .decl w2 → Derives .declList (w1 ++ w2)
  | declVar (w) :
      Derives .varDecl w → Derives .decl w
  | declFun (w) :
      Derives .funDecl w → Derives .decl w
  | varDeclPlain (t i sc) :
      isTypeSpec t → i.category = .Identifier → sc.category = .Semicolon →
      Derives .varDecl [t, i, sc]
  | varDeclArray (t i lb n rb sc) :
      isTypeSpec t → i.category = .Identifier → lb.category = .OpenBracket →
      n.category = .Number → rb.category = .CloseBracket → sc.category = .Semicolon →
      Derives .varDecl [t, i, lb, n, rb, sc]
  | funDecl (t i lp w1 rp w2) :
      isTypeSpec t → i.category = .Identifier → lp.category = .OpenParen →
      Derives .params w1 → rp.category = .CloseParen → Derives .compoundStmt w2 →
      Derives .funDecl (t :: i :: lp :: (w1 ++ rp :: w2))
  | paramsVoid (v) :
      v.category = .Void → Derives .params [v]
  | paramsList (w) :
      Derives .paramList w → Derives .params w
  | paramListOne (w) :
      Derives .param w → Derives .paramList w
  | paramListCons (w1 c w2) :
      Derives .paramList w1 → c.category = .Comma → Derives .param w2 →
      Derives .paramList (w1 ++ c :: w2)
  | paramPlain (t i) :
      isTypeSpec t → i.category = .Identifier → Derives .param [t, i]
  | paramArray (t i lb rb) :
      isTypeSpec t → i.category = .Identifier → lb.category = .OpenBracket →
      rb.category = .CloseBracket → Derives .param [t, i, lb, rb]
  | compound (lc w1 w2 rc) :
      lc.category = .OpenCurly → Derives .localDecls w1 → Derives .stmtList w2 →
      rc.category = .CloseCurly → Derives .compoundStmt (lc :: (w1 ++ w2 ++ [rc]))
  | localDeclsNil :
      Derives .localDecls []
  | localDeclsCons (w1 w2) :
      Derives .localDecls w1 → Derives .varDecl w2 → Derives .localDecls (w1 ++ w2)
  | stmtListNil :
      Derives .stmtList []
  | stmtListCons (w1 w2) :
      Derives .stmtList w1 → Derives .stmt w2 → Derives .stmtList (w1 ++ w2)
  | stmtExpr (w) :
      Derives .exprStmt w → Derives .stmt w
  | stmtCompound (w) :
      Derives .compoundStmt w → Derives .stmt w
  | stmtSelection (w) :
      Derives .selectionStmt w → Derives .stmt w
  | stmtIteration (w) :
      Derives .iterationStmt w → Derives .stmt w
  | stmtReturn (w) :
      Derives .returnStmt w → Derives .stmt w
  | exprStmtExpr (w sc) :
      Derives .expr w → sc.category = .Semicolon → Derives .exprStmt (w ++ [sc])
  | exprStmtNull (sc) :
      sc.category = .Semicolon → Derives .exprStmt [sc]
  | selectionIf (i lp w1 rp w2) :
      i.category = .If → lp.category = .OpenParen → Derives .expr w1 →
      rp.category = .CloseParen → Derives .stmt w2 →
      Derives .selectionStmt (i :: lp :: (w1 ++ rp :: w2))
  | selectionIfElse (i lp w1 rp w2 e w3) :
      i.category = .If → lp.category = .OpenParen → Derives .expr w1 →
      rp.category = .CloseParen → Derives .stmt w2 → e.category = .Else →
      Derives .stmt w3 →
      Derives .selectionStmt (i :: lp :: (w1 ++ rp :: (w2 ++ e :: w3)))
  | iteration (wh lp w1 rp w2) :
      wh.category = .While → lp.category = .OpenParen → Derives .expr w1 →
      rp.category = .CloseParen → Derives .stmt w2 →
      Derives .iterationStmt (wh :: lp :: (w1 ++ rp :: w2))
  | returnNo (r sc) :
      r.category = .Return → sc.category = .Semicolon →
      Derives .returnStmt [r, sc]
  | returnE (r w sc) :
      r.category = .Return → Derives .expr w → sc.category = .Semicolon →
      Derives .returnStmt (r :: (w ++ [sc]))
  | exprAssign (w1 a w2) :
      Derives .var w1 → a.category = .Assign → Derives .expr w2 →
      Derives .expr (w1 ++ a :: w2)
  | exprSimple (w) :
      Derives .simpleExpr w → Derives .expr w
  | varPlainD (i) :
      i.category = .Identifier → Derives .var [i]
  | varIndexedD (i lb w rb) :
      i.category = .Identifier → lb.category = .OpenBracket → Derives .expr w →
      rb.category = .CloseBracket → Derives .var (i :: lb :: (w ++ [rb]))
  | simpleRel (w1 op w2) :
      Derives .addExpr w1 → isRelop op.category = true → Derives .addExpr w2 →
      Derives .simpleExpr (w1 ++ op :: w2)
  | simpleAdd (w) :
      Derives .addExpr w → Derives .simpleExpr w
  | addCons (w1 op w2) :
      Derives .addExpr w1 → isAddop op.category = true → Derives .term w2 →
      Derives .addExpr (w1 ++ op :: w2)
  | addTerm (w) :
      Derives .term w → Derives .addExpr w
  | termCons (w1 op w2) :
      Derives .term w1 → isMulop op.category = true → Derives .factor w2 →
      Derives .term (w1 ++ op :: w2)
  | termFactor (w) :
      Derives .factor w → Derives .term w
  | factorParen (lp w rp) :
      lp.category = .OpenParen → Derives .expr w → rp.category = .CloseParen →
      Derives .factor (lp :: (w ++ [rp]))
  | factorVar (w) :
      Derives .var w → Derives .factor w
  | factorCall (w) :
      Derives .call w → Derives .factor w
  | factorNum (n) :
      n.category = .Number → Derives .factor [n]
  | callD (i lp w rp) :
      i.category = .Identifier → lp.category = .OpenParen → Derives .args w →
      rp.category = .CloseParen → Derives .call (i :: lp :: (w ++ [rp]))
  | argsNil :
      Derives .args []
  | argsList (w) :
      Derives .argList w → Derives .args w
  | argListOne (w) :
      Derives .expr w → Derives .argList w
  | argListCons (w1 c w2) :
      Derives .argList w1 → c.category = .Comma → Derives .expr w2 →
      Derives .argList (w1 ++ c :: w2)

/-! A decidable necessary condition on every derivable word stream, used to
refute derivability of concrete streams: parens and brackets are balanced
(net depth zero), and every `=` token at relative bracket depth zero is
immediately preceded by an identifier or a closing bracket (the tail of a
`var`). -/

/-- Depth contribution of one category: parens and brackets open and close. -/
def depthDelta : Category → Int
  | .OpenParen | .OpenBracket => 1
  | .CloseParen | .CloseBracket => -1
  | _ => 0

/-- Net depth of a word stream. -/
def netDepth : List Word → Int
  | [] => 0
  | w :: ws => depthDelta w.category + netDepth ws

/-- The category of the last word of a stream, if any. -/
def lastCat : List Word → Option Category
  | [] => none
  | [w] => some w.category
  | _ :: w :: ws => lastCat (w :: ws)

/-- Scans a stream from starting depth `d` with previous category `p`,
checking that every `Assign` word at depth zero is immediately preceded by an
identifier or a closing bracket. -/
def assignChk : Int → Option Category → List Word → Bool
  | _, _, [] => true
  | d, p, w :: ws =>
    decide ((w.category = .Assign ∧ d = 0) →
      (p = some .Identifier ∨ p = some .CloseBracket)) &&
    assignChk (d + depthDelta w.category) (some w.category) ws

/-- The previous-category value after scanning `u` from previous `p`. -/
def prevAfter (u : List Word) (p : Option Category) : Option Category :=
  match lastCat u with
  | some c => some c
  | none => p

/-- The balanced-and-assign-guarded condition every derivable stream meets:
net depth zero, and from every nonnegative start depth and any previous
category, every `=` at depth zero is preceded by an identifier or closing
bracket. -/
def StreamOk (w : List Word) : Prop :=
  netDepth w = 0 ∧ ∀ d p, 0 ≤ d → assignChk d p w = true

/-! Diagnostics bookkeeping for the parser's error policy: the
`parser_expected_*` family. -/

/-- Whether a diagnostic kind is one of the parser's expected-something
diagnostics. -/
def isExpectedDiag : Diag → Bool
  | .parser_expected_token | .parser_expected_type
  | .parser_expected_expression | .parser_expected_statement => true
  | _ => false

/-- The expected-something diagnostics of an emission list, in order. -/
def expDiags (ds : List DiagRecord) : List DiagRecord :=
  ds.filter (fun dr => isExpectedDiag dr.code)

/-! State relations used by the parser invariants. -/

/-- The scope stack is changed at most in the top frame: same tail, same top
flags, and the stack is empty exactly when it was. -/
def scopesTopOnly (s s2 : PState) : Prop :=
  s2.scopes.tail = s.scopes.tail ∧
  (s2.scopes.headD emptyFrame).flags = (s.scopes.headD emptyFrame).flags ∧
  (s2.scopes = [] ↔ s.scopes = [])

/-- The function heap is changed at most in entry `idx`, which keeps its name,
return type and body, and whose parameter list stays well-formed if it was. -/
def heapModifiedAt (idx : Nat) (s s2 : PState) : Prop :=
  s2.funHeap.length = s.funHeap.length ∧
  (∀ j, j ≠ idx → s2.funHeap.getD j default = s.funHeap.getD j default) ∧
  (s2.funHeap.getD idx default).name = (s.funHeap.getD idx default).name ∧
  (s2.funHeap.getD idx default).retn = (s.funHeap.getD idx default).retn ∧
  (goodParamList (s.funHeap.getD idx default).params = true →
    goodParamList (s2.funHeap.getD idx default).params = true)

/-- Invariant of expression-family parser outcomes: scopes and function heap
untouched; on success the node is well-formed and no expected-something
diagnostic was emitted. -/
def exprOut (s : PState) (r : Option Expr × PState) : Prop :=
  r.2.scopes = s.scopes ∧ r.2.funHeap = s.funHeap ∧
  ∀ e, r.1 = some e → goodExpr e = true ∧ expDiags r.2.diags = expDiags s.diags

/-- Invariant of statement-family parser outcomes. -/
def stmtOut (s : PState) (r : Option Stmt × PState) : Prop :=
  r.2.scopes = s.scopes ∧ r.2.funHeap = s.funHeap ∧
  ∀ st, r.1 = some st → goodStmt st = true ∧ expDiags r.2.diags = expDiags s.diags

/-- Invariant of compound-statement parser outcomes: the pushed frame is
popped on every exit path. -/
def compoundOut (s : PState) (r : Option CompoundStmt × PState) : Prop :=
  r.2.scopes = s.scopes ∧ r.2.funHeap = s.funHeap ∧
  ∀ c, r.1 = some c → goodCompound c = true ∧ expDiags r.2.diags = expDiags s.diags

/-- Invariant of var-declaration parser outcomes: at most the top scope frame
changes. -/
def varDeclOut (s : PState) (r : Option VarDecl × PState) : Prop :=
  scopesTopOnly s r.2 ∧ r.2.funHeap = s.funHeap ∧
  ∀ v, r.1 = some v → goodVarDecl v = true ∧ expDiags r.2.diags = expDiags s.diags

/-- Invariant of parameter parser outcomes. -/
def paramOut (s : PState) (r : Option ParmVarDecl × PState) : Prop :=
  scopesTopOnly s r.2 ∧ r.2.funHeap = s.funHeap ∧
  ∀ p, r.1 = some p → goodParam p = true ∧ expDiags r.2.diags = expDiags s.diags

/-- Invariant of the params-section outcomes inside `parse_fun_declaration`:
at most the top (params) frame and heap entry `fun_idx` change. -/
def paramsOut (idx : Nat) (s : PState) (r : Option Unit × PState) : Prop :=
  scopesTopOnly s r.2 ∧ heapModifiedAt idx s r.2 ∧
  (r.1 = some () → expDiags r.2.diags = expDiags s.diags)

/-- Invariant of the ParseScope-block outcomes inside `parse_fun_declaration`:
on success the heap entry holds a well-formed body. -/
def funBodyOut (idx : Nat) (s : PState) (r : Option Unit × PState) : Prop :=
  scopesTopOnly s r.2 ∧ heapModifiedAt idx s r.2 ∧
  (r.1 = some () → expDiags r.2.diags = expDiags s.diags ∧
    ∃ c, (r.2.funHeap.getD idx default).body = some c ∧ goodCompound c = true)

/-- Invariant of fun-declaration parser outcomes: at most the top scope frame
changes, the heap is extended, and on success the node is well-formed. -/
def funDeclOut (s : PState) (r : Option ASTFunDecl × PState) : Prop :=
  scopesTopOnly s r.2 ∧ s.funHeap.length ≤ r.2.funHeap.length ∧
  ∀ fd, r.1 = some fd → goodFunDecl fd = true ∧ expDiags r.2.diags = expDiags s.diags

/-- Invariant of declaration parser outcomes. -/
def declOut (s : PState) (r : Option Decl × PState) : Prop :=
  scopesTopOnly s r.2 ∧ s.funHeap.length ≤ r.2.funHeap.length ∧
  ∀ d, r.1 = some d → goodDecl d = true ∧ expDiags r.2.diags = expDiags s.diags

/-- Invariant of the declaration loop of `parse_program`: on success the
program extends the accumulated declarations and the global frame has been
popped. -/
def programLoopOut (acc : List Decl) (s : PState) (r : Option Program × PState) : Prop :=
  ∀ p, r.1 = some p →
    (∃ ds, p.decls = acc ++ ds ∧ ds ≠ []) ∧
    (goodDeclList acc = true → goodDeclList p.decls = true) ∧
    expDiags r.2.diags = expDiags s.diags ∧
    r.2.scopes = s.scopes.tail

/-- Invariant of `parse_program` outcomes. -/
def programOut (s : PState) (r : Option Program × PState) : Prop :=
  ∀ p, r.1 = some p →
    goodProgram p = true ∧ expDiags r.2.diags = expDiags s.diags ∧
    r.2.scopes = s.scopes

/-- The word stream of `( x ) = 5`: a parenthesized variable reference used as
an assignment left-hand side. -/
def parenAssignStream : List Word :=
  [lparW, idWord "x", rparW, opWord .Assign, numWord 5]

/-- The word stream of `void main ( void ) { ( x ) = 5 ; }`. -/
def cexStream : List Word :=
  [voidW, idWord "main", lparW, voidW, rparW, lcurW,
   lparW, idWord "x", rparW, opWord .Assign, numWord 5, semiW, rcurW]

/-- A parse state over `void f ( void ) ;` with the global scope frame open:
the function declaration's body is missing, so its parse fails after the
`FunDecl` shell is installed. -/
def sFun : PState :=
  pushScope .globalScope (initState [voidW, idWord "f", lparW, voidW, rparW, semiW] [])

/-- The state in which the ParseScope block of `parse_fun_declaration` ends
when run on `sFun`: the shell is on the heap and installed in the global
frame, and the missing `{` was reported. -/
def sFunFail : PState :=
  ⟨[semiW], [⟨.funParams, []⟩, ⟨.globalScope, [("f", .funE 0)]⟩],
   [⟨.void, "f", [], none⟩], [⟨.parser_expected_token, [.cat .OpenCurly]⟩]⟩

/-! Theorems.  First the stream-checker theory and the necessary condition on
derivable streams. -/

theorem netDepth_append (u v : List Word) :
    netDepth (u ++ v) = netDepth u + netDepth v := by
  induction u with
  | nil => simp [netDepth]
  | cons w u ih => simp [netDepth, ih]; omega

theorem lastCat_cons (w : Word) (u : List Word) (h : u ≠ []) :
    lastCat (w :: u) = lastCat u := by
  cases u with
  | nil => exact absurd rfl h
  | cons b bs => rfl

theorem lastCat_append (u v : List Word) (h : v ≠ []) :
    lastCat (u ++ v) = lastCat v := by
  induction u with
  | nil => rfl
  | cons a u ih =>
    have hne : u ++ v ≠ [] := by
      simp only [ne_eq, List.append_eq_nil]
      rintro ⟨-, rfl⟩
      exact h rfl
    rw [List.cons_append, lastCat_cons a (u ++ v) hne, ih]

theorem prevAfter_nil (p : Option Category) : prevAfter [] p = p := rfl

theorem prevAfter_cons (w : Word) (u : List Word) (p : Option Category) :
    prevAfter (w :: u) p = prevAfter u (some w.category) := by
  cases u with
  | nil => rfl
  | cons b bs =>
    unfold prevAfter
    rw [lastCat_cons w (b :: bs) (by simp)]
    cases h : lastCat (b :: bs) with
    | none =>
      exfalso
      induction bs generalizing b with
      | nil => simp [lastCat] at h
      | cons c cs ih => exact ih c (by rw [← h]; rfl)
    | some c => rfl

theorem assignChk_append (u v : List Word) (d : Int) (p : Option Category) :
    assignChk d p (u ++ v) =
      (assignChk d p u && assignChk (d + netDepth u) (prevAfter u p) v) := by
  induction u generalizing d p with
  | nil => simp [assignChk, netDepth, prevAfter, lastCat]
  | cons w u ih =>
    simp only [List.cons_append, assignChk, netDepth, prevAfter_cons,
      List.append_eq]
    rw [ih, Bool.and_assoc]
    have h2 : d + (depthDelta w.category + netDepth u)
        = d + depthDelta w.category + netDepth u := by omega
    rw [h2]

theorem streamOk_nil : StreamOk [] :=
  ⟨rfl, fun _ _ _ => rfl⟩

theorem streamOk_append (u v : List Word) (hu : StreamOk u) (hv : StreamOk v) :
    StreamOk (u ++ v) := by
  refine ⟨by simp [netDepth_append, hu.1, hv.1], ?_⟩
  intro d p hd
  rw [assignChk_append, hu.2 d p hd, hu.1, Bool.true_and, add_zero]
  exact hv.2 d _ hd

theorem streamOk_single (w : Word) (h1 : w.category ≠ .Assign)
    (h2 : depthDelta w.category = 0) : StreamOk [w] := by
  refine ⟨by simp [netDepth, h2], ?_⟩
  intro d p _
  simp [assignChk, h1]

theorem streamOk_cat (w : Word) (c : Category) (h : w.category = c)
    (hc : c ≠ .Assign) (hd : depthDelta c = 0) : StreamOk [w] :=
  streamOk_single w (by rw [h]; exact hc) (by rw [h]; exact hd)

theorem streamOk_type (t : Word) (h : isTypeSpec t) : StreamOk [t] := by
  rcases h with h | h
  · exact streamOk_cat t .Int h (by decide) (by decide)
  · exact streamOk_cat t .Void h (by decide) (by decide)

theorem streamOk_cons (w : Word) (u : List Word) (h1 : w.category ≠ .Assign)
    (h2 : depthDelta w.category = 0) (hu : StreamOk u) : StreamOk (w :: u) := by
  have := streamOk_append [w] u (streamOk_single w h1 h2) hu
  simpa using this

theorem streamOk_wrap (l : Word) (w : List Word) (r : Word)
    (hl : depthDelta l.category = 1) (hr : depthDelta r.category = -1)
    (hla : l.category ≠ .Assign) (hra : r.category ≠ .Assign)
    (hw : StreamOk w) : StreamOk (l :: (w ++ [r])) := by
  constructor
  · simp [netDepth, netDepth_append, hw.1, hl, hr]
  · intro d p hd
    simp only [assignChk, decide_eq_true_eq]
    rw [Bool.and_eq_true]
    constructor
    · simp [hla]
    · rw [assignChk_append, hw.2 _ _ (by omega), hw.1, Bool.true_and]
      simp [assignChk, hra]

theorem streamOk_assign (w1 : List Word) (a : Word) (w2 : List Word)
    (h1 : StreamOk w1)
    (hlast : lastCat w1 = some .Identifier ∨ lastCat w1 = some .CloseBracket)
    (ha : depthDelta a.category = 0) (h2 : StreamOk w2) :
    StreamOk (w1 ++ a :: w2) := by
  constructor
  · simp [netDepth_append, netDepth, h1.1, h2.1, ha]
  · intro d p hd
    rw [assignChk_append, h1.2 d p hd, Bool.true_and, h1.1, add_zero]
    simp only [assignChk, Bool.and_eq_true, decide_eq_true_eq]
    constructor
    · intro _
      unfold prevAfter
      rcases hlast with h | h <;> rw [h] <;> simp
    · rw [ha, add_zero]
      exact h2.2 d _ hd

/-- Every derivable stream satisfies the balanced-and-assign-guarded
condition, and every `var`-derived stream ends in an identifier or a closing
bracket. -/
theorem derives_streamOk (nt : NT) (w : List Word) (h : Derives nt w) :
    StreamOk w ∧
      (nt = .var → lastCat w = some .Identifier ∨ lastCat w = some .CloseBracket) := by
  induction h with
  | program w _ ih => exact ⟨ih.1, fun h => nomatch h⟩
  | declListOne w _ ih => exact ⟨ih.1, fun h => nomatch h⟩
  | declListCons w1 w2 _ _ ih1 ih2 =>
    exact ⟨streamOk_append w1 w2 ih1.1 ih2.1, fun h => nomatch h⟩
  | declVar w _ ih => exact ⟨ih.1, fun h => nomatch h⟩
  | declFun w _ ih => exact ⟨ih.1, fun h => nomatch h⟩
  | varDeclPlain t i sc ht hi hsc =>
    refine ⟨?_, fun h => nomatch h⟩
    have : [t, i, sc] = [t] ++ [i] ++ [sc] := by simp
    rw [this]
    exact streamOk_append _ _
      (streamOk_append _ _ (streamOk_type t ht)
        (streamOk_cat i .Identifier hi (by decide) (by decide)))
      (streamOk_cat sc .Semicolon hsc (by decide) (by decide))
  | varDeclArray t i lb n rb sc ht hi hlb hn hrb hsc =>
    refine ⟨?_, fun h => nomatch h⟩
    have : [t, i, lb, n, rb, sc] = [t] ++ [i] ++ (lb :: ([n] ++ [rb])) ++ [sc] := by
      simp
    rw [this]
    refine streamOk_append _ _ (streamOk_append _ _ (streamOk_append _ _
      (streamOk_type t ht)
      (streamOk_cat i .Identifier hi (by decide) (by decide))) ?_)
      (streamOk_cat sc .Semicolon hsc (by decide) (by decide))
    exact streamOk_wrap lb [n] rb (by rw [hlb]; decide) (by rw [hrb]; decide)
      (by rw [hlb]; decide) (by rw [hrb]; decide)
      (streamOk_cat n .Number hn (by decide) (by decide))
  | funDecl t i lp w1 rp w2 ht hi hlp _ hrp _ ih1 ih2 =>
    refine ⟨?_, fun h => nomatch h⟩
    have : t :: i :: lp :: (w1 ++ rp :: w2)
        = [t] ++ [i] ++ (lp :: (w1 ++ [rp])) ++ w2 := by simp
    rw [this]
    refine streamOk_append _ _ (streamOk_append _ _ (streamOk_append _ _
      (streamOk_type t ht)
      (streamOk_cat i .Identifier hi (by decide) (by decide))) ?_) ih2.1
    exact streamOk_wrap lp w1 rp (by rw [hlp]; decide) (by rw [hrp]; decide)
      (by rw [hlp]; decide) (by rw [hrp]; decide) ih1.1
  | paramsVoid v hv =>
    exact ⟨streamOk_cat v .Void hv (by decide) (by decide), fun h => nomatch h⟩
  | paramsList w _ ih => exact ⟨ih.1, fun h => nomatch h⟩
  | paramListOne w _ ih => exact ⟨ih.1, fun h => nomatch h⟩
  | paramListCons w1 c w2 _ hc _ ih1 ih2 =>
    refine ⟨?_, fun h => nomatch h⟩
    exact streamOk_append w1 (c :: w2) ih1.1
      (streamOk_cons c w2 (by rw [hc]; decide) (by rw [hc]; decide) ih2.1)
  | paramPlain t i ht hi =>
    refine ⟨?_, fun h => nomatch h⟩
    have : [t, i] = [t] ++ [i] := by simp
    rw [this]
    exact streamOk_append _ _ (streamOk_type t ht)
      (streamOk_cat i .Identifier hi (by decide) (by decide))
  | paramArray t i lb rb ht hi hlb hrb =>
    refine ⟨?_, fun h => nomatch h⟩
    have : [t, i, lb, rb] = [t] ++ [i] ++ (lb :: ([] ++ [rb])) := by simp
    rw [this]
    refine streamOk_append _ _ (streamOk_append _ _ (streamOk_type t ht)
      (streamOk_cat i .Identifier hi (by decide) (by decide))) ?_
    exact streamOk_wrap lb [] rb (by rw [hlb]; decide) (by rw [hrb]; decide)
      (by rw [hlb]; decide) (by rw [hrb]; decide) streamOk_nil
  | compound lc w1 w2 rc hlc _ _ hrc ih1 ih2 =>
    refine ⟨?_, fun h => nomatch h⟩
    refine streamOk_cons lc _ (by rw [hlc]; decide) (by rw [hlc]; decide) ?_
    exact streamOk_append _ _ (streamOk_append w1 w2 ih1.1 ih2.1)
      (streamOk_cat rc .CloseCurly hrc (by decide) (by decide))
  | localDeclsNil => exact ⟨streamOk_nil, fun h => nomatch h⟩
  | localDeclsCons w1 w2 _ _ ih1 ih2 =>
    exact ⟨streamOk_append w1 w2 ih1.1 ih2.1, fun h => nomatch h⟩
  | stmtListNil => exact ⟨streamOk_nil, fun h => nomatch h⟩
  | stmtListCons w1 w2 _ _ ih1 ih2 =>
    exact ⟨streamOk_append w1 w2 ih1.1 ih2.1, fun h => nomatch h⟩
  | stmtExpr w _ ih => exact ⟨ih.1, fun h => nomatch h⟩
  | stmtCompound w _ ih => exact ⟨ih.1, fun h => nomatch h⟩
  | stmtSelection w _ ih => exact ⟨ih.1, fun h => nomatch h⟩
  | stmtIteration w _ ih => exact ⟨ih.1, fun h => nomatch h⟩
  | stmtReturn w _ ih => exact ⟨ih.1, fun h => nomatch h⟩
  | exprStmtExpr w sc _ hsc ih =>
    refine ⟨?_, fun h => nomatch h⟩
    exact streamOk_append w [sc] ih.1
      (streamOk_cat sc .Semicolon hsc (by decide) (by decide))
  | exprStmtNull sc hsc =>
    exact ⟨streamOk_cat sc .Semicolon hsc (by decide) (by decide),
      fun h => nomatch h⟩
  | selectionIf i lp w1 rp w2 hi hlp _ hrp _ ih1 ih2 =>
    refine ⟨?_, fun h => nomatch h⟩
    have : i :: lp :: (w1 ++ rp :: w2) = [i] ++ (lp :: (w1 ++ [rp])) ++ w2 := by
      simp
    rw [this]
    refine streamOk_append _ _ (streamOk_append _ _
      (streamOk_cat i .If hi (by decide) (by decide)) ?_) ih2.1
    exact streamOk_wrap lp w1 rp (by rw [hlp]; decide) (by rw [hrp]; decide)
      (by rw [hlp]; decide) (by rw [hrp]; decide) ih1.1
  | selectionIfElse i lp w1 rp w2 e w3 hi hlp _ hrp _ he _ ih1 ih2 ih3 =>
    refine ⟨?_, fun h => nomatch h⟩
    have : i :: lp :: (w1 ++ rp :: (w2 ++ e :: w3))
        = [i] ++ (lp :: (w1 ++ [rp])) ++ w2 ++ (e :: w3) := by simp
    rw [this]
    refine streamOk_append _ _ (streamOk_append _ _ (streamOk_append _ _
      (streamOk_cat i .If hi (by decide) (by decide)) ?_) ih2.1) ?_
    · exact streamOk_wrap lp w1 rp (by rw [hlp]; decide) (by rw [hrp]; decide)
        (by rw [hlp]; decide) (by rw [hrp]; decide) ih1.1
    · exact streamOk_cons e w3 (by rw [he]; decide) (by rw [he]; decide) ih3.1
  | iteration wh lp w1 rp w2 hwh hlp _ hrp _ ih1 ih2 =>
    refine ⟨?_, fun h => nomatch h⟩
    have : wh :: lp :: (w1 ++ rp :: w2) = [wh] ++ (lp :: (w1 ++ [rp])) ++ w2 := by
      simp
    rw [this]
    refine streamOk_append _ _ (streamOk_append _ _
      (streamOk_cat wh .While hwh (by decide) (by decide)) ?_) ih2.1
    exact streamOk_wrap lp w1 rp (by rw [hlp]; decide) (by rw [hrp]; decide)
      (by rw [hlp]; decide) (by rw [hrp]; decide) ih1.1
  | returnNo r sc hr hsc =>
    refine ⟨?_, fun h => nomatch h⟩
    have : [r, sc] = [r] ++ [sc] := by simp
    rw [this]
    exact streamOk_append _ _ (streamOk_cat r .Return hr (by decide) (by decide))
      (streamOk_cat sc .Semicolon hsc (by decide) (by decide))
  | returnE r w sc hr _ hsc ih =>
    refine ⟨?_, fun h => nomatch h⟩
    refine streamOk_cons r _ (by rw [hr]; decide) (by rw [hr]; decide) ?_
    exact streamOk_append w [sc] ih.1
      (streamOk_cat sc .Semicolon hsc (by decide) (by decide))
  | exprAssign w1 a w2 h1 ha _ ih1 ih2 =>
    refine ⟨?_, fun h => nomatch h⟩
    exact streamOk_assign w1 a w2 ih1.1 (ih1.2 rfl) (by rw [ha]; decide) ih2.1
  | exprSimple w _ ih => exact ⟨ih.1, fun h => nomatch h⟩
  | varPlainD i hi =>
    refine ⟨streamOk_cat i .Identifier hi (by decide) (by decide), fun _ => ?_⟩
    left
    simp [lastCat, hi]
  | varIndexedD i lb w rb hi hlb _ hrb ih =>
    constructor
    · refine streamOk_cons i _ (by rw [hi]; decide) (by rw [hi]; decide) ?_
      exact streamOk_wrap lb w rb (by rw [hlb]; decide) (by rw [hrb]; decide)
        (by rw [hlb]; decide) (by rw [hrb]; decide) ih.1
    · intro _
      right
      have : i :: lb :: (w ++ [rb]) = (i :: lb :: w) ++ [rb] := by simp
      rw [this, lastCat_append _ _ (by simp)]
      simp [lastCat, hrb]
  | simpleRel w1 op w2 _ hop _ ih1 ih2 =>
    refine ⟨?_, fun h => nomatch h⟩
    have hopc : op.category ≠ .Assign ∧ depthDelta op.category = 0 := by
      cases hcat : op.category <;> simp [hcat, isRelop] at hop ⊢ <;> decide
    exact streamOk_append w1 (op :: w2) ih1.1
      (streamOk_cons op w2 hopc.1 hopc.2 ih2.1)
  | simpleAdd w _ ih => exact ⟨ih.1, fun h => nomatch h⟩
  | addCons w1 op w2 _ hop _ ih1 ih2 =>
    refine ⟨?_, fun h => nomatch h⟩
    have hopc : op.category ≠ .Assign ∧ depthDelta op.category = 0 := by
      cases hcat : op.category <;> simp [hcat, isAddop] at hop ⊢ <;> decide
    exact streamOk_append w1 (op :: w2) ih1.1
      (streamOk_cons op w2 hopc.1 hopc.2 ih2.1)
  | addTerm w _ ih => exact ⟨ih.1, fun h => nomatch h⟩
  | termCons w1 op w2 _ hop _ ih1 ih2 =>
    refine ⟨?_, fun h => nomatch h⟩
    have hopc : op.category ≠ .Assign ∧ depthDelta op.category = 0 := by
      cases hcat : op.category <;> simp [hcat, isMulop] at hop ⊢ <;> decide
    exact streamOk_append w1 (op :: w2) ih1.1
      (streamOk_cons op w2 hopc.1 hopc.2 ih2.1)
  | termFactor w _ ih => exact ⟨ih.1, fun h => nomatch h⟩
  | factorParen lp w rp hlp _ hrp ih =>
    refine ⟨?_, fun h => nomatch h⟩
    exact streamOk_wrap lp w rp (by rw [hlp]; decide) (by rw [hrp]; decide)
      (by rw [hlp]; decide) (by rw [hrp]; decide) ih.1
  | factorVar w _ ih => exact ⟨ih.1, fun h => nomatch h⟩
  | factorCall w _ ih => exact ⟨ih.1, fun h => nomatch h⟩
  | factorNum n hn =>
    exact ⟨streamOk_cat n .Number hn (by decide) (by decide), fun h => nomatch h⟩
  | callD i lp w rp hi hlp _ hrp ih =>
    refine ⟨?_, fun h => nomatch h⟩
    refine streamOk_cons i _ (by rw [hi]; decide) (by rw [hi]; decide) ?_
    exact streamOk_wrap lp w rp (by rw [hlp]; decide) (by rw [hrp]; decide)
      (by rw [hlp]; decide) (by rw [hrp]; decide) ih.1
  | argsNil => exact ⟨streamOk_nil, fun h => nomatch h⟩
  | argsList w _ ih => exact ⟨ih.1, fun h => nomatch h⟩
  | argListOne w _ ih => exact ⟨ih.1, fun h => nomatch h⟩
  | argListCons w1 c w2 _ hc _ ih1 ih2 =>
    refine ⟨?_, fun h => nomatch h⟩
    exact streamOk_append w1 (c :: w2) ih1.1
      (streamOk_cons c w2 (by rw [hc]; decide) (by rw [hc]; decide) ih2.1)

/-- A stream failing the assign-guard scan from depth 0 is not derivable from
any nonterminal. -/
theorem not_derivable_of_assignChk (nt : NT) (w : List Word)
    (h : assignChk 0 none w = false) : ¬ Derives nt w := by
  intro hd
  have := (derives_streamOk nt w hd).1.2 0 none le_rfl
  rw [h] at this
  exact Bool.false_ne_true this

/-! Derivability of the canonical print of well-formed ASTs. -/

theorem derives_expr_of_add (w : List Word) (h : Derives .addExpr w) :
    Derives .expr w :=
  .exprSimple w (.simpleAdd w h)

theorem derives_expr_of_term (w : List Word) (h : Derives .term w) :
    Derives .expr w :=
  derives_expr_of_add w (.addTerm w h)

theorem derives_expr_of_factor (w : List Word) (h : Derives .factor w) :
    Derives .expr w :=
  derives_expr_of_term w (.termFactor w h)

theorem goodExpr_binary_parts (op : Category) (l r : Expr)
    (h : goodExpr (.binary op l r) = true) :
    (isRelop op = true ∨ isAddop op = true ∨ isMulop op = true ∨
      (op = .Assign ∧ l.as_var_expr.isSome = true)) ∧
    goodExpr l = true ∧ goodExpr r = true := by
  simp only [goodExpr, Bool.and_eq_true, Bool.or_eq_true, beq_iff_eq] at h
  obtain ⟨⟨hop, hl⟩, hr⟩ := h
  exact ⟨by tauto, hl, hr⟩

theorem exprSizeOf_pos (e : Expr) : 0 < sizeOf e := by
  cases e <;> simp_arith

mutual

theorem good_ppBinaryExpr : ∀ (op : Category) (l r : Expr),
    goodExpr (.binary op l r) = true → Derives .expr (ppBinary op l r)
  | op, l, r, h => by
    obtain ⟨hop, hl, hr⟩ := goodExpr_binary_parts op l r h
    rw [ppBinary]
    rcases Decidable.em (op = .Assign) with hass | hass
    · subst hass
      rw [if_pos rfl]
      have hv : l.as_var_expr.isSome = true := by
        rcases hop with h | h | h | h
        · simp [isRelop] at h
        · simp [isAddop] at h
        · simp [isMulop] at h
        · exact h.2
      exact .exprAssign _ (opWord .Assign) _ (good_ppVarLhs l hl hv) rfl
        (good_ppExpr r hr)
    · rw [if_neg hass]
      rcases hrel : isRelop op with - | -
      · rw [if_neg (by simp)]
        rcases hadd : isAddop op with - | -
        · rw [if_neg (by simp)]
          have hmul : isMulop op = true := by
            rcases hop with h | h | h | h
            · rw [h] at hrel; cases hrel
            · rw [h] at hadd; cases hadd
            · exact h
            · exact absurd h.1 hass
          exact derives_expr_of_term _
            (.termCons _ (opWord op) _ (good_ppTerm l hl)
              (by simp [opWord, hmul]) (good_ppFactor r hr))
        · rw [if_pos rfl]
          exact derives_expr_of_add _
            (.addCons _ (opWord op) _ (good_ppAdd l hl)
              (by simp [opWord, hadd]) (good_ppTerm r hr))
      · rw [if_pos rfl]
        exact .exprSimple _
          (.simpleRel _ (opWord op) _ (good_ppAdd l hl)
            (by simp [opWord, hrel]) (good_ppAdd r hr))
termination_by op l r h => (sizeOf l + sizeOf r, 2)
decreasing_by all_goals (simp_wf; have h1 := exprSizeOf_pos l; have h2 := exprSizeOf_pos r; omega)

theorem good_ppBinaryAdd : ∀ (op : Category) (l r : Expr),
    isAddop op = true ∨ isMulop op = true →
    goodExpr (.binary op l r) = true → Derives .addExpr (ppBinary op l r)
  | op, l, r, hcl, h => by
    obtain ⟨-, hl, hr⟩ := goodExpr_binary_parts op l r h
    have hass : ¬ op = .Assign := by
      rintro rfl
      rcases hcl with h | h
      · simp [isAddop] at h
      · simp [isMulop] at h
    have hrel : isRelop op = false := by
      rcases hcl with h | h <;>
        (cases op <;> first | rfl | (simp [isAddop, isMulop] at h))
    rw [ppBinary, if_neg hass, hrel, if_neg (by simp)]
    rcases hadd : isAddop op with - | -
    · have hmul : isMulop op = true := by
        rcases hcl with h | h
        · rw [h] at hadd; cases hadd
        · exact h
      rw [if_neg (by simp)]
      exact .addTerm _
        (.termCons _ (opWord op) _ (good_ppTerm l hl)
          (by simp [opWord, hmul]) (good_ppFactor r hr))
    · rw [if_pos rfl]
      exact .addCons _ (opWord op) _ (good_ppAdd l hl)
        (by simp [opWord, hadd]) (good_ppTerm r hr)
termination_by op l r hcl h => (sizeOf l + sizeOf r, 1)
decreasing_by all_goals (simp_wf; have h1 := exprSizeOf_pos l; have h2 := exprSizeOf_pos r; omega)

theorem good_ppBinaryTerm : ∀ (op : Category) (l r : Expr),
    isMulop op = true →
    goodExpr (.binary op l r) = true → Derives .term (ppBinary op l r)
  | op, l, r, hmul, h => by
    obtain ⟨-, hl, hr⟩ := goodExpr_binary_parts op l r h
    have hass : ¬ op = .Assign := by
      rintro rfl
      simp [isMulop] at hmul
    have hrel : isRelop op = false := by
      cases op <;> first | rfl | (simp [isMulop] at hmul)
    have hadd : isAddop op = false := by
      cases op <;> first | rfl | (simp [isMulop] at hmul)
    rw [ppBinary, if_neg hass, hrel, if_neg (by simp), hadd, if_neg (by simp)]
    exact .termCons _ (opWord op) _ (good_ppTerm l hl)
      (by simp [opWord, hmul]) (good_ppFactor r hr)
termination_by op l r hmul h => (sizeOf l + sizeOf r, 0)
decreasing_by all_goals (simp_wf; have h1 := exprSizeOf_pos l; have h2 := exprSizeOf_pos r; omega)

theorem good_ppExpr : ∀ (e : Expr), goodExpr e = true → Derives .expr (ppExpr e)
  | .num n, h => by
    simp only [ppExpr]
    exact derives_expr_of_factor _ (good_ppAtomic (.num n) h)
  | .varPlain x, h => by
    simp only [ppExpr]
    exact derives_expr_of_factor _ (good_ppAtomic (.varPlain x) h)
  | .varIndexed x i, h => by
    simp only [ppExpr]
    exact derives_expr_of_factor _ (good_ppAtomic (.varIndexed x i) h)
  | .call x a, h => by
    simp only [ppExpr]
    exact derives_expr_of_factor _ (good_ppAtomic (.call x a) h)
  | .binary op l r, h => by
    simp only [ppExpr]
    exact good_ppBinaryExpr op l r h
termination_by e h => (sizeOf e, 6)
decreasing_by all_goals (simp_wf; omega)

theorem good_ppAdd : ∀ (e : Expr), goodExpr e = true → Derives .addExpr (ppAdd e)
  | .num n, h => by
    simp only [ppAdd]
    exact .addTerm _ (.termFactor _ (good_ppAtomic (.num n) h))
  | .varPlain x, h => by
    simp only [ppAdd]
    exact .addTerm _ (.termFactor _ (good_ppAtomic (.varPlain x) h))
  | .varIndexed x i, h => by
    simp only [ppAdd]
    exact .addTerm _ (.termFactor _ (good_ppAtomic (.varIndexed x i) h))
  | .call x a, h => by
    simp only [ppAdd]
    exact .addTerm _ (.termFactor _ (good_ppAtomic (.call x a) h))
  | .binary op l r, h => by
    simp only [ppAdd]
    rcases hcl : isAddop op || isMulop op with - | -
    · rw [if_neg (by simp)]
      refine .addTerm _ (.termFactor _ (.factorParen lparW _ rparW rfl ?_ rfl))
      exact good_ppBinaryExpr op l r h
    · rw [if_pos rfl]
      exact good_ppBinaryAdd op l r (by simpa using hcl) h
termination_by e h => (sizeOf e, 5)
decreasing_by all_goals (simp_wf; omega)

theorem good_ppTerm : ∀ (e : Expr), goodExpr e = true → Derives .term (ppTerm e)
  | .num n, h => by
    simp only [ppTerm]
    exact .termFactor _ (good_ppAtomic (.num n) h)
  | .varPlain x, h => by
    simp only [ppTerm]
    exact .termFactor _ (good_ppAtomic (.varPlain x) h)
  | .varIndexed x i, h => by
    simp only [ppTerm]
    exact .termFactor _ (good_ppAtomic (.varIndexed x i) h)
  | .call x a, h => by
    simp only [ppTerm]
    exact .termFactor _ (good_ppAtomic (.call x a) h)
  | .binary op l r, h => by
    simp only [ppTerm]
    rcases hcl : isMulop op with - | -
    · rw [if_neg (by simp)]
      refine .termFactor _ (.factorParen lparW _ rparW rfl ?_ rfl)
      exact good_ppBinaryExpr op l r h
    · rw [if_pos rfl]
      exact good_ppBinaryTerm op l r hcl h
termination_by e h => (sizeOf e, 4)
decreasing_by all_goals (simp_wf; omega)

theorem good_ppFactor : ∀ (e : Expr), goodExpr e = true → Derives .factor (ppFactor e)
  | .num n, h => by
    simp only [ppFactor]
    exact good_ppAtomic (.num n) h
  | .varPlain x, h => by
    simp only [ppFactor]
    exact good_ppAtomic (.varPlain x) h
  | .varIndexed x i, h => by
    simp only [ppFactor]
    exact good_ppAtomic (.varIndexed x i) h
  | .call x a, h => by
    simp only [ppFactor]
    exact good_ppAtomic (.call x a) h
  | .binary op l r, h => by
    simp only [ppFactor]
    exact .factorParen lparW _ rparW rfl (good_ppBinaryExpr op l r h) rfl
termination_by e h => (sizeOf e, 3)
decreasing_by all_goals (simp_wf; omega)

theorem good_ppVarLhs : ∀ (e : Expr), goodExpr e = true →
    e.as_var_expr.isSome = true → Derives .var (ppVarLhs e)
  | .varPlain x, _, _ => by
    simp only [ppVarLhs]
    exact .varPlainD (idWord x) rfl
  | .varIndexed x i, h, _ => by
    simp only [ppVarLhs]
    exact .varIndexedD (idWord x) lbkW _ rbkW rfl rfl
      (good_ppExpr i (by simpa [goodExpr] using h)) rfl
  | .num n, _, hv => by simp [Expr.as_var_expr] at hv
  | .call x a, _, hv => by simp [Expr.as_var_expr] at hv
  | .binary op l r, _, hv => by simp [Expr.as_var_expr] at hv
termination_by e h hv => (sizeOf e, 2)
decreasing_by all_goals (simp_wf; omega)

theorem good_ppAtomic : ∀ (e : Expr), goodExpr e = true →
    Derives .factor (ppAtomic e)
  | .num n, _ => by
    simp only [ppAtomic]
    exact .factorNum (numWord n) rfl
  | .varPlain x, _ => by
    simp only [ppAtomic]
    exact .factorVar _ (.varPlainD (idWord x) rfl)
  | .varIndexed x i, h => by
    simp only [ppAtomic]
    exact .factorVar _ (.varIndexedD (idWord x) lbkW _ rbkW rfl rfl
      (good_ppExpr i (by simpa [goodExpr] using h)) rfl)
  | .call x a, h => by
    simp only [ppAtomic]
    exact .factorCall _ (.callD (idWord x) lparW _ rparW rfl rfl
      (good_ppArgs a (by simpa [goodExpr] using h)) rfl)
  | .binary op l r, h => by
    simp only [ppAtomic]
    exact .factorParen lparW _ rparW rfl (good_ppBinaryExpr op l r h) rfl
termination_by e h => (sizeOf e, 1)
decreasing_by all_goals (simp_wf; omega)

theorem good_ppArgs : ∀ (a : ExprList), goodExprList a = true →
    Derives .args (ppArgs a)
  | .nil, _ => by
    rw [ppArgs]
    exact .argsNil
  | .cons e t, h => by
    have he : goodExpr e = true := by
      simp only [goodExprList, Bool.and_eq_true] at h
      exact h.1
    have ht : goodExprList t = true := by
      simp only [goodExprList, Bool.and_eq_true] at h
      exact h.2
    rw [ppArgs]
    exact .argsList _
      (good_ppArgsAcc t (ppExpr e) (.argListOne _ (good_ppExpr e he)) ht)
termination_by a h => (sizeOf a, 1)
decreasing_by all_goals (simp_wf; omega)

theorem good_ppArgsAcc : ∀ (t : ExprList) (u : List Word),
    Derives .argList u → goodExprList t = true →
    Derives .argList (u ++ ppArgsRest t)
  | .nil, u, hu, _ => by
    rw [ppArgsRest]
    simpa using hu
  | .cons e t, u, hu, h => by
    have he : goodExpr e = true := by
      simp only [goodExprList, Bool.and_eq_true] at h
      exact h.1
    have ht : goodExprList t = true := by
      simp only [goodExprList, Bool.and_eq_true] at h
      exact h.2
    rw [ppArgsRest]
    have hstep : Derives .argList (u ++ commaW :: ppExpr e) :=
      .argListCons u commaW (ppExpr e) hu rfl (good_ppExpr e he)
    have h2 := good_ppArgsAcc t (u ++ commaW :: ppExpr e) hstep ht
    simpa using h2
termination_by t u hu h => (sizeOf t, 0)
decreasing_by all_goals (simp_wf; omega)

end

/-! Effect lemmas for the parser primitives and semantic actions. -/

theorem expDiags_append (ds es : List DiagRecord) :
    expDiags (ds ++ es) = expDiags ds ++ expDiags es := by
  simp [expDiags, List.filter_append]

theorem expDiags_report (s : PState) (code : Diag) (args : List DiagParam)
    (h : isExpectedDiag code = false) :
    expDiags (s.report code args).diags = expDiags s.diags := by
  simp [PState.report, expDiags, List.filter_append, h]

theorem scopesTopOnly_refl (s : PState) : scopesTopOnly s s :=
  ⟨rfl, rfl, Iff.rfl⟩

theorem scopesTopOnly_of_eq (s s2 : PState) (h : s2.scopes = s.scopes) :
    scopesTopOnly s s2 := by
  rw [scopesTopOnly, h]
  exact ⟨rfl, rfl, Iff.rfl⟩

theorem scopesTopOnly_trans (s1 s2 s3 : PState)
    (h1 : scopesTopOnly s1 s2) (h2 : scopesTopOnly s2 s3) :
    scopesTopOnly s1 s3 :=
  ⟨h2.1.trans h1.1, h2.2.1.trans h1.2.1, h2.2.2.trans h1.2.2⟩

theorem installTop_scopes (n : String) (e : DeclEntry) (s : PState) :
    scopesTopOnly s (installTop n e s) := by
  unfold installTop scopesTopOnly
  cases h : s.scopes with
  | nil => simp [h]
  | cons fr rest => simp [h]

theorem installTop_heap (n : String) (e : DeclEntry) (s : PState) :
    (installTop n e s).funHeap = s.funHeap := rfl

theorem installTop_diags (n : String) (e : DeclEntry) (s : PState) :
    (installTop n e s).diags = s.diags := rfl

theorem heapModifiedAt_refl (idx : Nat) (s : PState) : heapModifiedAt idx s s :=
  ⟨rfl, fun _ _ => rfl, rfl, rfl, fun h => h⟩

theorem heapModifiedAt_of_eq (idx : Nat) (s s2 : PState)
    (h : s2.funHeap = s.funHeap) : heapModifiedAt idx s s2 := by
  rw [heapModifiedAt, h]
  exact ⟨rfl, fun _ _ => rfl, rfl, rfl, fun h => h⟩

theorem heapModifiedAt_trans (idx : Nat) (s1 s2 s3 : PState)
    (h1 : heapModifiedAt idx s1 s2) (h2 : heapModifiedAt idx s2 s3) :
    heapModifiedAt idx s1 s3 := by
  obtain ⟨l1, n1, nm1, r1, g1⟩ := h1
  obtain ⟨l2, n2, nm2, r2, g2⟩ := h2
  refine ⟨l2.trans l1, ?_, nm2.trans nm1, r2.trans r1, fun h => g2 (g1 h)⟩
  intro j hj
  rw [n2 j hj, n1 j hj]

theorem getD_set_ne (l : List ASTFunDecl) (i j : Nat) (a d : ASTFunDecl)
    (h : j ≠ i) : (l.set i a).getD j d = l.getD j d := by
  simp only [List.getD_eq_getElem?_getD]
  rw [List.getElem?_set_ne (by omega)]

theorem getD_set_self (l : List ASTFunDecl) (i : Nat) (a d : ASTFunDecl)
    (h : i < l.length) : (l.set i a).getD i d = a := by
  simp only [List.getD_eq_getElem?_getD]
  rw [List.getElem?_set_eq_of_lt a h]
  rfl

theorem goodParamList_append (ps : List ParmVarDecl) (p : ParmVarDecl) :
    goodParamList (ps ++ [p]) = (goodParamList ps && goodParam p) := by
  induction ps with
  | nil => simp [goodParamList]
  | cons q qs ih => simp [goodParamList, ih, Bool.and_assoc]

theorem heapModify_scopes (idx : Nat) (g : ASTFunDecl → ASTFunDecl) (s : PState) :
    (heapModify idx g s).scopes = s.scopes := rfl

theorem heapModify_diags (idx : Nat) (g : ASTFunDecl → ASTFunDecl) (s : PState) :
    (heapModify idx g s).diags = s.diags := rfl

theorem heapModify_length (idx : Nat) (g : ASTFunDecl → ASTFunDecl) (s : PState) :
    (heapModify idx g s).funHeap.length = s.funHeap.length := by
  simp [heapModify]

theorem heapModify_getD_ne (idx j : Nat) (g : ASTFunDecl → ASTFunDecl)
    (s : PState) (h : j ≠ idx) :
    (heapModify idx g s).funHeap.getD j default = s.funHeap.getD j default := by
  simp only [heapModify]
  exact getD_set_ne _ _ _ _ _ h

theorem heapModify_getD_self (idx : Nat) (g : ASTFunDecl → ASTFunDecl)
    (s : PState) (h : idx < s.funHeap.length) :
    (heapModify idx g s).funHeap.getD idx default
      = g (s.funHeap.getD idx default) := by
  simp only [heapModify]
  exact getD_set_self _ _ _ _ h

theorem add_param_heapMod (idx : Nat) (p : ParmVarDecl) (s : PState)
    (hidx : idx < s.funHeap.length) (hp : goodParam p = true) :
    heapModifiedAt idx s (add_param idx p s) := by
  unfold add_param
  have hs := heapModify_getD_self idx
    (fun fd => { fd with params := fd.params ++ [p] }) s hidx
  refine ⟨heapModify_length _ _ _, fun j hj => heapModify_getD_ne _ _ _ _ hj,
    ?_, ?_, ?_⟩
  · rw [hs]
  · rw [hs]
  · intro h
    rw [hs]
    show goodParamList ((s.funHeap.getD idx default).params ++ [p]) = true
    rw [goodParamList_append, h, hp]
    decide

theorem set_body_heapMod (idx : Nat) (c : CompoundStmt) (s : PState)
    (hidx : idx < s.funHeap.length) :
    heapModifiedAt idx s (set_body idx c s) := by
  unfold set_body
  have hs := heapModify_getD_self idx (fun fd => { fd with body := some c }) s hidx
  refine ⟨heapModify_length _ _ _, fun j hj => heapModify_getD_ne _ _ _ _ hj,
    ?_, ?_, ?_⟩
  · rw [hs]
  · rw [hs]
  · intro h
    rw [hs]
    exact h

theorem try_consume_some (cats : List Category) (s : PState) (w : Word)
    (s2 : PState) (h : try_consume cats s = (some w, s2)) :
    w = s.peek_word ∧ s2 = s.consume ∧ w.category ∈ cats := by
  unfold try_consume at h
  split at h
  next hmem =>
    simp only [Prod.mk.injEq, Option.some.injEq] at h
    obtain ⟨rfl, rfl⟩ := h
    exact ⟨rfl, rfl, hmem⟩
  next hmem => simp at h

theorem try_consume_none (cats : List Category) (s : PState) (s2 : PState)
    (h : try_consume cats s = (none, s2)) :
    s2 = s ∧ s.peek_word.category ∉ cats := by
  unfold try_consume at h
  split at h
  next hmem => simp at h
  next hmem =>
    simp only [Prod.mk.injEq] at h
    obtain ⟨-, rfl⟩ := h
    exact ⟨rfl, hmem⟩

theorem expect_some (c : Category) (s : PState) (w : Word) (s2 : PState)
    (h : expect_and_consume c s = (some w, s2)) :
    w = s.peek_word ∧ s2 = s.consume ∧ w.category = c := by
  unfold expect_and_consume at h
  split at h
  next w1 s1 heq =>
    simp only [Prod.mk.injEq, Option.some.injEq] at h
    obtain ⟨rfl, rfl⟩ := h
    obtain ⟨h1, h2, h3⟩ := try_consume_some [c] s _ _ heq
    exact ⟨h1, h2, by simpa using h3⟩
  next s1 heq => simp at h

theorem expect_none (c : Category) (s : PState) (s2 : PState)
    (h : expect_and_consume c s = (none, s2)) :
    s2 = s.report .parser_expected_token [.cat c] ∧ s.peek_word.category ≠ c := by
  unfold expect_and_consume at h
  split at h
  next w1 s1 heq => simp at h
  next s1 heq =>
    simp only [Prod.mk.injEq] at h
    obtain ⟨-, rfl⟩ := h
    obtain ⟨rfl, h2⟩ := try_consume_none [c] s _ heq
    exact ⟨rfl, by simpa using h2⟩

theorem expect_type_some (s : PState) (w : Word) (s2 : PState)
    (h : expect_and_consume_type s = (some w, s2)) :
    w = s.peek_word ∧ s2 = s.consume ∧ (w.category = .Void ∨ w.category = .Int) := by
  unfold expect_and_consume_type at h
  split at h
  next w1 s1 heq =>
    simp only [Prod.mk.injEq, Option.some.injEq] at h
    obtain ⟨rfl, rfl⟩ := h
    obtain ⟨h1, h2, h3⟩ := try_consume_some _ s _ _ heq
    refine ⟨h1, h2, ?_⟩
    simpa using h3
  next s1 heq => simp at h

theorem expect_type_none (s : PState) (s2 : PState)
    (h : expect_and_consume_type s = (none, s2)) :
    s2 = s.report .parser_expected_type [] ∧
      s.peek_word.category ≠ .Void ∧ s.peek_word.category ≠ .Int := by
  unfold expect_and_consume_type at h
  split at h
  next w1 s1 heq => simp at h
  next s1 heq =>
    simp only [Prod.mk.injEq] at h
    obtain ⟨-, rfl⟩ := h
    obtain ⟨rfl, h2⟩ := try_consume_none _ s _ heq
    refine ⟨rfl, ?_⟩
    simpa using h2

theorem consume_scopes (s : PState) : s.consume.scopes = s.scopes := rfl

theorem consume_heap (s : PState) : s.consume.funHeap = s.funHeap := rfl

theorem consume_diags (s : PState) : s.consume.diags = s.diags := rfl

theorem report_scopes (s : PState) (c : Diag) (a : List DiagParam) :
    (s.report c a).scopes = s.scopes := rfl

theorem report_heap (s : PState) (c : Diag) (a : List DiagParam) :
    (s.report c a).funHeap = s.funHeap := rfl

theorem act_on_var_parts (id : Word) (index : Option Expr) (s : PState) :
    (act_on_var id index s).2.scopes = s.scopes ∧
    (act_on_var id index s).2.funHeap = s.funHeap ∧
    expDiags (act_on_var id index s).2.diags = expDiags s.diags ∧
    (act_on_var id index s).1 =
      (match index with
       | none => .varPlain id.lexeme
       | some e => .varIndexed id.lexeme e) := by
  unfold act_on_var
  rcases h : lookupScopes id.lexeme s.scopes with - | e
  · simp [report_scopes, report_heap, expDiags_report, isExpectedDiag]
  · cases e <;>
      simp [report_scopes, report_heap, expDiags_report, isExpectedDiag]

theorem act_on_call_parts (id : Word) (args : ExprList) (s : PState) :
    (act_on_call id args s).2.scopes = s.scopes ∧
    (act_on_call id args s).2.funHeap = s.funHeap ∧
    expDiags (act_on_call id args s).2.diags = expDiags s.diags ∧
    (act_on_call id args s).1 = .call id.lexeme args := by
  unfold act_on_call
  rcases h : lookupScopes id.lexeme s.scopes with - | e
  · simp [report_scopes, report_heap, expDiags_report, isExpectedDiag]
  · cases e <;>
      simp [report_scopes, report_heap, expDiags_report, isExpectedDiag]

theorem act_on_number_parts (w : Word) (s : PState) :
    (act_on_number w s).2.scopes = s.scopes ∧
    (act_on_number w s).2.funHeap = s.funHeap ∧
    expDiags (act_on_number w s).2.diags = expDiags s.diags ∧
    ∃ n, (act_on_number w s).1 = .num n := by
  simp only [act_on_number]
  split <;> simp [report_scopes, report_heap, expDiags_report, isExpectedDiag]

theorem goodVarDecl_typeOf (t : Word) (n : String) (a : Option Nat) :
    goodVarDecl ⟨typeOf t, n, a⟩ = true := by
  unfold goodVarDecl typeOf
  split <;> rfl

theorem goodParam_typeOf (t : Word) (n : String) (b : Bool) :
    goodParam ⟨typeOf t, n, b⟩ = true := by
  unfold goodParam typeOf
  split <;> rfl

theorem act_on_var_decl_parts (t id : Word) (num : Option Expr) (s : PState) :
    scopesTopOnly s (act_on_var_decl t id num s).2 ∧
    (act_on_var_decl t id num s).2.funHeap = s.funHeap ∧
    expDiags (act_on_var_decl t id num s).2.diags = expDiags s.diags ∧
    (act_on_var_decl t id num s).1 = some ⟨typeOf t, id.lexeme, num.map numValue⟩ := by
  simp only [act_on_var_decl]
  generalize hgen : (if typeOf t = ExprType.void
      then s.report Diag.sema_var_cannot_be_void [] else s) = s1
  have hsc : s1.scopes = s.scopes := by rw [← hgen]; split <;> rfl
  have hh : s1.funHeap = s.funHeap := by rw [← hgen]; split <;> rfl
  have hd : expDiags s1.diags = expDiags s.diags := by
    rw [← hgen]
    split
    · exact expDiags_report s _ _ (by rfl)
    · rfl
  rcases h : lookupTop s1 id.lexeme with - | e <;> simp only [h]
  · refine ⟨?_, by rw [installTop_heap, hh], ?_, by simp⟩
    · exact scopesTopOnly_trans _ _ _ (scopesTopOnly_of_eq _ _ hsc)
        (installTop_scopes _ _ _)
    · rw [installTop_diags]
      exact hd
  · refine ⟨?_, by rw [report_heap, hh], ?_, by simp⟩
    · exact scopesTopOnly_of_eq _ _ (by rw [report_scopes, hsc])
    · rw [expDiags_report _ _ _ (by rfl)]
      exact hd

theorem act_on_param_decl_parts (t id : Word) (b : Bool) (s : PState) :
    scopesTopOnly s (act_on_param_decl t id b s).2 ∧
    (act_on_param_decl t id b s).2.funHeap = s.funHeap ∧
    expDiags (act_on_param_decl t id b s).2.diags = expDiags s.diags ∧
    (act_on_param_decl t id b s).1 = some ⟨typeOf t, id.lexeme, b⟩ := by
  simp only [act_on_param_decl]
  generalize hgen : (if typeOf t = ExprType.void
      then s.report Diag.sema_var_cannot_be_void [] else s) = s1
  have hsc : s1.scopes = s.scopes := by rw [← hgen]; split <;> rfl
  have hh : s1.funHeap = s.funHeap := by rw [← hgen]; split <;> rfl
  have hd : expDiags s1.diags = expDiags s.diags := by
    rw [← hgen]
    split
    · exact expDiags_report s _ _ (by rfl)
    · rfl
  rcases h : lookupTop s1 id.lexeme with - | e <;> simp only [h]
  · refine ⟨?_, by rw [installTop_heap, hh], ?_, by simp⟩
    · exact scopesTopOnly_trans _ _ _ (scopesTopOnly_of_eq _ _ hsc)
        (installTop_scopes _ _ _)
    · rw [installTop_diags]
      exact hd
  · refine ⟨?_, by rw [report_heap, hh], ?_, by simp⟩
    · exact scopesTopOnly_of_eq _ _ (by rw [report_scopes, hsc])
    · rw [expDiags_report _ _ _ (by rfl)]
      exact hd

theorem act_on_fun_decl_start_parts (retn id : Word) (s : PState) :
    (act_on_fun_decl_start retn id s).1 = s.funHeap.length ∧
    scopesTopOnly s (act_on_fun_decl_start retn id s).2 ∧
    (act_on_fun_decl_start retn id s).2.funHeap
      = s.funHeap ++ [⟨typeOf retn, id.lexeme, [], none⟩] ∧
    (act_on_fun_decl_start retn id s).2.diags = s.diags := by
  unfold act_on_fun_decl_start
  refine ⟨rfl, ?_, rfl, rfl⟩
  have h1 : scopesTopOnly s
      ({ s with funHeap := s.funHeap ++ [⟨typeOf retn, id.lexeme, [], none⟩] } : PState) :=
    scopesTopOnly_of_eq _ _ rfl
  exact scopesTopOnly_trans _ _ _ h1 (installTop_scopes _ _ _)


/-! Invariants of the expression-family parser functions: scopes and heap
untouched, results well-formed, and no expected-something diagnostics on
success. -/

theorem exprOut_none (s s2 : PState) (hsc : s2.scopes = s.scopes)
    (hh : s2.funHeap = s.funHeap) : exprOut s (none, s2) :=
  ⟨hsc, hh, fun _ h => nomatch h⟩

theorem exprOut_some (s s2 : PState) (e : Expr) (hsc : s2.scopes = s.scopes)
    (hh : s2.funHeap = s.funHeap) (hg : goodExpr e = true)
    (hd : expDiags s2.diags = expDiags s.diags) : exprOut s (some e, s2) := by
  refine ⟨hsc, hh, fun e2 h => ?_⟩
  cases h
  exact ⟨hg, hd⟩

theorem as_var_expr_eq (e v : Expr) (h : e.as_var_expr = some v) : v = e := by
  cases e <;> simp [Expr.as_var_expr] at h <;> exact h.symm

theorem relop_of_mem (c : Category)
    (h : c ∈ [Category.LessEqual, Category.Less, Category.Greater,
      Category.GreaterEqual, Category.Equal, Category.NotEqual]) :
    isRelop c = true := by
  simp at h
  rcases h with rfl | rfl | rfl | rfl | rfl | rfl <;> rfl

theorem addop_of_mem (c : Category) (h : c ∈ [Category.Plus, Category.Minus]) :
    isAddop c = true := by
  simp at h
  rcases h with rfl | rfl <;> rfl

theorem mulop_of_mem (c : Category)
    (h : c ∈ [Category.Multiply, Category.Divide]) : isMulop c = true := by
  simp at h
  rcases h with rfl | rfl <;> rfl

theorem goodExpr_assign (l r : Expr) (hl : goodExpr l = true)
    (hv : l.as_var_expr.isSome = true) (hr : goodExpr r = true) :
    goodExpr (.binary .Assign l r) = true := by
  simp [goodExpr, isRelop, isAddop, isMulop, hl, hv, hr]

theorem goodExpr_binary_op (op : Category) (l r : Expr)
    (hop : isRelop op = true ∨ isAddop op = true ∨ isMulop op = true)
    (hl : goodExpr l = true) (hr : goodExpr r = true) :
    goodExpr (.binary op l r) = true := by
  rcases hop with h | h | h <;> simp [goodExpr, h, hl, hr]

theorem goodExprList_push : ∀ (a : ExprList) (e : Expr),
    goodExprList a = true → goodExpr e = true → goodExprList (a.push e) = true
  | .nil, e, _, he => by simp [ExprList.push, goodExprList, he]
  | .cons h t, e, ha, he => by
    simp only [ExprList.push, goodExprList, Bool.and_eq_true] at ha ⊢
    exact ⟨ha.1, goodExprList_push t e ha.2 he⟩

theorem inv_parse_number (s : PState) : exprOut s (parse_number s) := by
  unfold parse_number
  split
  next w s2 heq =>
    obtain ⟨-, rfl, -⟩ := expect_some _ _ _ _ heq
    obtain ⟨h1, h2, h3, n, h4⟩ := act_on_number_parts w s.consume
    rcases hres : act_on_number w s.consume with ⟨node, s3⟩
    simp only [hres] at h1 h2 h3 h4
    simp only [hres]
    rw [h4]
    exact exprOut_some _ _ _ (by rw [h1, consume_scopes])
      (by rw [h2, consume_heap]) (by simp [goodExpr])
      (by rw [h3, consume_diags])
  next s2 heq =>
    obtain ⟨rfl, -⟩ := expect_none _ _ _ heq
    exact exprOut_none _ _ (report_scopes ..) (report_heap ..)

mutual

theorem inv_parse_expression : ∀ (f : Nat) (s : PState),
    exprOut s (parse_expression f s)
  | 0, s => by
    simp only [parse_expression]
    exact exprOut_none s s rfl rfl
  | f+1, s => by
    simp only [parse_expression]
    split
    next s1 heq =>
      have ih := inv_parse_simple_expression f s
      rw [heq] at ih
      exact ih
    next expr1 s1 heq =>
      have ih := inv_parse_simple_expression f s
      rw [heq] at ih
      obtain ⟨hsc1, hh1, hgood1⟩ := ih
      obtain ⟨hg1, hd1⟩ := hgood1 expr1 rfl
      split
      next lvalue hv =>
        have hlv : lvalue = expr1 := as_var_expr_eq expr1 lvalue hv
        split
        next op s2 htc =>
          obtain ⟨-, rfl, -⟩ := try_consume_some _ _ _ _ htc
          split
          next e2 s3 hpe =>
            have ih2 := inv_parse_expression f s1.consume
            rw [hpe] at ih2
            obtain ⟨hsc3, hh3, hgood3⟩ := ih2
            obtain ⟨hg2, hd2⟩ := hgood3 e2 rfl
            refine exprOut_some _ _ _ ?_ ?_ ?_ ?_
            · rw [hsc3, consume_scopes, hsc1]
            · rw [hh3, consume_heap, hh1]
            · refine goodExpr_assign lvalue e2 (by rw [hlv]; exact hg1) ?_ hg2
              rw [hlv, hv]
              rfl
            · rw [hd2, consume_diags, hd1]
          next s3 hpe =>
            have ih2 := inv_parse_expression f s1.consume
            rw [hpe] at ih2
            exact exprOut_none _ _ (by rw [ih2.1, consume_scopes, hsc1])
              (by rw [ih2.2.1, consume_heap, hh1])
        next s2 htc =>
          obtain ⟨rfl, -⟩ := try_consume_none _ _ _ htc
          exact exprOut_some _ _ _ hsc1 hh1 hg1 hd1
      next hv =>
        exact exprOut_some _ _ _ hsc1 hh1 hg1 hd1

theorem inv_parse_simple_expression : ∀ (f : Nat) (s : PState),
    exprOut s (parse_simple_expression f s)
  | 0, s => by
    simp only [parse_simple_expression]
    exact exprOut_none s s rfl rfl
  | f+1, s => by
    simp only [parse_simple_expression]
    split
    next s1 heq =>
      have ih := inv_parse_additive_expression f s
      rw [heq] at ih
      exact ih
    next expr1 s1 heq =>
      have ih := inv_parse_additive_expression f s
      rw [heq] at ih
      obtain ⟨hsc1, hh1, hgood1⟩ := ih
      obtain ⟨hg1, hd1⟩ := hgood1 expr1 rfl
      split
      next op s2 htc =>
        obtain ⟨hw, rfl, hmem⟩ := try_consume_some _ _ _ _ htc
        split
        next e2 s3 hpe =>
          have ih2 := inv_parse_additive_expression f s1.consume
          rw [hpe] at ih2
          obtain ⟨hsc3, hh3, hgood3⟩ := ih2
          obtain ⟨hg2, hd2⟩ := hgood3 e2 rfl
          refine exprOut_some _ _ _ ?_ ?_ ?_ ?_
          · rw [hsc3, consume_scopes, hsc1]
          · rw [hh3, consume_heap, hh1]
          · exact goodExpr_binary_op _ _ _ (Or.inl (relop_of_mem _ hmem)) hg1 hg2
          · rw [hd2, consume_diags, hd1]
        next s3 hpe =>
          have ih2 := inv_parse_additive_expression f s1.consume
          rw [hpe] at ih2
          exact exprOut_none _ _ (by rw [ih2.1, consume_scopes, hsc1])
            (by rw [ih2.2.1, consume_heap, hh1])
      next s2 htc =>
        obtain ⟨rfl, -⟩ := try_consume_none _ _ _ htc
        exact exprOut_some _ _ _ hsc1 hh1 hg1 hd1

theorem inv_parse_additive_expression : ∀ (f : Nat) (s : PState),
    exprOut s (parse_additive_expression f s)
  | 0, s => by
    simp only [parse_additive_expression]
    exact exprOut_none s s rfl rfl
  | f+1, s => by
    simp only [parse_additive_expression]
    split
    next s1 heq =>
      have ih := inv_parse_term f s
      rw [heq] at ih
      exact ih
    next expr1 s1 heq =>
      have ih := inv_parse_term f s
      rw [heq] at ih
      obtain ⟨hsc1, hh1, hgood1⟩ := ih
      obtain ⟨hg1, hd1⟩ := hgood1 expr1 rfl
      have ihl := inv_parse_additive_loop f expr1 s1 hg1
      exact ⟨ihl.1.trans hsc1, ihl.2.1.trans hh1, fun e2 h =>
        ⟨(ihl.2.2 e2 h).1, ((ihl.2.2 e2 h).2).trans hd1⟩⟩

theorem inv_parse_additive_loop : ∀ (f : Nat) (e1 : Expr) (s : PState),
    goodExpr e1 = true → exprOut s (parse_additive_loop f e1 s)
  | 0, e1, s, _ => by
    simp only [parse_additive_loop]
    exact exprOut_none s s rfl rfl
  | f+1, e1, s, hg1 => by
    simp only [parse_additive_loop]
    split
    next op s1 htc =>
      obtain ⟨hw, rfl, hmem⟩ := try_consume_some _ _ _ _ htc
      split
      next e2 s2 hpe =>
        have ih := inv_parse_term f s.consume
        rw [hpe] at ih
        obtain ⟨hsc2, hh2, hgood2⟩ := ih
        obtain ⟨hg2, hd2⟩ := hgood2 e2 rfl
        have hgb : goodExpr (act_on_binary_expr e1 e2 op) = true :=
          goodExpr_binary_op _ _ _ (Or.inr (Or.inl (addop_of_mem _ hmem))) hg1 hg2
        have ihl := inv_parse_additive_loop f (act_on_binary_expr e1 e2 op) s2 hgb
        refine ⟨?_, ?_, fun e3 h => ⟨(ihl.2.2 e3 h).1, ?_⟩⟩
        · rw [ihl.1, hsc2, consume_scopes]
        · rw [ihl.2.1, hh2, consume_heap]
        · rw [(ihl.2.2 e3 h).2, hd2, consume_diags]
      next s2 hpe =>
        have ih := inv_parse_term f s.consume
        rw [hpe] at ih
        exact exprOut_none _ _ (by rw [ih.1, consume_scopes])
          (by rw [ih.2.1, consume_heap])
    next s1 htc =>
      obtain ⟨rfl, -⟩ := try_consume_none _ _ _ htc
      exact exprOut_some _ _ _ rfl rfl hg1 rfl

theorem inv_parse_term : ∀ (f : Nat) (s : PState), exprOut s (parse_term f s)
  | 0, s => by
    simp only [parse_term]
    exact exprOut_none s s rfl rfl
  | f+1, s => by
    simp only [parse_term]
    split
    next s1 heq =>
      have ih := inv_parse_factor f s
      rw [heq] at ih
      exact ih
    next expr1 s1 heq =>
      have ih := inv_parse_factor f s
      rw [heq] at ih
      obtain ⟨hsc1, hh1, hgood1⟩ := ih
      obtain ⟨hg1, hd1⟩ := hgood1 expr1 rfl
      have ihl := inv_parse_term_loop f expr1 s1 hg1
      exact ⟨ihl.1.trans hsc1, ihl.2.1.trans hh1, fun e2 h =>
        ⟨(ihl.2.2 e2 h).1, ((ihl.2.2 e2 h).2).trans hd1⟩⟩

theorem inv_parse_term_loop : ∀ (f : Nat) (e1 : Expr) (s : PState),
    goodExpr e1 = true → exprOut s (parse_term_loop f e1 s)
  | 0, e1, s, _ => by
    simp only [parse_term_loop]
    exact exprOut_none s s rfl rfl
  | f+1, e1, s, hg1 => by
    simp only [parse_term_loop]
    split
    next op s1 htc =>
      obtain ⟨hw, rfl, hmem⟩ := try_consume_some _ _ _ _ htc
      split
      next e2 s2 hpe =>
        have ih := inv_parse_factor f s.consume
        rw [hpe] at ih
        obtain ⟨hsc2, hh2, hgood2⟩ := ih
        obtain ⟨hg2, hd2⟩ := hgood2 e2 rfl
        have hgb : goodExpr (act_on_binary_expr e1 e2 op) = true :=
          goodExpr_binary_op _ _ _ (Or.inr (Or.inr (mulop_of_mem _ hmem))) hg1 hg2
        have ihl := inv_parse_term_loop f (act_on_binary_expr e1 e2 op) s2 hgb
        refine ⟨?_, ?_, fun e3 h => ⟨(ihl.2.2 e3 h).1, ?_⟩⟩
        · rw [ihl.1, hsc2, consume_scopes]
        · rw [ihl.2.1, hh2, consume_heap]
        · rw [(ihl.2.2 e3 h).2, hd2, consume_diags]
      next s2 hpe =>
        have ih := inv_parse_factor f s.consume
        rw [hpe] at ih
        exact exprOut_none _ _ (by rw [ih.1, consume_scopes])
          (by rw [ih.2.1, consume_heap])
    next s1 htc =>
      obtain ⟨rfl, -⟩ := try_consume_none _ _ _ htc
      exact exprOut_some _ _ _ rfl rfl hg1 rfl

theorem inv_parse_factor : ∀ (f : Nat) (s : PState), exprOut s (parse_factor f s)
  | 0, s => by
    simp only [parse_factor]
    exact exprOut_none s s rfl rfl
  | f+1, s => by
    simp only [parse_factor]
    split
    · exact inv_parse_number s
    · split
      next s1 heq =>
        have ih := inv_parse_expression f s.consume
        rw [heq] at ih
        exact exprOut_none _ _ (by rw [ih.1, consume_scopes])
          (by rw [ih.2.1, consume_heap])
      next expr1 s1 heq =>
        have ih := inv_parse_expression f s.consume
        rw [heq] at ih
        obtain ⟨hsc1, hh1, hgood1⟩ := ih
        obtain ⟨hg1, hd1⟩ := hgood1 expr1 rfl
        split
        next s2 heq2 =>
          obtain ⟨rfl, -⟩ := expect_none _ _ _ heq2
          exact exprOut_none _ _
            (by rw [report_scopes, hsc1, consume_scopes])
            (by rw [report_heap, hh1, consume_heap])
        next w2 s2 heq2 =>
          obtain ⟨-, rfl, -⟩ := expect_some _ _ _ _ heq2
          exact exprOut_some _ _ _
            (by rw [consume_scopes, hsc1, consume_scopes])
            (by rw [consume_heap, hh1, consume_heap]) hg1
            (by rw [consume_diags, hd1, consume_diags])
    · split
      · exact inv_parse_call f s
      · exact inv_parse_var f s
    · exact exprOut_none _ _ (report_scopes ..) (report_heap ..)

theorem inv_parse_var : ∀ (f : Nat) (s : PState), exprOut s (parse_var f s)
  | 0, s => by
    simp only [parse_var]
    exact exprOut_none s s rfl rfl
  | f+1, s => by
    simp only [parse_var]
    split
    next s1 heq =>
      obtain ⟨rfl, -⟩ := expect_none _ _ _ heq
      exact exprOut_none _ _ (report_scopes ..) (report_heap ..)
    next id s1 heq =>
      obtain ⟨-, rfl, -⟩ := expect_some _ _ _ _ heq
      split
      · split
        next s2 hpe =>
          have ih := inv_parse_expression f s.consume.consume
          rw [hpe] at ih
          exact exprOut_none _ _ (by rw [ih.1, consume_scopes, consume_scopes])
            (by rw [ih.2.1, consume_heap, consume_heap])
        next index s2 hpe =>
          have ih := inv_parse_expression f s.consume.consume
          rw [hpe] at ih
          obtain ⟨hsc2, hh2, hgood2⟩ := ih
          obtain ⟨hg2, hd2⟩ := hgood2 index rfl
          split
          next s3 heq3 =>
            obtain ⟨rfl, -⟩ := expect_none _ _ _ heq3
            exact exprOut_none _ _
              (by rw [report_scopes, hsc2, consume_scopes, consume_scopes])
              (by rw [report_heap, hh2, consume_heap, consume_heap])
          next w3 s3 heq3 =>
            obtain ⟨-, rfl, -⟩ := expect_some _ _ _ _ heq3
            obtain ⟨ha1, ha2, ha3, ha4⟩ := act_on_var_parts id (some index) s2.consume
            rcases hres : act_on_var id (some index) s2.consume with ⟨node, s4⟩
            simp only [hres] at ha1 ha2 ha3 ha4
            simp only [hres]
            rw [ha4]
            refine exprOut_some _ _ _ ?_ ?_ ?_ ?_
            · rw [ha1, consume_scopes, hsc2, consume_scopes, consume_scopes]
            · rw [ha2, consume_heap, hh2, consume_heap, consume_heap]
            · simpa [goodExpr] using hg2
            · rw [ha3, consume_diags, hd2, consume_diags, consume_diags]
      · obtain ⟨ha1, ha2, ha3, ha4⟩ := act_on_var_parts id none s.consume
        rcases hres : act_on_var id none s.consume with ⟨node, s4⟩
        simp only [hres] at ha1 ha2 ha3 ha4
        simp only [hres]
        rw [ha4]
        refine exprOut_some _ _ _ ?_ ?_ ?_ ?_
        · rw [ha1, consume_scopes]
        · rw [ha2, consume_heap]
        · simp [goodExpr]
        · rw [ha3, consume_diags]

theorem inv_parse_call : ∀ (f : Nat) (s : PState), exprOut s (parse_call f s)
  | 0, s => by
    simp only [parse_call]
    exact exprOut_none s s rfl rfl
  | f+1, s => by
    simp only [parse_call]
    split
    next s1 heq =>
      obtain ⟨rfl, -⟩ := expect_none _ _ _ heq
      exact exprOut_none _ _ (report_scopes ..) (report_heap ..)
    next id s1 heq =>
      obtain ⟨-, rfl, -⟩ := expect_some _ _ _ _ heq
      split
      next s2 heq2 =>
        obtain ⟨rfl, -⟩ := expect_none _ _ _ heq2
        exact exprOut_none _ _ (by rw [report_scopes, consume_scopes])
          (by rw [report_heap, consume_heap])
      next w2 s2 heq2 =>
        obtain ⟨-, rfl, -⟩ := expect_some _ _ _ _ heq2
        split
        · split
          next s3 hpe =>
            have ih := inv_parse_expression f s.consume.consume
            rw [hpe] at ih
            exact exprOut_none _ _
              (by rw [ih.1, consume_scopes, consume_scopes])
              (by rw [ih.2.1, consume_heap, consume_heap])
          next e1 s3 hpe =>
            have ih := inv_parse_expression f s.consume.consume
            rw [hpe] at ih
            obtain ⟨hsc3, hh3, hgood3⟩ := ih
            obtain ⟨hg1, hd1⟩ := hgood3 e1 rfl
            have ihl := inv_parse_args_loop f id (.cons e1 .nil) s3
              (by simp [goodExprList, hg1])
            refine ⟨?_, ?_, fun e3 h => ⟨(ihl.2.2 e3 h).1, ?_⟩⟩
            · rw [ihl.1, hsc3, consume_scopes, consume_scopes]
            · rw [ihl.2.1, hh3, consume_heap, consume_heap]
            · rw [(ihl.2.2 e3 h).2, hd1, consume_diags, consume_diags]
        · have ihl := inv_parse_args_loop f id .nil s.consume.consume
            (by simp [goodExprList])
          refine ⟨?_, ?_, fun e3 h => ⟨(ihl.2.2 e3 h).1, ?_⟩⟩
          · rw [ihl.1, consume_scopes, consume_scopes]
          · rw [ihl.2.1, consume_heap, consume_heap]
          · rw [(ihl.2.2 e3 h).2, consume_diags, consume_diags]

theorem inv_parse_args_loop : ∀ (f : Nat) (id : Word) (args : ExprList)
    (s : PState), goodExprList args = true →
    exprOut s (parse_args_loop f id args s)
  | 0, id, args, s, _ => by
    simp only [parse_args_loop]
    exact exprOut_none s s rfl rfl
  | f+1, id, args, s, hga => by
    simp only [parse_args_loop]
    split
    · split
      next s1 heq =>
        obtain ⟨rfl, -⟩ := expect_none _ _ _ heq
        exact exprOut_none _ _ (report_scopes ..) (report_heap ..)
      next w1 s1 heq =>
        obtain ⟨-, rfl, -⟩ := expect_some _ _ _ _ heq
        split
        next s2 hpe =>
          have ih := inv_parse_expression f s.consume
          rw [hpe] at ih
          exact exprOut_none _ _ (by rw [ih.1, consume_scopes])
            (by rw [ih.2.1, consume_heap])
        next e1 s2 hpe =>
          have ih := inv_parse_expression f s.consume
          rw [hpe] at ih
          obtain ⟨hsc2, hh2, hgood2⟩ := ih
          obtain ⟨hg1, hd1⟩ := hgood2 e1 rfl
          have ihl := inv_parse_args_loop f id (args.push e1) s2
            (goodExprList_push args e1 hga hg1)
          refine ⟨?_, ?_, fun e3 h => ⟨(ihl.2.2 e3 h).1, ?_⟩⟩
          · rw [ihl.1, hsc2, consume_scopes]
          · rw [ihl.2.1, hh2, consume_heap]
          · rw [(ihl.2.2 e3 h).2, hd1, consume_diags]
    · split
      next s1 heq =>
        obtain ⟨rfl, -⟩ := expect_none _ _ _ heq
        exact exprOut_none _ _ (report_scopes ..) (report_heap ..)
      next w1 s1 heq =>
        obtain ⟨-, rfl, -⟩ := expect_some _ _ _ _ heq
        obtain ⟨ha1, ha2, ha3, ha4⟩ := act_on_call_parts id args s.consume
        rcases hres : act_on_call id args s.consume with ⟨node, s4⟩
        simp only [hres] at ha1 ha2 ha3 ha4
        simp only [hres]
        rw [ha4]
        refine exprOut_some _ _ _ ?_ ?_ ?_ ?_
        · rw [ha1, consume_scopes]
        · rw [ha2, consume_heap]
        · simpa [goodExpr] using hga
        · rw [ha3, consume_diags]

end


/-! Invariants of the declaration- and statement-family parser functions. -/

theorem goodDeclList_append (ds : List Decl) (d : Decl)
    (h1 : goodDeclList ds = true) (h2 : goodDecl d = true) :
    goodDeclList (ds ++ [d]) = true := by
  induction ds with
  | nil => simp [goodDeclList, h2]
  | cons e es ih =>
    simp only [goodDeclList, Bool.and_eq_true] at h1 ⊢
    exact ⟨h1.1, ih h1.2⟩

theorem goodVarDeclList_append (vs : List VarDecl) (v : VarDecl)
    (h1 : goodVarDeclList vs = true) (h2 : goodVarDecl v = true) :
    goodVarDeclList (vs ++ [v]) = true := by
  induction vs with
  | nil => simp [goodVarDeclList, h2]
  | cons e es ih =>
    simp only [goodVarDeclList, Bool.and_eq_true] at h1 ⊢
    exact ⟨h1.1, ih h1.2⟩

theorem goodStmtList_push : ∀ (l : StmtList) (st : Stmt),
    goodStmtList l = true → goodStmt st = true → goodStmtList (l.push st) = true
  | .nil, st, _, hs => by simp [StmtList.push, goodStmtList, hs]
  | .cons h t, st, hl, hs => by
    simp only [StmtList.push, goodStmtList, Bool.and_eq_true] at hl ⊢
    exact ⟨hl.1, goodStmtList_push t st hl.2 hs⟩

theorem getD_append_self (l : List ASTFunDecl) (a d : ASTFunDecl) :
    (l ++ [a]).getD l.length d = a := by
  simp [List.getD_eq_getElem?_getD, List.getElem?_append_right]

theorem varDeclOut_none (s s2 : PState) (hto : scopesTopOnly s s2)
    (hh : s2.funHeap = s.funHeap) : varDeclOut s (none, s2) :=
  ⟨hto, hh, fun _ h => nomatch h⟩

theorem stmtOut_none (s s2 : PState) (hsc : s2.scopes = s.scopes)
    (hh : s2.funHeap = s.funHeap) : stmtOut s (none, s2) :=
  ⟨hsc, hh, fun _ h => nomatch h⟩

theorem stmtOut_some (s s2 : PState) (st : Stmt) (hsc : s2.scopes = s.scopes)
    (hh : s2.funHeap = s.funHeap) (hg : goodStmt st = true)
    (hd : expDiags s2.diags = expDiags s.diags) : stmtOut s (some st, s2) := by
  refine ⟨hsc, hh, fun st2 h => ?_⟩
  cases h
  exact ⟨hg, hd⟩

theorem compoundOut_none (s s2 : PState) (hsc : s2.scopes = s.scopes)
    (hh : s2.funHeap = s.funHeap) : compoundOut s (none, s2) :=
  ⟨hsc, hh, fun _ h => nomatch h⟩

theorem inv_parse_var_declaration (s : PState) :
    varDeclOut s (parse_var_declaration s) := by
  simp only [parse_var_declaration]
  split
  next s1 heq =>
    obtain ⟨rfl, -⟩ := expect_type_none _ _ heq
    exact varDeclOut_none _ _ (scopesTopOnly_of_eq _ _ (report_scopes ..))
      (report_heap ..)
  next t s1 heq =>
    obtain ⟨-, rfl, -⟩ := expect_type_some _ _ _ heq
    split
    next s2 heq2 =>
      obtain ⟨rfl, -⟩ := expect_none _ _ _ heq2
      exact varDeclOut_none _ _
        (scopesTopOnly_of_eq _ _ (by rw [report_scopes, consume_scopes]))
        (by rw [report_heap, consume_heap])
    next id s2 heq2 =>
      obtain ⟨-, rfl, -⟩ := expect_some _ _ _ _ heq2
      split
      · -- array form
        split
        next s3 hn =>
          have ih := inv_parse_number s.consume.consume.consume
          rw [hn] at ih
          exact varDeclOut_none _ _
            (scopesTopOnly_of_eq _ _
              (by rw [ih.1, consume_scopes, consume_scopes, consume_scopes]))
            (by rw [ih.2.1, consume_heap, consume_heap, consume_heap])
        next num s3 hn =>
          have ih := inv_parse_number s.consume.consume.consume
          rw [hn] at ih
          obtain ⟨hsc3, hh3, hgood3⟩ := ih
          obtain ⟨-, hd3⟩ := hgood3 num rfl
          split
          next s4 heq4 =>
            obtain ⟨rfl, -⟩ := expect_none _ _ _ heq4
            exact varDeclOut_none _ _
              (scopesTopOnly_of_eq _ _
                (by rw [report_scopes, hsc3, consume_scopes, consume_scopes,
                  consume_scopes]))
              (by rw [report_heap, hh3, consume_heap, consume_heap, consume_heap])
          next w4 s4 heq4 =>
            obtain ⟨-, rfl, -⟩ := expect_some _ _ _ _ heq4
            split
            next s5 heq5 =>
              obtain ⟨rfl, -⟩ := expect_none _ _ _ heq5
              exact varDeclOut_none _ _
                (scopesTopOnly_of_eq _ _
                  (by rw [report_scopes, consume_scopes, hsc3, consume_scopes,
                    consume_scopes, consume_scopes]))
                (by rw [report_heap, consume_heap, hh3, consume_heap,
                  consume_heap, consume_heap])
            next w5 s5 heq5 =>
              obtain ⟨-, rfl, -⟩ := expect_some _ _ _ _ heq5
              obtain ⟨ha1, ha2, ha3, ha4⟩ :=
                act_on_var_decl_parts t id (some num) s3.consume.consume
              rcases hres : act_on_var_decl t id (some num) s3.consume.consume
                with ⟨r9, s9⟩
              simp only [hres] at ha1 ha2 ha3 ha4
              subst ha4
              refine ⟨?_, ?_, fun v h => ?_⟩
              · refine scopesTopOnly_trans _ _ _ ?_ ha1
                exact scopesTopOnly_of_eq _ _
                  (by rw [consume_scopes, consume_scopes, hsc3, consume_scopes,
                    consume_scopes, consume_scopes])
              · rw [ha2, consume_heap, consume_heap, hh3, consume_heap,
                  consume_heap, consume_heap]
              · cases h
                refine ⟨goodVarDecl_typeOf t id.lexeme _, ?_⟩
                rw [ha3, consume_diags, consume_diags, hd3, consume_diags,
                  consume_diags, consume_diags]
      · -- scalar form
        split
        next s3 heq3 =>
          obtain ⟨rfl, -⟩ := expect_none _ _ _ heq3
          exact varDeclOut_none _ _
            (scopesTopOnly_of_eq _ _
              (by rw [report_scopes, consume_scopes, consume_scopes]))
            (by rw [report_heap, consume_heap, consume_heap])
        next w3 s3 heq3 =>
          obtain ⟨-, rfl, -⟩ := expect_some _ _ _ _ heq3
          obtain ⟨ha1, ha2, ha3, ha4⟩ :=
            act_on_var_decl_parts t id none s.consume.consume.consume
          rcases hres : act_on_var_decl t id none s.consume.consume.consume
            with ⟨r9, s9⟩
          simp only [hres] at ha1 ha2 ha3 ha4
          subst ha4
          refine ⟨?_, ?_, fun v h => ?_⟩
          · refine scopesTopOnly_trans _ _ _ ?_ ha1
            exact scopesTopOnly_of_eq _ _
              (by rw [consume_scopes, consume_scopes, consume_scopes])
          · rw [ha2, consume_heap, consume_heap, consume_heap]
          · cases h
            refine ⟨goodVarDecl_typeOf t id.lexeme _, ?_⟩
            rw [ha3, consume_diags, consume_diags, consume_diags]

theorem inv_parse_param (s : PState) : paramOut s (parse_param s) := by
  simp only [parse_param]
  split
  next s1 heq =>
    obtain ⟨rfl, -⟩ := expect_type_none _ _ heq
    exact ⟨scopesTopOnly_of_eq _ _ (report_scopes ..), report_heap ..,
      fun _ h => nomatch h⟩
  next t s1 heq =>
    obtain ⟨-, rfl, -⟩ := expect_type_some _ _ _ heq
    split
    next s2 heq2 =>
      obtain ⟨rfl, -⟩ := expect_none _ _ _ heq2
      exact ⟨scopesTopOnly_of_eq _ _
        (by rw [report_scopes, consume_scopes]),
        by rw [report_heap, consume_heap], fun _ h => nomatch h⟩
    next id s2 heq2 =>
      obtain ⟨-, rfl, -⟩ := expect_some _ _ _ _ heq2
      split
      next w2 s3 htc =>
        obtain ⟨-, rfl, -⟩ := try_consume_some _ _ _ _ htc
        split
        next s4 heq4 =>
          obtain ⟨rfl, -⟩ := expect_none _ _ _ heq4
          exact ⟨scopesTopOnly_of_eq _ _
            (by rw [report_scopes, consume_scopes, consume_scopes, consume_scopes]),
            by rw [report_heap, consume_heap, consume_heap, consume_heap],
            fun _ h => nomatch h⟩
        next w4 s4 heq4 =>
          obtain ⟨-, rfl, -⟩ := expect_some _ _ _ _ heq4
          obtain ⟨ha1, ha2, ha3, ha4⟩ :=
            act_on_param_decl_parts t id true s.consume.consume.consume.consume
          rcases hres : act_on_param_decl t id true s.consume.consume.consume.consume
            with ⟨r9, s9⟩
          simp only [hres] at ha1 ha2 ha3 ha4
          subst ha4
          refine ⟨?_, ?_, fun p h => ?_⟩
          · refine scopesTopOnly_trans _ _ _ ?_ ha1
            exact scopesTopOnly_of_eq _ _
              (by rw [consume_scopes, consume_scopes, consume_scopes, consume_scopes])
          · rw [ha2, consume_heap, consume_heap, consume_heap, consume_heap]
          · cases h
            refine ⟨goodParam_typeOf t id.lexeme _, ?_⟩
            rw [ha3, consume_diags, consume_diags, consume_diags, consume_diags]
      next s3 htc =>
        obtain ⟨rfl, -⟩ := try_consume_none _ _ _ htc
        obtain ⟨ha1, ha2, ha3, ha4⟩ :=
          act_on_param_decl_parts t id false s.consume.consume
        rcases hres : act_on_param_decl t id false s.consume.consume
          with ⟨r9, s9⟩
        simp only [hres] at ha1 ha2 ha3 ha4
        subst ha4
        refine ⟨?_, ?_, fun p h => ?_⟩
        · refine scopesTopOnly_trans _ _ _ ?_ ha1
          exact scopesTopOnly_of_eq _ _ (by rw [consume_scopes, consume_scopes])
        · rw [ha2, consume_heap, consume_heap]
        · cases h
          refine ⟨goodParam_typeOf t id.lexeme _, ?_⟩
          rw [ha3, consume_diags, consume_diags]

theorem inv_parse_params_loop : ∀ (f : Nat) (idx : Nat) (s : PState),
    idx < s.funHeap.length → paramsOut idx s (parse_params_loop f idx s)
  | 0, idx, s, _ => by
    simp only [parse_params_loop]
    exact ⟨scopesTopOnly_refl s, heapModifiedAt_refl idx s, fun h => nomatch h⟩
  | f+1, idx, s, hidx => by
    simp only [parse_params_loop]
    split
    · split
      next s1 heq =>
        obtain ⟨rfl, -⟩ := expect_none _ _ _ heq
        exact ⟨scopesTopOnly_of_eq _ _ (report_scopes ..),
          heapModifiedAt_of_eq _ _ _ (report_heap ..), fun h => nomatch h⟩
      next w1 s1 heq =>
        obtain ⟨-, rfl, -⟩ := expect_some _ _ _ _ heq
        split
        next s2 hpp =>
          have ih := inv_parse_param s.consume
          rw [hpp] at ih
          exact ⟨scopesTopOnly_trans _ _ _
              (scopesTopOnly_of_eq _ _ (consume_scopes s)) ih.1,
            heapModifiedAt_of_eq _ _ _ (by rw [ih.2.1, consume_heap]),
            fun h => nomatch h⟩
        next p s2 hpp =>
          have ih := inv_parse_param s.consume
          rw [hpp] at ih
          obtain ⟨hto2, hh2, hgood2⟩ := ih
          obtain ⟨hgp, hd2⟩ := hgood2 p rfl
          have hidx2 : idx < s2.funHeap.length := by
            rw [hh2, consume_heap]
            exact hidx
          have hadd := add_param_heapMod idx p s2 hidx2 hgp
          have hidx3 : idx < (add_param idx p s2).funHeap.length := by
            rw [hadd.1]
            exact hidx2
          have ihl := inv_parse_params_loop f idx (add_param idx p s2) hidx3
          refine ⟨?_, ?_, fun h => ?_⟩
          · refine scopesTopOnly_trans _ _ _
              (scopesTopOnly_of_eq _ _ (consume_scopes s)) ?_
            refine scopesTopOnly_trans _ _ _ hto2 ?_
            refine scopesTopOnly_trans _ _ _
              (scopesTopOnly_of_eq _ _ rfl) ihl.1
          · refine heapModifiedAt_trans _ _ _ _
              (heapModifiedAt_of_eq _ _ _ (by rw [consume_heap])) ?_
            refine heapModifiedAt_trans _ _ _ _
              (heapModifiedAt_of_eq _ _ _ hh2) ?_
            exact heapModifiedAt_trans _ _ _ _ hadd ihl.2.1
          · rw [ihl.2.2 h]
            show expDiags (add_param idx p s2).diags = expDiags s.diags
            have : (add_param idx p s2).diags = s2.diags := heapModify_diags ..
            rw [this, hd2, consume_diags]
    · exact ⟨scopesTopOnly_refl s, heapModifiedAt_refl idx s, fun _ => rfl⟩

theorem inv_parse_params_section (f : Nat) (idx : Nat) (s : PState)
    (hidx : idx < s.funHeap.length) :
    paramsOut idx s (parse_params_section f idx s) := by
  unfold parse_params_section
  split
  · exact ⟨scopesTopOnly_of_eq _ _ (consume_scopes s),
      heapModifiedAt_of_eq _ _ _ (consume_heap s), fun _ => consume_diags s ▸ rfl⟩
  · split
    next s1 hpp =>
      have ih := inv_parse_param s
      rw [hpp] at ih
      exact ⟨ih.1, heapModifiedAt_of_eq _ _ _ ih.2.1, fun h => nomatch h⟩
    next p s1 hpp =>
      have ih := inv_parse_param s
      rw [hpp] at ih
      obtain ⟨hto1, hh1, hgood1⟩ := ih
      obtain ⟨hgp, hd1⟩ := hgood1 p rfl
      have hidx1 : idx < s1.funHeap.length := by
        rw [hh1]
        exact hidx
      have hadd := add_param_heapMod idx p s1 hidx1 hgp
      have hidx2 : idx < (add_param idx p s1).funHeap.length := by
        rw [hadd.1]
        exact hidx1
      have ihl := inv_parse_params_loop f idx (add_param idx p s1) hidx2
      refine ⟨?_, ?_, fun h => ?_⟩
      · refine scopesTopOnly_trans _ _ _ hto1 ?_
        exact scopesTopOnly_trans _ _ _ (scopesTopOnly_of_eq _ _ rfl) ihl.1
      · refine heapModifiedAt_trans _ _ _ _
          (heapModifiedAt_of_eq _ _ _ hh1) ?_
        exact heapModifiedAt_trans _ _ _ _ hadd ihl.2.1
      · rw [ihl.2.2 h]
        show expDiags (add_param idx p s1).diags = expDiags s.diags
        have : (add_param idx p s1).diags = s1.diags := heapModify_diags ..
        rw [this, hd1]

mutual

theorem inv_parse_program : ∀ (f : Nat) (s : PState),
    programOut s (parse_program f s)
  | 0, s => fun p h => nomatch h
  | f+1, s => by
    simp only [parse_program, act_on_program_start]
    intro p h
    have ihl := inv_parse_program_loop f [] (pushScope .globalScope s)
    obtain ⟨hds, hgood, hd, hsc⟩ := ihl p h
    refine ⟨?_, hd, ?_⟩
    · obtain ⟨ds, hds1, hds2⟩ := hds
      have hg := hgood rfl
      rw [goodProgram, hg, Bool.and_true, hds1]
      cases ds with
      | nil => exact absurd rfl hds2
      | cons d ds2 => rfl
    · rw [hsc]
      rfl

theorem inv_parse_program_loop : ∀ (f : Nat) (acc : List Decl) (s : PState),
    programLoopOut acc s (parse_program_loop f acc s)
  | 0, acc, s => fun p h => nomatch h
  | f+1, acc, s => by
    simp only [parse_program_loop]
    split
    next s1 heq => exact fun p h => nomatch h
    next d s1 heq =>
      have ihd := inv_parse_declaration f s
      rw [heq] at ihd
      obtain ⟨hto1, hlen1, hgood1⟩ := ihd
      obtain ⟨hgd, hd1⟩ := hgood1 d rfl
      split
      · intro p h
        have ihl := inv_parse_program_loop f (act_on_top_level_decl acc d) s1
        obtain ⟨⟨ds, hds1, hds2⟩, hgood, hd, hsc⟩ := ihl p h
        refine ⟨⟨d :: ds, ?_, by simp⟩, ?_, hd.trans hd1, hsc.trans hto1.1⟩
        · rw [hds1]
          simp [act_on_top_level_decl]
        · intro hacc
          exact hgood (goodDeclList_append acc d hacc hgd)
      · simp only [act_on_program_end]
        intro p h
        cases h
        refine ⟨⟨[d], by simp [act_on_top_level_decl], by simp⟩, ?_, hd1, hto1.1⟩
        intro hacc
        exact goodDeclList_append acc d hacc hgd

theorem inv_parse_declaration : ∀ (f : Nat) (s : PState),
    declOut s (parse_declaration f s)
  | 0, s => ⟨scopesTopOnly_refl s, le_refl _, fun _ h => nomatch h⟩
  | f+1, s => by
    simp only [parse_declaration]
    split
    · split
      next s1 heq =>
        have ih := inv_parse_fun_declaration f s
        rw [heq] at ih
        exact ⟨ih.1, ih.2.1, fun _ h => nomatch h⟩
      next fd s1 heq =>
        have ih := inv_parse_fun_declaration f s
        rw [heq] at ih
        obtain ⟨hgf, hdf⟩ := ih.2.2 fd rfl
        refine ⟨ih.1, ih.2.1, fun d h => ?_⟩
        cases h
        exact ⟨by simpa [goodDecl] using hgf, hdf⟩
    · split
      next s1 heq =>
        have ih := inv_parse_var_declaration s
        rw [heq] at ih
        exact ⟨ih.1, le_of_eq (by rw [ih.2.1]), fun _ h => nomatch h⟩
      next vd s1 heq =>
        have ih := inv_parse_var_declaration s
        rw [heq] at ih
        obtain ⟨hgv, hdv⟩ := ih.2.2 vd rfl
        refine ⟨ih.1, le_of_eq (by rw [ih.2.1]), fun d h => ?_⟩
        cases h
        exact ⟨by simpa [goodDecl] using hgv, hdv⟩

theorem inv_parse_fun_declaration : ∀ (f : Nat) (s : PState),
    funDeclOut s (parse_fun_declaration f s)
  | 0, s => ⟨scopesTopOnly_refl s, le_refl _, fun _ h => nomatch h⟩
  | f+1, s => by
    simp only [parse_fun_declaration]
    split
    next s1 heq =>
      obtain ⟨rfl, -⟩ := expect_type_none _ _ heq
      exact ⟨scopesTopOnly_of_eq _ _ (report_scopes ..),
        le_of_eq (by rw [report_heap]), fun _ h => nomatch h⟩
    next retn s1 heq =>
      obtain ⟨-, rfl, -⟩ := expect_type_some _ _ _ heq
      split
      next s2 heq2 =>
        obtain ⟨rfl, -⟩ := expect_none _ _ _ heq2
        exact ⟨scopesTopOnly_of_eq _ _ (by rw [report_scopes, consume_scopes]),
          le_of_eq (by rw [report_heap, consume_heap]), fun _ h => nomatch h⟩
      next id s2 heq2 =>
        obtain ⟨-, rfl, -⟩ := expect_some _ _ _ _ heq2
        split
        next s3 heq3 =>
          obtain ⟨rfl, -⟩ := expect_none _ _ _ heq3
          exact ⟨scopesTopOnly_of_eq _ _
            (by rw [report_scopes, consume_scopes, consume_scopes]),
            le_of_eq (by rw [report_heap, consume_heap, consume_heap]),
            fun _ h => nomatch h⟩
        next w3 s3 heq3 =>
          obtain ⟨-, rfl, -⟩ := expect_some _ _ _ _ heq3
          obtain ⟨hidx0, hto4, hh4, hdg4⟩ :=
            act_on_fun_decl_start_parts retn id s.consume.consume.consume
          rcases hstart : act_on_fun_decl_start retn id s.consume.consume.consume
            with ⟨idx, s4⟩
          simp only [hstart] at hidx0 hto4 hh4 hdg4
          simp only [hstart]
          have hidx5 : idx < (pushScope .funParams s4).funHeap.length := by
            show idx < s4.funHeap.length
            rw [hh4, hidx0]
            simp
          have ihb := inv_parse_fun_body f idx (pushScope .funParams s4) hidx5
          have hto4s : scopesTopOnly s s4 := by
            refine scopesTopOnly_trans _ _ _ ?_ hto4
            exact scopesTopOnly_of_eq _ _
              (by rw [consume_scopes, consume_scopes, consume_scopes])
          split
          next sB hbody =>
            rw [hbody] at ihb
            refine ⟨?_, ?_, fun _ h => nomatch h⟩
            · have hsc : (popScope sB).scopes = s4.scopes := by
                show sB.scopes.tail = s4.scopes
                rw [ihb.1.1]
                rfl
              exact scopesTopOnly_trans _ _ _ hto4s
                (scopesTopOnly_of_eq _ _ hsc)
            · show s.funHeap.length ≤ sB.funHeap.length
              rw [ihb.2.1.1]
              show s.funHeap.length ≤ s4.funHeap.length
              have hcc : s.consume.consume.consume.funHeap = s.funHeap := rfl
              rw [hh4, hcc]
              simp
          next sB hbody =>
            rw [hbody] at ihb
            obtain ⟨hdB, c, hbodyc, hgc⟩ := ihb.2.2 rfl
            dsimp only at hdB hbodyc
            simp only [act_on_fun_decl_end]
            refine ⟨?_, ?_, fun fd h => ?_⟩
            · have hsc : (popScope sB).scopes = s4.scopes := by
                show sB.scopes.tail = s4.scopes
                rw [ihb.1.1]
                rfl
              exact scopesTopOnly_trans _ _ _ hto4s
                (scopesTopOnly_of_eq _ _ hsc)
            · show s.funHeap.length ≤ sB.funHeap.length
              rw [ihb.2.1.1]
              show s.funHeap.length ≤ s4.funHeap.length
              have hcc : s.consume.consume.consume.funHeap = s.funHeap := rfl
              rw [hh4, hcc]
              simp
            · cases h
              constructor
              · have hshell : s4.funHeap.getD idx default
                    = ⟨typeOf retn, id.lexeme, [], none⟩ := by
                  rw [hh4, hidx0]
                  have : s.funHeap.length = s.consume.consume.consume.funHeap.length := by
                    rw [consume_heap, consume_heap, consume_heap]
                  exact getD_append_self _ _ _
                have hretn : (sB.funHeap.getD idx default).retn = typeOf retn := by
                  rw [ihb.2.1.2.2.2.1]
                  show (s4.funHeap.getD idx default).retn = typeOf retn
                  rw [hshell]
                have hparams : goodParamList (sB.funHeap.getD idx default).params
                    = true := by
                  apply ihb.2.1.2.2.2.2
                  show goodParamList (s4.funHeap.getD idx default).params = true
                  rw [hshell]
                  rfl
                show goodFunDecl (sB.funHeap.getD idx default) = true
                rw [goodFunDecl, hbodyc, hretn, hparams]
                simp only [hgc, Bool.and_true]
                cases htr : typeOf retn with
                | int => decide
                | void => decide
                | intArray =>
                  exfalso
                  unfold typeOf at htr
                  split at htr <;> cases htr
              · show expDiags (popScope sB).diags = expDiags s.diags
                have hpop : (popScope sB).diags = sB.diags := rfl
                rw [hpop, hdB]
                show expDiags s4.diags = expDiags s.diags
                rw [hdg4, consume_diags, consume_diags, consume_diags]

theorem inv_parse_fun_body : ∀ (f : Nat) (idx : Nat) (s : PState),
    idx < s.funHeap.length → funBodyOut idx s (parse_fun_body f idx s)
  | 0, idx, s, _ =>
    ⟨scopesTopOnly_refl s, heapModifiedAt_refl idx s, fun h => nomatch h⟩
  | f+1, idx, s, hidx => by
    simp only [parse_fun_body]
    split
    next s1 hps =>
      have ih := inv_parse_params_section f idx s hidx
      rw [hps] at ih
      exact ⟨ih.1, ih.2.1, fun h => nomatch h⟩
    next u1 s1 hps =>
      have ih := inv_parse_params_section f idx s hidx
      rw [hps] at ih
      obtain ⟨hto1, hmod1, hd1⟩ := ih
      dsimp only at hto1 hmod1 hd1
      split
      next s2 heq2 =>
        obtain ⟨rfl, -⟩ := expect_none _ _ _ heq2
        exact ⟨scopesTopOnly_trans _ _ _ hto1
            (scopesTopOnly_of_eq _ _ (report_scopes ..)),
          heapModifiedAt_trans _ _ _ _ hmod1
            (heapModifiedAt_of_eq _ _ _ (report_heap ..)),
          fun h => nomatch h⟩
      next w2 s2 heq2 =>
        obtain ⟨-, rfl, -⟩ := expect_some _ _ _ _ heq2
        split
        next s3 hcs =>
          have ihc := inv_parse_compound_stmt f .compoundFun s1.consume
          rw [hcs] at ihc
          refine ⟨?_, ?_, fun h => nomatch h⟩
          · refine scopesTopOnly_trans _ _ _ hto1 ?_
            exact scopesTopOnly_of_eq _ _ (by rw [ihc.1, consume_scopes])
          · refine heapModifiedAt_trans _ _ _ _ hmod1 ?_
            exact heapModifiedAt_of_eq _ _ _ (by rw [ihc.2.1, consume_heap])
        next comp s3 hcs =>
          have ihc := inv_parse_compound_stmt f .compoundFun s1.consume
          rw [hcs] at ihc
          obtain ⟨hsc3, hh3, hgood3⟩ := ihc
          obtain ⟨hgc, hd3⟩ := hgood3 comp rfl
          dsimp only at hsc3 hh3 hd3
          have hidx3 : idx < s3.funHeap.length := by
            rw [hh3, consume_heap, hmod1.1]
            exact hidx
          have hsb := set_body_heapMod idx comp s3 hidx3
          refine ⟨?_, ?_, fun h => ?_⟩
          · refine scopesTopOnly_trans _ _ _ hto1 ?_
            refine scopesTopOnly_of_eq _ _ ?_
            show (set_body idx comp s3).scopes = s1.scopes
            have h0 : (set_body idx comp s3).scopes = s3.scopes := rfl
            rw [h0, hsc3, consume_scopes]
          · refine heapModifiedAt_trans _ _ _ _ hmod1 ?_
            refine heapModifiedAt_trans _ _ _ _
              (heapModifiedAt_of_eq _ _ _ (by rw [hh3, consume_heap])) hsb
          · refine ⟨?_, comp, ?_, hgc⟩
            · show expDiags (set_body idx comp s3).diags = expDiags s.diags
              have h0 : (set_body idx comp s3).diags = s3.diags := rfl
              rw [h0, hd3, consume_diags, hd1 rfl]
            · show ((set_body idx comp s3).funHeap.getD idx default).body = some comp
              unfold set_body
              rw [heapModify_getD_self idx _ s3 hidx3]

theorem inv_parse_statement : ∀ (f : Nat) (s : PState),
    stmtOut s (parse_statement f s)
  | 0, s => stmtOut_none s s rfl rfl
  | f+1, s => by
    simp only [parse_statement]
    split
    · exact inv_parse_expr_stmt f s
    · exact inv_parse_expr_stmt f s
    · exact inv_parse_expr_stmt f s
    · exact inv_parse_expr_stmt f s
    · split
      next s1 heq =>
        have ih := inv_parse_compound_stmt f .compoundOnly s
        rw [heq] at ih
        exact stmtOut_none _ _ ih.1 ih.2.1
      next comp s1 heq =>
        have ih := inv_parse_compound_stmt f .compoundOnly s
        rw [heq] at ih
        obtain ⟨hgc, hdc⟩ := ih.2.2 comp rfl
        exact stmtOut_some _ _ _ ih.1 ih.2.1 (by simpa [goodStmt] using hgc) hdc
    · exact inv_parse_selection_stmt f s
    · exact inv_parse_iteration_stmt f s
    · exact inv_parse_return_stmt f s
    · exact stmtOut_none _ _ (report_scopes ..) (report_heap ..)

theorem inv_parse_expr_stmt : ∀ (f : Nat) (s : PState),
    stmtOut s (parse_expr_stmt f s)
  | 0, s => stmtOut_none s s rfl rfl
  | f+1, s => by
    simp only [parse_expr_stmt]
    split
    next w1 s1 htc =>
      obtain ⟨-, rfl, -⟩ := try_consume_some _ _ _ _ htc
      exact stmtOut_some _ _ _ (consume_scopes s) (consume_heap s)
        (by simp [act_on_null_stmt, goodStmt]) (by rw [consume_diags])
    next s1 htc =>
      obtain ⟨rfl, -⟩ := try_consume_none _ _ _ htc
      split
      next s2 hpe =>
        have ih := inv_parse_expression f s1
        rw [hpe] at ih
        exact stmtOut_none _ _ ih.1 ih.2.1
      next e1 s2 hpe =>
        have ih := inv_parse_expression f s1
        rw [hpe] at ih
        obtain ⟨hsc2, hh2, hgood2⟩ := ih
        obtain ⟨hg1, hd1⟩ := hgood2 e1 rfl
        split
        next s3 heq3 =>
          obtain ⟨rfl, -⟩ := expect_none _ _ _ heq3
          exact stmtOut_none _ _ (by rw [report_scopes, hsc2])
            (by rw [report_heap, hh2])
        next w3 s3 heq3 =>
          obtain ⟨-, rfl, -⟩ := expect_some _ _ _ _ heq3
          exact stmtOut_some _ _ _ (by rw [consume_scopes, hsc2])
            (by rw [consume_heap, hh2])
            (by simpa [act_on_expr_stmt, goodStmt] using hg1)
            (by rw [consume_diags, hd1])

theorem inv_parse_compound_stmt : ∀ (f : Nat) (flags : ScopeFlags) (s : PState),
    compoundOut s (parse_compound_stmt f flags s)
  | 0, flags, s => compoundOut_none s s rfl rfl
  | f+1, flags, s => by
    simp only [parse_compound_stmt]
    split
    next s1 heq =>
      obtain ⟨rfl, -⟩ := expect_none _ _ _ heq
      exact compoundOut_none _ _ (report_scopes ..) (report_heap ..)
    next w1 s1 heq =>
      obtain ⟨-, rfl, -⟩ := expect_some _ _ _ _ heq
      split
      next s2 hld =>
        have ih := inv_parse_local_decls f [] (pushScope flags s.consume) rfl
        rw [hld] at ih
        dsimp only at ih
        refine compoundOut_none _ _ ?_ ?_
        · show s2.scopes.tail = s.scopes
          rw [ih.1.1]
          exact consume_scopes s
        · have h0 : (popScope s2).funHeap = s2.funHeap := rfl
          rw [h0, ih.2.1]
          exact consume_heap s
      next decls s2 hld =>
        have ih := inv_parse_local_decls f [] (pushScope flags s.consume) rfl
        rw [hld] at ih
        dsimp only at ih
        obtain ⟨hto2, hh2, hgood2⟩ := ih
        obtain ⟨hgd, hd2⟩ := hgood2 decls rfl
        split
        next s3 hsl =>
          have ihs := inv_parse_stmt_list f .nil s2 rfl
          rw [hsl] at ihs
          dsimp only at ihs
          refine compoundOut_none _ _ ?_ ?_
          · show s3.scopes.tail = s.scopes
            rw [ihs.1, hto2.1]
            exact consume_scopes s
          · have h0 : (popScope s3).funHeap = s3.funHeap := rfl
            rw [h0, ihs.2.1, hh2]
            exact consume_heap s
        next stms s3 hsl =>
          have ihs := inv_parse_stmt_list f .nil s2 rfl
          rw [hsl] at ihs
          dsimp only at ihs
          obtain ⟨hsc3, hh3, hgood3⟩ := ihs
          obtain ⟨hgs, hd3⟩ := hgood3 stms rfl
          refine ⟨?_, ?_, fun c h => ?_⟩
          · show s3.consume.scopes.tail = s.scopes
            rw [consume_scopes, hsc3, hto2.1]
            exact consume_scopes s
          · show s3.consume.funHeap = s.funHeap
            rw [consume_heap, hh3, hh2]
            exact consume_heap s
          · cases h
            refine ⟨?_, ?_⟩
            · simp [act_on_compound_stmt, goodCompound, hgd, hgs]
            · show expDiags s3.consume.diags = expDiags s.diags
              rw [consume_diags, hd3, hd2]
              exact congrArg expDiags (consume_diags s)

theorem inv_parse_local_decls : ∀ (f : Nat) (acc : List VarDecl) (s : PState),
    goodVarDeclList acc = true →
    scopesTopOnly s (parse_local_decls f acc s).2 ∧
    (parse_local_decls f acc s).2.funHeap = s.funHeap ∧
    ∀ l, (parse_local_decls f acc s).1 = some l →
      goodVarDeclList l = true ∧
      expDiags (parse_local_decls f acc s).2.diags = expDiags s.diags
  | 0, acc, s, _ => ⟨scopesTopOnly_refl s, rfl, fun _ h => nomatch h⟩
  | f+1, acc, s, hacc => by
    simp only [parse_local_decls]
    split
    · split
      next s1 hvd =>
        have ih := inv_parse_var_declaration s
        rw [hvd] at ih
        exact ⟨ih.1, ih.2.1, fun _ h => nomatch h⟩
      next v s1 hvd =>
        have ih := inv_parse_var_declaration s
        rw [hvd] at ih
        obtain ⟨hto1, hh1, hgood1⟩ := ih
        obtain ⟨hgv, hd1⟩ := hgood1 v rfl
        have ihl := inv_parse_local_decls f (acc ++ [v]) s1
          (goodVarDeclList_append acc v hacc hgv)
        refine ⟨scopesTopOnly_trans _ _ _ hto1 ihl.1,
          by rw [ihl.2.1, hh1], fun l h => ?_⟩
        obtain ⟨hgl, hdl⟩ := ihl.2.2 l h
        exact ⟨hgl, by rw [hdl, hd1]⟩
    · exact ⟨scopesTopOnly_refl s, rfl, fun l h => by cases h; exact ⟨hacc, rfl⟩⟩

theorem inv_parse_stmt_list : ∀ (f : Nat) (acc : StmtList) (s : PState),
    goodStmtList acc = true →
    (parse_stmt_list f acc s).2.scopes = s.scopes ∧
    (parse_stmt_list f acc s).2.funHeap = s.funHeap ∧
    ∀ l, (parse_stmt_list f acc s).1 = some l →
      goodStmtList l = true ∧
      expDiags (parse_stmt_list f acc s).2.diags = expDiags s.diags
  | 0, acc, s, _ => ⟨rfl, rfl, fun _ h => nomatch h⟩
  | f+1, acc, s, hacc => by
    simp only [parse_stmt_list]
    split
    · split
      next s1 hst =>
        have ih := inv_parse_statement f s
        rw [hst] at ih
        exact ⟨ih.1, ih.2.1, fun _ h => nomatch h⟩
      next st s1 hst =>
        have ih := inv_parse_statement f s
        rw [hst] at ih
        obtain ⟨hsc1, hh1, hgood1⟩ := ih
        obtain ⟨hgs, hd1⟩ := hgood1 st rfl
        have ihl := inv_parse_stmt_list f (acc.push st) s1
          (goodStmtList_push acc st hacc hgs)
        refine ⟨by rw [ihl.1, hsc1], by rw [ihl.2.1, hh1], fun l h => ?_⟩
        obtain ⟨hgl, hdl⟩ := ihl.2.2 l h
        exact ⟨hgl, by rw [hdl, hd1]⟩
    · exact ⟨rfl, rfl, fun l h => by cases h; exact ⟨hacc, rfl⟩⟩

theorem inv_parse_selection_stmt : ∀ (f : Nat) (s : PState),
    stmtOut s (parse_selection_stmt f s)
  | 0, s => stmtOut_none s s rfl rfl
  | f+1, s => by
    simp only [parse_selection_stmt]
    split
    next s1 heq =>
      obtain ⟨rfl, -⟩ := expect_none _ _ _ heq
      exact stmtOut_none _ _ (report_scopes ..) (report_heap ..)
    next w1 s1 heq =>
      obtain ⟨-, rfl, -⟩ := expect_some _ _ _ _ heq
      split
      next s2 heq2 =>
        obtain ⟨rfl, -⟩ := expect_none _ _ _ heq2
        exact stmtOut_none _ _ (by rw [report_scopes, consume_scopes])
          (by rw [report_heap, consume_heap])
      next w2 s2 heq2 =>
        obtain ⟨-, rfl, -⟩ := expect_some _ _ _ _ heq2
        split
        next s3 hpe =>
          have ih := inv_parse_expression f s.consume.consume
          rw [hpe] at ih
          exact stmtOut_none _ _ (by rw [ih.1, consume_scopes, consume_scopes])
            (by rw [ih.2.1, consume_heap, consume_heap])
        next e1 s3 hpe =>
          have ih := inv_parse_expression f s.consume.consume
          rw [hpe] at ih
          obtain ⟨hsc3, hh3, hgood3⟩ := ih
          obtain ⟨hg1, hd1⟩ := hgood3 e1 rfl
          split
          next s4 heq4 =>
            obtain ⟨rfl, -⟩ := expect_none _ _ _ heq4
            exact stmtOut_none _ _
              (by rw [report_scopes, hsc3, consume_scopes, consume_scopes])
              (by rw [report_heap, hh3, consume_heap, consume_heap])
          next w4 s4 heq4 =>
            obtain ⟨-, rfl, -⟩ := expect_some _ _ _ _ heq4
            split
            next s5 hst =>
              have ihs := inv_parse_statement f s3.consume
              rw [hst] at ihs
              exact stmtOut_none _ _
                (by rw [ihs.1, consume_scopes, hsc3, consume_scopes, consume_scopes])
                (by rw [ihs.2.1, consume_heap, hh3, consume_heap, consume_heap])
            next st1 s5 hst =>
              have ihs := inv_parse_statement f s3.consume
              rw [hst] at ihs
              obtain ⟨hsc5, hh5, hgood5⟩ := ihs
              obtain ⟨hg5, hd5⟩ := hgood5 st1 rfl
              split
              next s6 htc =>
                obtain ⟨rfl, -⟩ := try_consume_none _ _ _ htc
                exact stmtOut_some _ _ _
                  (by rw [hsc5, consume_scopes, hsc3, consume_scopes, consume_scopes])
                  (by rw [hh5, consume_heap, hh3, consume_heap, consume_heap])
                  (by simp [act_on_selection_stmt, goodStmt, hg1, hg5])
                  (by rw [hd5, consume_diags, hd1, consume_diags, consume_diags])
              next w6 s6 htc =>
                obtain ⟨-, rfl, -⟩ := try_consume_some _ _ _ _ htc
                split
                next s7 hst2 =>
                  have ihs2 := inv_parse_statement f s5.consume
                  rw [hst2] at ihs2
                  exact stmtOut_none _ _
                    (by rw [ihs2.1, consume_scopes, hsc5, consume_scopes, hsc3,
                      consume_scopes, consume_scopes])
                    (by rw [ihs2.2.1, consume_heap, hh5, consume_heap, hh3,
                      consume_heap, consume_heap])
                next st2 s7 hst2 =>
                  have ihs2 := inv_parse_statement f s5.consume
                  rw [hst2] at ihs2
                  obtain ⟨hsc7, hh7, hgood7⟩ := ihs2
                  obtain ⟨hg7, hd7⟩ := hgood7 st2 rfl
                  exact stmtOut_some _ _ _
                    (by rw [hsc7, consume_scopes, hsc5, consume_scopes, hsc3,
                      consume_scopes, consume_scopes])
                    (by rw [hh7, consume_heap, hh5, consume_heap, hh3,
                      consume_heap, consume_heap])
                    (by simp [act_on_selection_stmt, goodStmt, hg1, hg5, hg7])
                    (by rw [hd7, consume_diags, hd5, consume_diags, hd1,
                      consume_diags, consume_diags])

theorem inv_parse_iteration_stmt : ∀ (f : Nat) (s : PState),
    stmtOut s (parse_iteration_stmt f s)
  | 0, s => stmtOut_none s s rfl rfl
  | f+1, s => by
    simp only [parse_iteration_stmt]
    split
    next s1 heq =>
      obtain ⟨rfl, -⟩ := expect_none _ _ _ heq
      exact stmtOut_none _ _ (report_scopes ..) (report_heap ..)
    next w1 s1 heq =>
      obtain ⟨-, rfl, -⟩ := expect_some _ _ _ _ heq
      split
      next s2 heq2 =>
        obtain ⟨rfl, -⟩ := expect_none _ _ _ heq2
        exact stmtOut_none _ _ (by rw [report_scopes, consume_scopes])
          (by rw [report_heap, consume_heap])
      next w2 s2 heq2 =>
        obtain ⟨-, rfl, -⟩ := expect_some _ _ _ _ heq2
        split
        next s3 hpe =>
          have ih := inv_parse_expression f s.consume.consume
          rw [hpe] at ih
          exact stmtOut_none _ _ (by rw [ih.1, consume_scopes, consume_scopes])
            (by rw [ih.2.1, consume_heap, consume_heap])
        next e1 s3 hpe =>
          have ih := inv_parse_expression f s.consume.consume
          rw [hpe] at ih
          obtain ⟨hsc3, hh3, hgood3⟩ := ih
          obtain ⟨hg1, hd1⟩ := hgood3 e1 rfl
          split
          next s4 heq4 =>
            obtain ⟨rfl, -⟩ := expect_none _ _ _ heq4
            exact stmtOut_none _ _
              (by rw [report_scopes, hsc3, consume_scopes, consume_scopes])
              (by rw [report_heap, hh3, consume_heap, consume_heap])
          next w4 s4 heq4 =>
            obtain ⟨-, rfl, -⟩ := expect_some _ _ _ _ heq4
            split
            next s5 hst =>
              have ihs := inv_parse_statement f s3.consume
              rw [hst] at ihs
              exact stmtOut_none _ _
                (by rw [ihs.1, consume_scopes, hsc3, consume_scopes, consume_scopes])
                (by rw [ihs.2.1, consume_heap, hh3, consume_heap, consume_heap])
            next st1 s5 hst =>
              have ihs := inv_parse_statement f s3.consume
              rw [hst] at ihs
              obtain ⟨hsc5, hh5, hgood5⟩ := ihs
              obtain ⟨hg5, hd5⟩ := hgood5 st1 rfl
              exact stmtOut_some _ _ _
                (by rw [hsc5, consume_scopes, hsc3, consume_scopes, consume_scopes])
                (by rw [hh5, consume_heap, hh3, consume_heap, consume_heap])
                (by simp [act_on_iteration_stmt, goodStmt, hg1, hg5])
                (by rw [hd5, consume_diags, hd1, consume_diags, consume_diags])

theorem inv_parse_return_stmt : ∀ (f : Nat) (s : PState),
    stmtOut s (parse_return_stmt f s)
  | 0, s => stmtOut_none s s rfl rfl
  | f+1, s => by
    simp only [parse_return_stmt]
    split
    next s1 heq =>
      obtain ⟨rfl, -⟩ := expect_none _ _ _ heq
      exact stmtOut_none _ _ (report_scopes ..) (report_heap ..)
    next rw1 s1 heq =>
      obtain ⟨-, rfl, -⟩ := expect_some _ _ _ _ heq
      split
      next w2 s2 htc =>
        obtain ⟨-, rfl, -⟩ := try_consume_some _ _ _ _ htc
        exact stmtOut_some _ _ _
          (by rw [consume_scopes, consume_scopes])
          (by rw [consume_heap, consume_heap])
          (by simp [act_on_return_stmt, goodStmt])
          (by rw [consume_diags, consume_diags])
      next s2 htc =>
        obtain ⟨rfl, -⟩ := try_consume_none _ _ _ htc
        split
        next s3 hpe =>
          have ih := inv_parse_expression f s.consume
          rw [hpe] at ih
          exact stmtOut_none _ _ (by rw [ih.1, consume_scopes])
            (by rw [ih.2.1, consume_heap])
        next e1 s3 hpe =>
          have ih := inv_parse_expression f s.consume
          rw [hpe] at ih
          obtain ⟨hsc3, hh3, hgood3⟩ := ih
          obtain ⟨hg1, hd1⟩ := hgood3 e1 rfl
          split
          next s4 heq4 =>
            obtain ⟨rfl, -⟩ := expect_none _ _ _ heq4
            exact stmtOut_none _ _ (by rw [report_scopes, hsc3, consume_scopes])
              (by rw [report_heap, hh3, consume_heap])
          next w4 s4 heq4 =>
            obtain ⟨-, rfl, -⟩ := expect_some _ _ _ _ heq4
            exact stmtOut_some _ _ _
              (by rw [consume_scopes, hsc3, consume_scopes])
              (by rw [consume_heap, hh3, consume_heap])
              (by simpa [act_on_return_stmt, goodStmt] using hg1)
              (by rw [consume_diags, hd1, consume_diags])

end

/-! Supporting material for the claim theorems: concrete word streams and
states exercising the parser, and small lemmas about operator membership and
scope lookup after a function installation. -/

theorem mem_of_addop : ∀ c, isAddop c = true → c ∈ [Category.Plus, Category.Minus] := by
  intro c h
  revert h
  cases c <;> decide

theorem mem_of_mulop : ∀ c, isMulop c = true →
    c ∈ [Category.Multiply, Category.Divide] := by
  intro c h
  revert h
  cases c <;> decide

theorem not_mem_of_addop (c : Category) (h : isAddop c = false) :
    c ∉ [Category.Plus, Category.Minus] := by
  intro hmem
  rw [addop_of_mem c hmem] at h
  cases h

theorem not_mem_of_mulop (c : Category) (h : isMulop c = false) :
    c ∉ [Category.Multiply, Category.Divide] := by
  intro hmem
  rw [mulop_of_mem c hmem] at h
  cases h

theorem lookupScopes_install_head (n : String) (e : DeclEntry) (fr : Frame)
    (rest : List Frame) :
    lookupScopes n ({ fr with names := (n, e) :: fr.names } :: rest) = some e := by
  simp [lookupScopes, Frame.lookup, List.lookup]

theorem lookup_act_on_fun_decl_start (retn idw : Word) (s3 : PState)
    (fr : Frame) (rest : List Frame) (hsc : s3.scopes = fr :: rest) :
    lookupScopes idw.lexeme (act_on_fun_decl_start retn idw s3).2.scopes =
      some (.funE s3.funHeap.length) := by
  have hscopes : (act_on_fun_decl_start retn idw s3).2.scopes =
      { fr with names := (idw.lexeme, DeclEntry.funE s3.funHeap.length) :: fr.names } :: rest := by
    show (match s3.scopes with
          | [] => []
          | fr2 :: rest2 =>
            { fr2 with names := (idw.lexeme, DeclEntry.funE s3.funHeap.length) :: fr2.names } :: rest2) =
        { fr with names := (idw.lexeme, DeclEntry.funE s3.funHeap.length) :: fr.names } :: rest
    rw [hsc]
  rw [hscopes]
  exact lookupScopes_install_head _ _ _ _

theorem lookup_pushed_act_on_fun_decl_start (retn idw : Word) (s3 : PState)
    (fr : Frame) (rest : List Frame) (hsc : s3.scopes = fr :: rest) :
    lookupScopes idw.lexeme
      (pushScope .funParams (act_on_fun_decl_start retn idw s3).2).scopes =
      some (.funE s3.funHeap.length) := by
  show lookupScopes idw.lexeme (act_on_fun_decl_start retn idw s3).2.scopes =
    some (.funE s3.funHeap.length)
  exact lookup_act_on_fun_decl_start retn idw s3 fr rest hsc

/-! The claim theorems. -/

/-- C2: the word categories contain a sentinel `Eof` distinct from every
source-word category; `peek_word` holds it at end of input; and the
declaration loop of `parse_program` finishes the program exactly when the
state after a declaration has it as lookahead. -/
theorem C2_eof_sentinel :
    (∀ c ∈ sourceCategories, c ≠ Category.Eof) ∧
    (∀ s : PState, s.tokens = [] → s.peek_word.category = Category.Eof) ∧
    (∀ f acc s d s2, parse_declaration f s = (some d, s2) →
      s2.peek_word.category = Category.Eof →
      parse_program_loop (f+1) acc s = (some ⟨acc ++ [d]⟩, popScope s2)) := by
  refine ⟨by decide, fun s h => by rw [PState.peek_word, h]; rfl, ?_⟩
  intro f acc s d s2 h heof
  simp only [parse_program_loop, h, act_on_top_level_decl, act_on_program_end]
  rw [if_neg (by simp [heof])]

/-- C2 witness: on `int x ;` the loop finishes the program at the `Eof`
lookahead after one declaration. -/
theorem C2_eof_sentinel_witness :
    parse_program_loop 6 [] (initState [typeWord .int, idWord "x", semiW] []) =
      (some ⟨[Decl.varD ⟨.int, "x", none⟩]⟩, (⟨[], [], [], []⟩ : PState)) :=
  C2_eof_sentinel.2.2 5 [] (initState [typeWord .int, idWord "x", semiW] [])
    (Decl.varD ⟨.int, "x", none⟩) ⟨[], [], [], []⟩ (by rfl) (by rfl)

/-- C3: an `expect_and_consume` (or `expect_and_consume_type`) miss emits the
corresponding `parser_expected_*` diagnostic and yields null, and null
propagates through `parse_declaration` and the declaration loop up to
`parse_program`, which returns null on any declaration failure. -/
theorem C3_error_propagation :
    (∀ c s, s.peek_word.category ≠ c →
      expect_and_consume c s = (none, s.report .parser_expected_token [.cat c])) ∧
    (∀ s, s.peek_word.category ≠ .Void → s.peek_word.category ≠ .Int →
      expect_and_consume_type s = (none, s.report .parser_expected_type [])) ∧
    (∀ f s, (s.lookahead 2).category = .OpenParen →
      (parse_fun_declaration f s).1 = none → (parse_declaration (f+1) s).1 = none) ∧
    (∀ f s, (s.lookahead 2).category ≠ .OpenParen →
      (parse_var_declaration s).1 = none → (parse_declaration (f+1) s).1 = none) ∧
    (∀ f acc s, (parse_declaration f s).1 = none →
      (parse_program_loop (f+1) acc s).1 = none) ∧
    (∀ f s, (parse_program_loop f [] (pushScope .globalScope s)).1 = none →
      (parse_program (f+1) s).1 = none) := by
  refine ⟨?_, ?_, ?_, ?_, ?_, ?_⟩
  · intro c s h
    rw [expect_and_consume, try_consume, if_neg (by simp [h])]
  · intro s h1 h2
    rw [expect_and_consume_type, try_consume, if_neg (by simp [h1, h2])]
  · intro f s hla h
    simp only [parse_declaration]
    rw [if_pos hla]
    rcases hr : parse_fun_declaration f s with ⟨r, s2⟩
    rw [hr] at h
    cases r with
    | none => rfl
    | some fd => simp at h
  · intro f s hla h
    simp only [parse_declaration]
    rw [if_neg hla]
    rcases hr : parse_var_declaration s with ⟨r, s2⟩
    rw [hr] at h
    cases r with
    | none => rfl
    | some vd => simp at h
  · intro f acc s h
    simp only [parse_program_loop]
    rcases hr : parse_declaration f s with ⟨r, s2⟩
    rw [hr] at h
    cases r with
    | none => rfl
    | some d => simp at h
  · intro f s h
    simp only [parse_program, act_on_program_start]
    exact h

/-- C3 witness: on the empty word stream the type expectation misses, the
diagnostic is emitted and null reaches `parse_program`. -/
theorem C3_error_propagation_witness :
    expect_and_consume_type (initState [] []) =
      (none, (initState [] []).report .parser_expected_type []) ∧
    (parse_program 7 (initState [] [])).1 = none :=
  ⟨C3_error_propagation.2.1 (initState [] []) (by decide) (by decide),
   C3_error_propagation.2.2.2.2.2 6 (initState [] []) (by rfl)⟩

/-- C6: when `parse_declaration` returns a declaration, it is a
fun-declaration exactly when the third lookahead word is an open paren, and a
var-declaration exactly otherwise. -/
theorem C6_declaration_dispatch (f : Nat) (s : PState) (d : Decl)
    (h : (parse_declaration (f+1) s).1 = some d) :
    ((s.lookahead 2).category = .OpenParen ↔ ∃ fd, d = .funD fd) ∧
    ((s.lookahead 2).category ≠ .OpenParen ↔ ∃ vd, d = .varD vd) := by
  simp only [parse_declaration] at h
  by_cases hla : (s.lookahead 2).category = .OpenParen
  · rw [if_pos hla] at h
    rcases hr : parse_fun_declaration f s with ⟨r, s2⟩
    rw [hr] at h
    cases r with
    | none => simp at h
    | some fd =>
      replace h : some (Decl.funD fd) = some d := h
      injection h with h
      subst h
      constructor
      · exact iff_of_true hla ⟨fd, rfl⟩
      · constructor
        · intro hne
          exact absurd hla hne
        · rintro ⟨vd, hv⟩
          exact nomatch hv
  · rw [if_neg hla] at h
    rcases hr : parse_var_declaration s with ⟨r, s2⟩
    rw [hr] at h
    cases r with
    | none => simp at h
    | some vd =>
      replace h : some (Decl.varD vd) = some d := h
      injection h with h
      subst h
      constructor
      · constructor
        · intro hop
          exact absurd hop hla
        · rintro ⟨fd, hf⟩
          exact nomatch hf
      · exact iff_of_true hla ⟨vd, rfl⟩

/-- C6 witness: on `int x ;` the third lookahead is not an open paren and the
parsed declaration is a var-declaration. -/
theorem C6_declaration_dispatch_witness :
    ¬((initState [typeWord .int, idWord "x", semiW] []).lookahead 2).category
        = Category.OpenParen ∧
    ∃ vd, Decl.varD ⟨.int, "x", none⟩ = Decl.varD vd := by
  have h := C6_declaration_dispatch 4 (initState [typeWord .int, idWord "x", semiW] [])
    (Decl.varD ⟨.int, "x", none⟩) (by rfl)
  exact ⟨by decide, h.2.mp (by decide)⟩

/-- C8: on the empty program (source a lone newline, scanning to no words)
the parser emits `parser_expected_type`, returns no AST, and the driver exit
code is non-zero. -/
theorem C8_empty_program :
    (tokenize "\n").1 = [] ∧
    (parse_program 3 (initState (tokenize "\n").1 (tokenize "\n").2)).1 = none ∧
    (parse_program 3 (initState (tokenize "\n").1 (tokenize "\n").2)).2.diags =
      [⟨.parser_expected_type, []⟩] ∧
    driver_exit_code
      (parse_program 3 (initState (tokenize "\n").1 (tokenize "\n").2)).2.diags ≠ 0 :=
  ⟨by rfl, by rfl, by rfl, by decide⟩


/-! Statement-, declaration- and program-level derivability of the canonical
print of well-formed AST nodes. -/

theorem isTypeSpec_typeWord (t : ExprType) : isTypeSpec (typeWord t) := by
  cases t
  · exact Or.inl rfl
  · exact Or.inr rfl
  · exact Or.inl rfl

theorem good_ppVarDecl (v : VarDecl) (h : goodVarDecl v = true) :
    Derives .varDecl (ppVarDecl v) := by
  rw [ppVarDecl]
  rcases v.array_size with - | n
  · exact .varDeclPlain _ _ _ (isTypeSpec_typeWord v.type) rfl rfl
  · exact .varDeclArray _ _ _ _ _ _ (isTypeSpec_typeWord v.type) rfl rfl rfl rfl rfl

theorem good_ppVarDeclListAcc : ∀ (vs : List VarDecl) (u : List Word),
    Derives .localDecls u → goodVarDeclList vs = true →
    Derives .localDecls (u ++ ppVarDeclList vs)
  | [], u, hu, _ => by
    rw [ppVarDeclList]
    simpa using hu
  | v :: vs, u, hu, h => by
    simp only [goodVarDeclList, Bool.and_eq_true] at h
    rw [ppVarDeclList]
    have hstep := Derives.localDeclsCons u (ppVarDecl v) hu (good_ppVarDecl v h.1)
    have h2 := good_ppVarDeclListAcc vs (u ++ ppVarDecl v) hstep h.2
    simpa using h2

theorem good_ppLocalDecls (vs : List VarDecl) (h : goodVarDeclList vs = true) :
    Derives .localDecls (ppVarDeclList vs) := by
  have h2 := good_ppVarDeclListAcc vs [] .localDeclsNil h
  simpa using h2

mutual

theorem good_ppStmt : ∀ (st : Stmt), goodStmt st = true → Derives .stmt (ppStmt st)
  | .nullStmt, _ => by
    rw [ppStmt]
    exact .stmtExpr _ (.exprStmtNull semiW rfl)
  | .exprStmt e, h => by
    rw [ppStmt]
    exact .stmtExpr _ (.exprStmtExpr _ semiW (good_ppExpr e h) rfl)
  | .compound c, h => by
    rw [ppStmt]
    exact .stmtCompound _ (good_ppCompound c h)
  | .selection cond t, h => by
    simp only [goodStmt, Bool.and_eq_true] at h
    rw [ppStmt]
    exact .stmtSelection _ (.selectionIf ifW lparW _ rparW _ rfl rfl
      (good_ppExpr cond h.1) rfl (good_ppStmt t h.2))
  | .selectionElse cond t e, h => by
    simp only [goodStmt, Bool.and_eq_true] at h
    rw [ppStmt]
    exact .stmtSelection _ (.selectionIfElse ifW lparW _ rparW _ elseW _ rfl rfl
      (good_ppExpr cond h.1.1) rfl (good_ppStmt t h.1.2) rfl (good_ppStmt e h.2))
  | .iteration cond b, h => by
    simp only [goodStmt, Bool.and_eq_true] at h
    rw [ppStmt]
    exact .stmtIteration _ (.iteration whileW lparW _ rparW _ rfl rfl
      (good_ppExpr cond h.1) rfl (good_ppStmt b h.2))
  | .returnVoid, _ => by
    rw [ppStmt]
    exact .stmtReturn _ (.returnNo returnW semiW rfl rfl)
  | .returnExpr e, h => by
    rw [ppStmt]
    exact .stmtReturn _ (.returnE returnW _ semiW rfl (good_ppExpr e h) rfl)
termination_by st h => sizeOf st
decreasing_by all_goals (simp_wf; try omega)

theorem good_ppStmtListAcc : ∀ (l : StmtList) (u : List Word),
    Derives .stmtList u → goodStmtList l = true →
    Derives .stmtList (u ++ ppStmtList l)
  | .nil, u, hu, _ => by
    rw [ppStmtList]
    simpa using hu
  | .cons st t, u, hu, h => by
    simp only [goodStmtList, Bool.and_eq_true] at h
    rw [ppStmtList]
    have hstep := Derives.stmtListCons u (ppStmt st) hu (good_ppStmt st h.1)
    have h2 := good_ppStmtListAcc t (u ++ ppStmt st) hstep h.2
    simpa using h2
termination_by l u hu h => sizeOf l
decreasing_by all_goals (simp_wf; try omega)

theorem good_ppCompound : ∀ (c : CompoundStmt), goodCompound c = true →
    Derives .compoundStmt (ppCompound c)
  | .mk decls stmts, h => by
    simp only [goodCompound, Bool.and_eq_true] at h
    rw [ppCompound]
    have hs : Derives .stmtList (ppStmtList stmts) := by
      have h2 := good_ppStmtListAcc stmts [] .stmtListNil h.2
      simpa using h2
    exact .compound lcurW _ _ rcurW rfl (good_ppLocalDecls decls h.1) hs rfl
termination_by c h => sizeOf c
decreasing_by all_goals (simp_wf; try omega)

end

theorem good_ppParam (p : ParmVarDecl) (h : goodParam p = true) :
    Derives .param (ppParam p) := by
  rw [ppParam]
  rcases p.is_array with - | -
  · rw [if_neg (by simp)]
    exact .paramPlain _ _ (isTypeSpec_typeWord p.type) rfl
  · rw [if_pos rfl]
    exact .paramArray _ _ _ _ (isTypeSpec_typeWord p.type) rfl rfl rfl

theorem ppParamList_eq : ∀ (p : ParmVarDecl) (ps : List ParmVarDecl),
    ppParamList (p :: ps) = ppParam p ++ ppParamsRest ps
  | p, [] => by
    rw [ppParamList, ppParamsRest]
    simp
  | p, q :: qs => by
    rw [ppParamList, ppParamsRest, ppParamList_eq q qs]
    simp

theorem good_ppParamsRestAcc : ∀ (ps : List ParmVarDecl) (u : List Word),
    Derives .paramList u → goodParamList ps = true →
    Derives .paramList (u ++ ppParamsRest ps)
  | [], u, hu, _ => by
    rw [ppParamsRest]
    simpa using hu
  | p :: ps, u, hu, h => by
    simp only [goodParamList, Bool.and_eq_true] at h
    rw [ppParamsRest]
    have hstep := Derives.paramListCons u commaW (ppParam p) hu rfl (good_ppParam p h.1)
    have h2 := good_ppParamsRestAcc ps (u ++ commaW :: ppParam p) hstep h.2
    simpa using h2

theorem good_ppParams : ∀ (ps : List ParmVarDecl), goodParamList ps = true →
    Derives .params (ppParams ps)
  | [], _ => by
    rw [ppParams]
    exact .paramsVoid voidW rfl
  | p :: ps, h => by
    simp only [goodParamList, Bool.and_eq_true] at h
    show Derives .params (ppParamList (p :: ps))
    rw [ppParamList_eq]
    exact .paramsList _ (good_ppParamsRestAcc ps (ppParam p)
      (.paramListOne _ (good_ppParam p h.1)) h.2)

theorem good_ppFunDecl (fd : ASTFunDecl) (h : goodFunDecl fd = true) :
    Derives .funDecl (ppFunDecl fd) := by
  rw [goodFunDecl] at h
  rcases hb : fd.body with - | c
  · rw [hb] at h
    simp at h
  · rw [hb, Bool.and_eq_true, Bool.and_eq_true] at h
    rw [ppFunDecl, hb]
    exact .funDecl _ _ _ _ _ _ (isTypeSpec_typeWord fd.retn) rfl rfl
      (good_ppParams fd.params h.1.2) rfl (good_ppCompound c h.2)

theorem good_ppDecl : ∀ (d : Decl), goodDecl d = true → Derives .decl (ppDecl d)
  | .varD v, h => by
    rw [ppDecl]
    exact .declVar _ (good_ppVarDecl v h)
  | .funD fd, h => by
    rw [ppDecl]
    exact .declFun _ (good_ppFunDecl fd h)

theorem good_ppDeclListAcc : ∀ (ds : List Decl) (u : List Word),
    Derives .declList u → goodDeclList ds = true →
    Derives .declList (u ++ ppDeclList ds)
  | [], u, hu, _ => by
    rw [ppDeclList]
    simpa using hu
  | d :: ds, u, hu, h => by
    simp only [goodDeclList, Bool.and_eq_true] at h
    rw [ppDeclList]
    have hstep := Derives.declListCons u (ppDecl d) hu (good_ppDecl d h.1)
    have h2 := good_ppDeclListAcc ds (u ++ ppDecl d) hstep h.2
    simpa using h2

theorem good_ppProgram (p : Program) (h : goodProgram p = true) :
    Derives .program (ppProgram p) := by
  rw [goodProgram, Bool.and_eq_true] at h
  rw [ppProgram]
  rcases hd : p.decls with - | ⟨d, ds⟩
  · rw [hd] at h
    simp at h
  · rw [hd] at h
    simp only [goodDeclList, Bool.and_eq_true] at h
    rw [ppDeclList]
    have hstep := good_ppDeclListAcc ds (ppDecl d)
      (.declListOne _ (good_ppDecl d h.2.1)) h.2.2
    exact .program _ hstep


/-- C1 (amended): every AST that `parse_program` returns is well-formed and
its canonical pretty-print is derivable from the grammar's start symbol.  The
original round-trip claim — that the input word stream itself is always
derivable — is refuted by `C1_counterexample`. -/
theorem C1_parser_output_derivable (f : Nat) (s : PState) (p : Program)
    (h : (parse_program f s).1 = some p) :
    goodProgram p = true ∧ Derives .program (ppProgram p) := by
  have hinv := inv_parse_program f s p h
  exact ⟨hinv.1, good_ppProgram p hinv.1⟩

/-- C1 counterexample: the parser accepts the word stream of
`void main ( void ) \x7b ( x ) = 5 ; \x7d`, yet the grammar cannot derive that
stream (its `=` is not preceded by the tail of a `var`), so the parser does
accept word streams the grammar cannot derive and no printer can reproduce
every accepted input from the returned AST. -/
theorem C1_counterexample :
    (parse_program 30 (initState cexStream [])).1.isSome = true ∧
    ¬ Derives .program cexStream :=
  ⟨by rfl, not_derivable_of_assignChk .program cexStream (by rfl)⟩

/-- C1 witness: on `int x ;` the parser returns a program whose print derives
from `program`. -/
theorem C1_parser_output_derivable_witness :
    goodProgram ⟨[Decl.varD ⟨.int, "x", none⟩]⟩ = true ∧
    Derives .program (ppProgram ⟨[Decl.varD ⟨.int, "x", none⟩]⟩) :=
  C1_parser_output_derivable 10 (initState [typeWord .int, idWord "x", semiW] [])
    ⟨[Decl.varD ⟨.int, "x", none⟩]⟩ (by rfl)

/-- C4: after a successful simple-expression, `parse_expression` builds an
assignment exactly when the result is a VarRef and the next word is `=`: it
then consumes the `=` and recurses for the right-hand side, producing a
BinaryExpr with op `Assign` and that VarRef as left-hand side (so nested
assignments are right-associative); otherwise it returns the simple
expression unchanged. -/
theorem C4_assignment_condition (f : Nat) (s : PState) (e1 : Expr) (s1 : PState)
    (h : parse_simple_expression f s = (some e1, s1)) :
    (∀ lv, e1.as_var_expr = some lv → s1.peek_word.category = .Assign →
      parse_expression (f+1) s =
        (match parse_expression f s1.consume with
         | (some e2, s2) => (some (Expr.binary .Assign lv e2), s2)
         | (none, s2) => (none, s2))) ∧
    ((e1.as_var_expr = none ∨ s1.peek_word.category ≠ .Assign) →
      parse_expression (f+1) s = (some e1, s1)) := by
  constructor
  · intro lv hlv hassign
    simp only [parse_expression, h, hlv]
    have htc : try_consume [Category.Assign] s1 = (some s1.peek_word, s1.consume) := by
      rw [try_consume, if_pos (by simp [hassign])]
    simp only [htc]
    rcases hr : parse_expression f s1.consume with ⟨r, s2⟩
    cases r with
    | none => rfl
    | some e2 => rfl
  · intro hcond
    simp only [parse_expression, h]
    rcases hv : e1.as_var_expr with - | lv
    · rfl
    · rcases hcond with hnone | hne
      · rw [hv] at hnone
        cases hnone
      · have htc : try_consume [Category.Assign] s1 = (none, s1) := by
          rw [try_consume, if_neg (by simp [hne])]
        simp only [htc]

/-- C4 witness: `a = b = 1` parses to the right-associated nested
assignment. -/
theorem C4_assignment_condition_witness :
    parse_expression 7
      (initState [idWord "a", opWord .Assign, idWord "b", opWord .Assign, numWord 1] []) =
      (some (.binary .Assign (.varPlain "a")
        (.binary .Assign (.varPlain "b") (.num 1))),
       ⟨[], [], [], [⟨.sema_undeclared_identifier, [.sym "a"]⟩,
         ⟨.sema_undeclared_identifier, [.sym "b"]⟩]⟩) :=
  ((C4_assignment_condition 6
      (initState [idWord "a", opWord .Assign, idWord "b", opWord .Assign, numWord 1] [])
      (.varPlain "a")
      ⟨[opWord .Assign, idWord "b", opWord .Assign, numWord 1], [], [],
        [⟨.sema_undeclared_identifier, [.sym "a"]⟩]⟩
      (by rfl)).1 (.varPlain "a") (by rfl) (by rfl)).trans (by rfl)

/-- C5: once `type ID (` has been consumed, `act_on_fun_decl_start` installs
the FunDecl shell into the enclosing scope and a single `FunParamsScope`
frame is pushed before any parameter or body parsing, the rest of the
function parse factors through `parse_fun_body` in that state (where the
function already resolves to itself), and that frame stays the one active
frame across the params and compound-body parse. -/
theorem C5_fun_scope_discipline (f : Nat) (s : PState) (retn idw lp : Word)
    (s1 s2 s3 : PState)
    (h1 : expect_and_consume_type s = (some retn, s1))
    (h2 : expect_and_consume .Identifier s1 = (some idw, s2))
    (h3 : expect_and_consume .OpenParen s2 = (some lp, s3))
    (hne : s3.scopes ≠ []) :
    parse_fun_declaration (f+1) s =
      (match parse_fun_body f s3.funHeap.length
          (pushScope .funParams (act_on_fun_decl_start retn idw s3).2) with
       | (none, sE) => (none, popScope sE)
       | (some _, sE) =>
         (some ((popScope sE).funHeap.getD s3.funHeap.length default), popScope sE)) ∧
    lookupScopes idw.lexeme
      (pushScope .funParams (act_on_fun_decl_start retn idw s3).2).scopes =
      some (.funE s3.funHeap.length) ∧
    (pushScope .funParams (act_on_fun_decl_start retn idw s3).2).scopes.head? =
      some ⟨.funParams, []⟩ ∧
    scopesTopOnly (pushScope .funParams (act_on_fun_decl_start retn idw s3).2)
      (parse_fun_body f s3.funHeap.length
        (pushScope .funParams (act_on_fun_decl_start retn idw s3).2)).2 := by
  obtain ⟨fr, rest, hsc⟩ := List.exists_cons_of_ne_nil hne
  refine ⟨?_, lookup_pushed_act_on_fun_decl_start retn idw s3 fr rest hsc, rfl, ?_⟩
  · simp only [parse_fun_declaration, h1, h2, h3]
    rcases hstart : act_on_fun_decl_start retn idw s3 with ⟨idx, s4⟩
    have h' := hstart
    simp only [act_on_fun_decl_start] at h'
    have hidx : s3.funHeap.length = idx := congrArg Prod.fst h'
    simp only [hstart]
    rw [← hidx]
    rcases hb : parse_fun_body f s3.funHeap.length (pushScope .funParams s4) with ⟨r, sE⟩
    cases r with
    | none => rfl
    | some u => rfl
  · have hlt : s3.funHeap.length <
        (pushScope .funParams (act_on_fun_decl_start retn idw s3).2).funHeap.length := by
      show s3.funHeap.length < (s3.funHeap ++ [(⟨typeOf retn, idw.lexeme, [], none⟩ : ASTFunDecl)]).length
      simp
    exact (inv_parse_fun_body f _ _ hlt).1

/-- C5 witness: on `void f ( void ) ;` under the global frame, the shell
installed before the params frame resolves the function's own name. -/
theorem C5_fun_scope_discipline_witness :
    lookupScopes "f" (pushScope .funParams
      (act_on_fun_decl_start voidW (idWord "f") sFun.consume.consume.consume).2).scopes =
      some (.funE 0) := by
  have h := C5_fun_scope_discipline 3 sFun voidW (idWord "f") lparW
    sFun.consume sFun.consume.consume sFun.consume.consume.consume
    (by rfl) (by rfl) (by rfl) (by decide)
  exact h.2.1

/-- C7: the additive-expression and term loops left-associate: a three-operand
sequence with two additive (or two multiplicative) operators parses to a
BinaryExpr whose left child is the BinaryExpr of the first two operands. -/
theorem C7_left_assoc :
    (∀ k s s1 s2 s3 a b c,
      parse_term (k+1+1+1) s = (some a, s1) →
      isAddop s1.peek_word.category = true →
      parse_term (k+1+1) s1.consume = (some b, s2) →
      isAddop s2.peek_word.category = true →
      parse_term (k+1) s2.consume = (some c, s3) →
      isAddop s3.peek_word.category = false →
      parse_additive_expression (k+1+1+1+1) s =
        (some (.binary s2.peek_word.category
          (.binary s1.peek_word.category a b) c), s3)) ∧
    (∀ k s s1 s2 s3 a b c,
      parse_factor (k+1+1+1) s = (some a, s1) →
      isMulop s1.peek_word.category = true →
      parse_factor (k+1+1) s1.consume = (some b, s2) →
      isMulop s2.peek_word.category = true →
      parse_factor (k+1) s2.consume = (some c, s3) →
      isMulop s3.peek_word.category = false →
      parse_term (k+1+1+1+1) s =
        (some (.binary s2.peek_word.category
          (.binary s1.peek_word.category a b) c), s3)) := by
  constructor
  · intro k s s1 s2 s3 a b c ha hop1 hb hop2 hc hend
    have ht1 : try_consume [Category.Plus, Category.Minus] s1 =
        (some s1.peek_word, s1.consume) := by
      rw [try_consume, if_pos (mem_of_addop _ hop1)]
    have ht2 : try_consume [Category.Plus, Category.Minus] s2 =
        (some s2.peek_word, s2.consume) := by
      rw [try_consume, if_pos (mem_of_addop _ hop2)]
    have ht3 : try_consume [Category.Plus, Category.Minus] s3 = (none, s3) := by
      rw [try_consume, if_neg (not_mem_of_addop _ hend)]
    simp only [parse_additive_expression, parse_additive_loop, ha, ht1, hb, ht2, hc, ht3]
    rfl
  · intro k s s1 s2 s3 a b c ha hop1 hb hop2 hc hend
    have ht1 : try_consume [Category.Multiply, Category.Divide] s1 =
        (some s1.peek_word, s1.consume) := by
      rw [try_consume, if_pos (mem_of_mulop _ hop1)]
    have ht2 : try_consume [Category.Multiply, Category.Divide] s2 =
        (some s2.peek_word, s2.consume) := by
      rw [try_consume, if_pos (mem_of_mulop _ hop2)]
    have ht3 : try_consume [Category.Multiply, Category.Divide] s3 = (none, s3) := by
      rw [try_consume, if_neg (not_mem_of_mulop _ hend)]
    simp only [parse_term, parse_term_loop, ha, ht1, hb, ht2, hc, ht3]
    rfl

/-- C7 witness: `1 + 2 - 3` parses to the left-associated tree. -/
theorem C7_left_assoc_witness :
    parse_additive_expression 5
      (initState [numWord 1, opWord .Plus, numWord 2, opWord .Minus, numWord 3] []) =
      (some (.binary .Minus (.binary .Plus (.num 1) (.num 2)) (.num 3)),
        (⟨[], [], [], []⟩ : PState)) :=
  C7_left_assoc.1 1
    (initState [numWord 1, opWord .Plus, numWord 2, opWord .Minus, numWord 3] [])
    ⟨[opWord .Plus, numWord 2, opWord .Minus, numWord 3], [], [], []⟩
    ⟨[opWord .Minus, numWord 3], [], [], []⟩ ⟨[], [], [], []⟩
    (.num 1) (.num 2) (.num 3)
    (by rfl) (by rfl) (by rfl) (by rfl) (by rfl) (by rfl)

/-- C9: `parse_factor` returns the inner expression of a parenthesized group
unchanged, so `( x ) = 5` is accepted as an assignment to `x`, even though
the grammar cannot derive that word stream from `expression`. -/
theorem C9_paren_lvalue_assignment :
    (∀ f s e s1, s.peek_word.category = .OpenParen →
      parse_expression f s.consume = (some e, s1) →
      s1.peek_word.category = .CloseParen →
      parse_factor (f+1) s = (some e, s1.consume)) ∧
    (parse_expression 20 (initState parenAssignStream [])).1 =
      some (.binary .Assign (.varPlain "x") (.num 5)) ∧
    ¬ Derives .expr parenAssignStream := by
  refine ⟨?_, by rfl, not_derivable_of_assignChk .expr parenAssignStream (by rfl)⟩
  intro f s e s1 hop hinner hcp
  simp only [parse_factor, hop, hinner]
  have hcp2 : expect_and_consume .CloseParen s1 = (some s1.peek_word, s1.consume) := by
    rw [expect_and_consume, try_consume, if_pos (by simp [hcp])]
  simp only [hcp2]

/-- C9 witness: the factor `( x )` parses to the plain VarRef `x`
unchanged. -/
theorem C9_paren_lvalue_assignment_witness :
    parse_factor 9 (initState parenAssignStream []) =
      (some (.varPlain "x"),
       (⟨[opWord .Assign, numWord 5], [], [],
         [⟨.sema_undeclared_identifier, [.sym "x"]⟩]⟩ : PState)) :=
  C9_paren_lvalue_assignment.1 8 (initState parenAssignStream []) (.varPlain "x")
    ⟨[rparW, opWord .Assign, numWord 5], [], [],
      [⟨.sema_undeclared_identifier, [.sym "x"]⟩]⟩
    (by rfl) (by rfl) (by rfl)

/-- C10: when the ParseScope block of a function declaration fails after
`act_on_fun_decl_start`, the parse returns null with only the params frame
popped: the heap still holds the shell, its name is unchanged, and the
enclosing scope still resolves the function's name to it. -/
theorem C10_fun_decl_not_atomic (f : Nat) (s : PState) (retn idw lp : Word)
    (s1 s2 s3 sE : PState)
    (h1 : expect_and_consume_type s = (some retn, s1))
    (h2 : expect_and_consume .Identifier s1 = (some idw, s2))
    (h3 : expect_and_consume .OpenParen s2 = (some lp, s3))
    (hne : s3.scopes ≠ [])
    (hfail : parse_fun_body f s3.funHeap.length
        (pushScope .funParams (act_on_fun_decl_start retn idw s3).2) = (none, sE)) :
    parse_fun_declaration (f+1) s = (none, popScope sE) ∧
    (popScope sE).funHeap.length = s3.funHeap.length + 1 ∧
    ((popScope sE).funHeap.getD s3.funHeap.length default).name = idw.lexeme ∧
    lookupScopes idw.lexeme (popScope sE).scopes = some (.funE s3.funHeap.length) := by
  obtain ⟨fr, rest, hsc⟩ := List.exists_cons_of_ne_nil hne
  have hlt : s3.funHeap.length <
      (pushScope .funParams (act_on_fun_decl_start retn idw s3).2).funHeap.length := by
    show s3.funHeap.length < (s3.funHeap ++ [(⟨typeOf retn, idw.lexeme, [], none⟩ : ASTFunDecl)]).length
    simp
  have hout := inv_parse_fun_body f s3.funHeap.length
    (pushScope .funParams (act_on_fun_decl_start retn idw s3).2) hlt
  rw [hfail] at hout
  refine ⟨?_, ?_, ?_, ?_⟩
  · simp only [parse_fun_declaration, h1, h2, h3]
    rcases hstart : act_on_fun_decl_start retn idw s3 with ⟨idx, s4⟩
    have h' := hstart
    simp only [act_on_fun_decl_start] at h'
    have hidx : s3.funHeap.length = idx := congrArg Prod.fst h'
    simp only [hstart] at hfail
    rw [hidx] at hfail
    simp only [hstart, hfail]
  · show sE.funHeap.length = s3.funHeap.length + 1
    rw [hout.2.1.1]
    show (s3.funHeap ++ [(⟨typeOf retn, idw.lexeme, [], none⟩ : ASTFunDecl)]).length =
      s3.funHeap.length + 1
    simp
  · show (sE.funHeap.getD s3.funHeap.length default).name = idw.lexeme
    rw [hout.2.1.2.2.1]
    show ((s3.funHeap ++ [(⟨typeOf retn, idw.lexeme, [], none⟩ : ASTFunDecl)]).getD
      s3.funHeap.length default).name = idw.lexeme
    rw [getD_append_self]
  · have htail : sE.scopes.tail = (act_on_fun_decl_start retn idw s3).2.scopes :=
      hout.1.1
    show lookupScopes idw.lexeme sE.scopes.tail = some (.funE s3.funHeap.length)
    rw [htail]
    exact lookup_act_on_fun_decl_start retn idw s3 fr rest hsc

/-- C10 witness: on `void f ( void ) ;` the body parse fails, yet the shell
stays on the heap and the global frame still resolves `f`. -/
theorem C10_fun_decl_not_atomic_witness :
    parse_fun_declaration 4 sFun = (none, popScope sFunFail) ∧
    (popScope sFunFail).funHeap.length = 1 ∧
    ((popScope sFunFail).funHeap.getD 0 default).name = "f" ∧
    lookupScopes "f" (popScope sFunFail).scopes = some (.funE 0) :=
  C10_fun_decl_not_atomic 3 sFun voidW (idWord "f") lparW
    sFun.consume sFun.consume.consume sFun.consume.consume.consume sFunFail
    (by rfl) (by rfl) (by rfl) (by decide) (by rfl)


end CMinus
